import Mathlib

/-!
# vuln-analyzer: the analysis / impact-simulation core of `routes/analysisRoutes.js`

A shallow embedding of the pure functions of `src/backend/routes/analysisRoutes.js`
(`simulateDependencyRelations`, `extractRecommendedVersions`,
`extractSafeVersionFromDescription`, `buildSimulations` and the body of the
`POST /impact-analysis` handler, the summary and the edge parser of the analyze handler)
and of the impact colouring of `src/frontend/src/ConnectivityGraph.js`, together with the
JavaScript library behaviour they rest on: backtracking regular expressions,
`String.prototype.match / replace / split / trim`, `Number`, number-to-string conversion,
`Array.prototype.sort`, `Set`, and property lookup on a plain object used as a dictionary.

Conventions.
* A JavaScript string is a `String`; text functions work on its `List Char`.  The regular
  expressions of the source carry no `u` flag and so work on UTF-16 code units; every
  boundary they can stop at (white space, `,`, `.`, a digit, end of input) is a BMP
  character, so on well-formed text matching by code point gives the same substrings.
* A JavaScript number that holds a non-negative integer is a `Nat`: the value of the
  IEEE-754 double, with `2 ^ 1024` standing for `Infinity`.
* A thrown `TypeError` is `none` (`BfsOutcome.typeError` in the breadth-first search).
-/

namespace VulnAnalyzer

/-! ## Characters -/

/-- ECMAScript `WhiteSpace` and `LineTerminator` code points: the class `\s` of a regular
expression and the characters `String.prototype.trim` strips. -/
def isJsSpace (c : Char) : Bool :=
  let n := c.toNat
  n == 0x09 || n == 0x0A || n == 0x0B || n == 0x0C || n == 0x0D || n == 0x20 ||
  n == 0xA0 || n == 0x1680 || (0x2000 ≤ n && n ≤ 0x200A) || n == 0x2028 || n == 0x2029 ||
  n == 0x202F || n == 0x205F || n == 0x3000 || n == 0xFEFF

/-- ECMAScript `LineTerminator`: the characters `.` does not match (no `s` flag). -/
def isLineTerminator (c : Char) : Bool :=
  let n := c.toNat
  n == 0x0A || n == 0x0D || n == 0x2028 || n == 0x2029

/-- The class `.` of a regular expression without the `s` flag. -/
def isDot (c : Char) : Bool := !isLineTerminator c

/-- The class `\d`: the ASCII digits. -/
def isDigit (c : Char) : Bool := 48 ≤ c.toNat && c.toNat ≤ 57

/-- Upper-casing of the ASCII letters.  Under the `i` flag (without `u`) a pattern
character `p` matches an input character `c` when `Canonicalize c = Canonicalize p`;
`Canonicalize` never maps a non-ASCII character to an ASCII one, so for an ASCII pattern
character this is equality after ASCII upper-casing. -/
def asciiUpper (c : Char) : Char :=
  if 97 ≤ c.toNat ∧ c.toNat ≤ 122 then Char.ofNat (c.toNat - 32) else c

/-- One pattern character under the `i` flag. -/
def ciChar (p : Char) (c : Char) : Bool := asciiUpper c == asciiUpper p

/-- One pattern character, case-sensitively. -/
def exactChar (p : Char) (c : Char) : Bool := c == p

/-! ## Backtracking regular expressions -/

/-- The fragment of ECMAScript patterns the source uses.  Every quantified atom of the
source is a single-character class, so the quantifiers take a character predicate. -/
inductive Regex where
  /-- The empty pattern. -/
  | empty
  /-- One character of a class. -/
  | chr (p : Char → Bool)
  /-- Concatenation. -/
  | seq (a b : Regex)
  /-- Alternation `a|b`, left alternative first. -/
  | alt (a b : Regex)
  /-- Greedy `(?:a)?`. -/
  | opt (a : Regex)
  /-- Greedy `c*`. -/
  | star (p : Char → Bool)
  /-- Greedy `c+`. -/
  | plus (p : Char → Bool)
  /-- Lazy `c+?`. -/
  | plusLazy (p : Char → Bool)
  /-- Capture group 1. -/
  | group (a : Regex)
  /-- End of input `$` (no `m` flag). -/
  | eos

/-- Greedy repetition of a class: take as many characters as possible, and give one back
each time the continuation fails. -/
def starGreedy {α : Type} (p : Char → Bool) (k : List Char → Option α) :
    List Char → Option α
  | [] => k []
  | c :: t =>
    if p c then
      match starGreedy p k t with
      | some r => some r
      | none => k (c :: t)
    else k (c :: t)

/-- Lazy repetition of a class: try the continuation first, and take one more character
each time it fails. -/
def starLazy {α : Type} (p : Char → Bool) (k : List Char → Option α) :
    List Char → Option α
  | [] => k []
  | c :: t =>
    match k (c :: t) with
    | some r => some r
    | none => if p c then starLazy p k t else none

/-- The backtracking matcher: `r.run s cap k` matches `r` at the head of `s` with the
capture `cap` so far and hands the rest of the input and the capture to the
continuation `k`; the first alternative whose continuation succeeds wins. -/
def Regex.run {α : Type} : Regex → List Char → Option (List Char) →
    (List Char → Option (List Char) → Option α) → Option α
  | .empty, s, cap, k => k s cap
  | .chr p, s, cap, k =>
    match s with
    | c :: t => if p c then k t cap else none
    | [] => none
  | .seq a b, s, cap, k => a.run s cap (fun s1 cap1 => b.run s1 cap1 k)
  | .alt a b, s, cap, k =>
    match a.run s cap k with
    | some r => some r
    | none => b.run s cap k
  | .opt a, s, cap, k =>
    match a.run s cap k with
    | some r => some r
    | none => k s cap
  | .star p, s, cap, k => starGreedy p (fun r => k r cap) s
  | .plus p, s, cap, k =>
    match s with
    | c :: t => if p c then starGreedy p (fun r => k r cap) t else none
    | [] => none
  | .plusLazy p, s, cap, k =>
    match s with
    | c :: t => if p c then starLazy p (fun r => k r cap) t else none
    | [] => none
  | .group a, s, cap, k =>
    a.run s cap (fun s1 _ => k s1 (some (s.take (s.length - s1.length))))
  | .eos, s, cap, k =>
    match s with
    | [] => k [] cap
    | _ :: _ => none

/-- A literal followed by the pattern `r`, one pattern character after the other. -/
def Regex.lit (f : Char → Char → Bool) : List Char → Regex → Regex
  | [], r => r
  | c :: cs, r => .seq (.chr (f c)) (Regex.lit f cs r)

/-- The result of one successful match. -/
structure Match where
  /-- The input skipped before the match begins. -/
  before : List Char
  /-- The matched text, `m[0]`. -/
  text : List Char
  /-- Capture group 1, `m[1]`. -/
  cap : Option (List Char)
  /-- The input from the end of the match on. -/
  after : List Char

/-- A match that begins at the head of `s`. -/
def Regex.matchAt (r : Regex) (s : List Char) : Option Match :=
  r.run s none (fun rest cap =>
    some { before := [], text := s.take (s.length - rest.length), cap := cap, after := rest })

/-- The leftmost match, as `RegExp.prototype.exec` finds it: the start positions are tried
from left to right, the end of the input included. -/
def Regex.exec (r : Regex) : List Char → Option Match
  | [] => r.matchAt []
  | c :: t =>
    match r.matchAt (c :: t) with
    | some m => some m
    | none =>
      match Regex.exec r t with
      | some m => some { m with before := c :: m.before }
      | none => none

/-- Successive matches (`lastIndex` loop of a `g` regular expression): after a match the
search resumes at its end, one character further on when the match was empty. -/
def Regex.matchesAux (r : Regex) : Nat → List Char → List Match
  | 0, _ => []
  | fuel + 1, s =>
    match r.exec s with
    | none => []
    | some m =>
      m :: (if m.text.isEmpty then
              match m.after with
              | [] => []
              | _ :: t => Regex.matchesAux r fuel t
            else Regex.matchesAux r fuel m.after)

/-- All successive matches of a `g` regular expression.  Every round consumes at least one
character, so `s.length + 1` rounds exhaust the input. -/
def Regex.matchesAll (r : Regex) (s : List Char) : List Match :=
  r.matchesAux (s.length + 1) s

/-- The call `s.match(/r/g)`: the matched texts, `null` (here `none`) when there is none. -/
def Regex.matchGlobal (r : Regex) (s : List Char) : Option (List (List Char)) :=
  match r.matchesAll s with
  | [] => none
  | ms => some (ms.map Match.text)

/-- Worker of `replaceAll`. -/
def Regex.replaceAux (r : Regex) (rep : List Char) : Nat → List Char → List Char
  | 0, s => s
  | fuel + 1, s =>
    match r.exec s with
    | none => s
    | some m =>
      m.before ++ rep ++
        (if m.text.isEmpty then
           match m.after with
           | [] => []
           | c :: t => c :: Regex.replaceAux r rep fuel t
         else Regex.replaceAux r rep fuel m.after)

/-- The call `s.replace(/r/g, rep)` for a replacement text without `$` patterns. -/
def Regex.replaceAll (r : Regex) (rep : List Char) (s : List Char) : List Char :=
  r.replaceAux rep (s.length + 1) s

/-- The loop of `RegExp.prototype[Symbol.split]`: `acc` is the piece begun at `p`, the list
is the input from `q` on.  A match is tried at `q` only; an empty match at `q = p` is
passed over. -/
def Regex.splitAux (r : Regex) : Nat → List Char → List Char → List (List Char)
  | 0, acc, s => [acc ++ s]
  | _ + 1, acc, [] => [acc]
  | fuel + 1, acc, c :: t =>
    match r.matchAt (c :: t) with
    | none => Regex.splitAux r fuel (acc ++ [c]) t
    | some m =>
      if m.text.isEmpty && acc.isEmpty then Regex.splitAux r fuel (acc ++ [c]) t
      else acc :: Regex.splitAux r fuel [] m.after

/-- The call `s.split(/r/)` for a separator without capture groups. -/
def Regex.split (r : Regex) (s : List Char) : List (List Char) :=
  match s with
  | [] => if (r.matchAt []).isSome then [] else [[]]
  | _ => r.splitAux (2 * s.length + 2) [] s

/-- The call `s.split(sep)` for a one-character string separator. -/
def splitChar (sep : Char) : List Char → List (List Char)
  | [] => [[]]
  | c :: t =>
    if c = sep then [] :: splitChar sep t
    else
      match splitChar sep t with
      | [] => [[c]]
      | h :: r => (c :: h) :: r

/-- The method `String.prototype.trim`. -/
def jsTrim (s : List Char) : List Char :=
  ((s.dropWhile isJsSpace).reverse.dropWhile isJsSpace).reverse

/-! ## The Version Recommender, stage 1 -/

/-- The pattern `/recommend(?:ed)? to upgrade to version\s+(.+?)(?:, which|\.|$)/i`. -/
def explicitRe : Regex :=
  Regex.lit ciChar "recommend".toList
    (.seq (.opt (Regex.lit ciChar "ed".toList .empty))
      (Regex.lit ciChar " to upgrade to version".toList
        (.seq (.plus isJsSpace)
          (.seq (.group (.plusLazy isDot))
            (.alt (Regex.lit ciChar ", which".toList .empty)
              (.alt (.chr (exactChar (Char.ofNat 46))) .eos))))))

/-- The pattern `/\s+or\s+/gi`. -/
def orRe : Regex :=
  .seq (.plus isJsSpace) (.seq (.chr (ciChar (Char.ofNat 111)))
    (.seq (.chr (ciChar (Char.ofNat 114))) (.plus isJsSpace)))

/-- The pattern `/\s*,\s*/`. -/
def commaRe : Regex :=
  .seq (.star isJsSpace) (.seq (.chr (exactChar (Char.ofNat 44))) (.star isJsSpace))

/-- Parse explicit upgrade suggestions from a vulnerability description
(`extractRecommendedVersions`). -/
def extractRecommendedVersions (desc : String) : List String :=
  match explicitRe.exec desc.toList with
  | none => []
  | some m =>
    ((commaRe.split (orRe.replaceAll ", ".toList (m.cap.getD []))).map
      (fun v => String.mk (jsTrim v)))

/-! ## JavaScript numbers holding non-negative integers -/

/-- The value `2 ^ 1024`, which stands for `Infinity`: every finite double is below it. -/
def jsInfinity : Nat := 2 ^ 1024

/-- Number of binary digits, by halving; `fuel` bounds the number of halvings. -/
def bitLength : Nat → Nat → Nat
  | 0, _ => 0
  | fuel + 1, n => if n = 0 then 0 else bitLength fuel (n / 2) + 1

/-- The double nearest to the integer `n` (round to nearest, ties to even; `Infinity` on
overflow).  Integers below `2 ^ 53` are doubles themselves. -/
def toDouble (n : Nat) : Nat :=
  if n < 2 ^ 53 then n
  else
    let e := bitLength n n - 53
    let q := n / 2 ^ e
    let r := n % 2 ^ e
    let half := 2 ^ (e - 1)
    let q1 := if r > half ∨ (r = half ∧ q % 2 = 1) then q + 1 else q
    if q1 * 2 ^ e ≥ jsInfinity then jsInfinity else q1 * 2 ^ e

/-- The value of a string of decimal digits read as an integer. -/
def decimalValue (s : List Char) : Nat :=
  s.foldl (fun acc c => acc * 10 + (c.toNat - 48)) 0

/-- The call `Number(s)` for a string of decimal digits: its value, rounded to a double. -/
def jsNumber (s : List Char) : Nat := toDouble (decimalValue s)

/-- The sum `x + 1` of a double and one. -/
def jsSucc (x : Nat) : Nat := toDouble (x + 1)

/-- The digits of `Number::toString` for a finite double `v ≥ 2 ^ 53`, as the integer they
spell: the decimal with the fewest significant digits that rounds to `v`, the nearest to
`v` when several have that few digits, the one with the even last digit on a tie.  The
candidates with `k` significant digits are the two multiples of `10 ^ (n - k)` around `v`,
`n` the number of digits of `v`; `k = n` gives `v` itself. -/
def shortestDecimal (v : Nat) : Nat → Nat → Nat
  | 0, _ => v
  | fuel + 1, k =>
    let n := (Nat.toDigits 10 v).length
    let unit := 10 ^ (n - k)
    let lo := v / unit * unit
    let hi := lo + unit
    let okLo := toDouble lo == v
    let okHi := toDouble hi == v
    if okLo && okHi then
      if v - lo < hi - v then lo
      else if hi - v < v - lo then hi
      else if (lo / unit) % 2 = 0 then lo else hi
    else if okLo then lo
    else if okHi then hi
    else shortestDecimal v fuel (k + 1)

/-- Drop the zeros at the end of a list of digits. -/
def stripZeros (ds : List Char) : List Char :=
  (ds.reverse.dropWhile (fun c => c == Char.ofNat 48)).reverse

/-- The conversion of a number to a string (`Number::toString`, radix 10) for a
non-negative integer double: the decimal digits below `2 ^ 53`, the shortest decimal that
rounds to the double above, in exponent form from `10 ^ 21` on. -/
def numToString (v : Nat) : List Char :=
  if v < 2 ^ 53 then Nat.toDigits 10 v
  else if v ≥ jsInfinity then "Infinity".toList
  else
    let w := shortestDecimal v (Nat.toDigits 10 v).length 1
    let ds := Nat.toDigits 10 w
    if w < 10 ^ 21 then ds
    else
      match stripZeros ds with
      | [] => ds
      | [d] => d :: "e+".toList ++ Nat.toDigits 10 (ds.length - 1)
      | d :: rest => d :: Char.ofNat 46 :: rest ++ "e+".toList ++ Nat.toDigits 10 (ds.length - 1)

/-- Template-literal conversion of a value that is a number or `undefined`. -/
def showValue : Option Nat → List Char
  | some v => numToString v
  | none => "undefined".toList

/-- Template-literal conversion of `x + 1` for `x` a number or `undefined`
(`undefined + 1` is `NaN`). -/
def showSucc : Option Nat → List Char
  | some v => numToString (jsSucc v)
  | none => "NaN".toList

/-! ## The Version Recommender, stage 2 -/

/-- The pattern `/\d+\.\d+\.\d+/g`. -/
def semverRe : Regex :=
  .seq (.plus isDigit) (.seq (.chr (exactChar (Char.ofNat 46)))
    (.seq (.plus isDigit) (.seq (.chr (exactChar (Char.ofNat 46))) (.plus isDigit))))

/-- The loop of the comparator over the indices it visits: the first index at which
`a[i] !== b[i]` decides, by the sign of `a[i] - b[i]`; a difference that is `NaN` (one side
`undefined`) counts as `0`, as `Array.prototype.sort` reads it. -/
def semverCompareAt (a b : List Nat) : List Nat → Int
  | [] => 0
  | i :: is =>
    if a[i]? ≠ b[i]? then
      match a[i]?, b[i]? with
      | some x, some y => (x : Int) - (y : Int)
      | _, _ => 0
    else semverCompareAt a b is

/-- The comparator `(a, b) => { for (let i = 0; i < 3; i++) ...; return 0; }`. -/
def semverCompare (a b : List Nat) : Int := semverCompareAt a b [0, 1, 2]

/-- The order `Array.prototype.sort` sorts by: `a` may stand before `b`. -/
def semverLe (a b : List Nat) : Prop := semverCompare a b ≤ 0

instance semverLeDecidable : DecidableRel semverLe :=
  fun a b => inferInstanceAs (Decidable (semverCompare a b ≤ 0))

/-- The array `matches.map(v => v.split('.').map(n => Number(n)))`. -/
def parseSemver (v : List Char) : List Nat := (splitChar (Char.ofNat 46) v).map jsNumber

/-- The texts `desc.match(/\d+\.\d+\.\d+/g) || []`. -/
def semverMatches (desc : String) : List (List Char) :=
  (semverRe.matchGlobal desc.toList).getD []

/-- The sorted array `semvers`: `Array.prototype.sort` is stable, and the comparator is a
total preorder, so the result is the stable sort, here by insertion. -/
def sortedSemvers (desc : String) : List (List Nat) :=
  ((semverMatches desc).map parseSemver).insertionSort semverLe

/-- Fallback semver bump if no explicit recommendation is found
(`extractSafeVersionFromDescription`). -/
def extractSafeVersionFromDescription (desc : String) : String :=
  if (semverMatches desc).length = 0 then "latest"
  else
    let last := (sortedSemvers desc).getLast?.getD []
    String.mk (showValue last[0]? ++ Char.ofNat 46 :: showValue last[1]? ++
      Char.ofNat 46 :: showSucc last[2]?)

/-! ## Data model -/

/-- One vulnerability of a report item: `{ name, severity?, description? }`. -/
structure Vulnerability where
  name : String
  severity : Option String
  description : Option String
  deriving DecidableEq, Repr

/-- One item of the raw report: `{ fileName, dependencies?, vulnerabilities? }`. -/
structure ReportItem where
  fileName : String
  dependencies : Option (List String)
  vulnerabilities : Option (List Vulnerability)
  deriving DecidableEq, Repr

/-- The raw scan report `reportJson`: `{ dependencies?: [...] }`. -/
structure Report where
  dependencies : Option (List ReportItem)
  deriving DecidableEq, Repr

/-- The record `simulateDependencyRelations` builds for one fileName. -/
structure DependencyRecord where
  fileName : String
  dependencies : List String
  vulnerabilities : List Vulnerability
  usedIn : List String
  dependencyType : String
  transitiveDepth : Nat
  deriving DecidableEq, Repr

/-- An edge `{ from, to }`. -/
structure Edge where
  from_ : String
  to_ : String
  deriving DecidableEq, Repr

/-- One upgrade simulation. -/
structure Simulation where
  id : String
  description : String
  severityScore : Nat
  recommendedVersion : String
  graph : List Edge
  deriving DecidableEq, Repr

/-- One entry of the impact list. -/
structure ImpactEntry where
  source : String
  target : String
  impactLevel : String
  transitiveDepth : Nat
  dependencyType : String
  usedIn : List String
  recommendation : String
  deriving DecidableEq, Repr

/-! ## The plain object `map` used as a dictionary -/

/-- The object `map` of `simulateDependencyRelations`: its own properties in creation
order, and the record that an assignment to `__proto__` installed as its prototype (the
prototype is `Object.prototype` itself while there is none). -/
structure JsDict where
  own : List (String × DependencyRecord)
  proto : Option DependencyRecord
  deriving DecidableEq, Repr

/-- The object literal `{}`. -/
def JsDict.empty : JsDict := { own := [], proto := none }

/-- Replace the value of an own property in place, or create the property at the end. -/
def setOwn (key : String) (v : DependencyRecord) :
    List (String × DependencyRecord) → List (String × DependencyRecord)
  | [] => [(key, v)]
  | (k, w) :: rest => if k = key then (k, v) :: rest else (k, w) :: setOwn key v rest

/-- The assignment `map[key] = v`.  The key `__proto__` reaches the setter inherited from
`Object.prototype`, which makes the object `v` the prototype of `map` and creates no own
property; every other key becomes an own property. -/
def JsDict.set (m : JsDict) (key : String) (v : DependencyRecord) : JsDict :=
  if key = "__proto__" then { m with proto := some v }
  else { m with own := setOwn key v m.own }

/-- The array index a property key spells, if any: a canonical decimal numeral of at most
`2 ^ 32 - 2`. -/
def arrayIndex? (key : String) : Option Nat :=
  let cs := key.toList
  if cs ≠ [] ∧ cs.all isDigit = true ∧ (cs.head? ≠ some (Char.ofNat 48) ∨ cs.length = 1) ∧
      decimalValue cs ≤ 4294967294 then some (decimalValue cs) else none

/-- The order of two array-index keys. -/
def indexLe (a b : String × DependencyRecord) : Prop :=
  (arrayIndex? a.1).getD 0 ≤ (arrayIndex? b.1).getD 0

instance indexLeDecidable : DecidableRel indexLe :=
  fun a b => inferInstanceAs (Decidable ((arrayIndex? a.1).getD 0 ≤ (arrayIndex? b.1).getD 0))

/-- The own properties in the order `Object.values` visits them: the array-index keys in
ascending numeric order, then the other keys in creation order. -/
def JsDict.entries (m : JsDict) : List (String × DependencyRecord) :=
  (m.own.filter (fun e => (arrayIndex? e.1).isSome)).insertionSort indexLe ++
    m.own.filter (fun e => !(arrayIndex? e.1).isSome)

/-- The call `Object.values(map)`. -/
def JsDict.values (m : JsDict) : List DependencyRecord := m.entries.map Prod.snd

/-- The own data properties of `Object.prototype` (its accessor `__proto__` apart): all
functions. -/
def objectPrototypeKeys : List String :=
  ["constructor", "__defineGetter__", "__defineSetter__", "hasOwnProperty",
   "__lookupGetter__", "__lookupSetter__", "isPrototypeOf", "propertyIsEnumerable",
   "toString", "valueOf", "toLocaleString"]

/-- The own properties of a record object; every value is truthy (a non-empty string, an
array or the number 1). -/
def recordKeys : List String :=
  ["fileName", "dependencies", "vulnerabilities", "usedIn", "dependencyType",
   "transitiveDepth"]

/-- What the read `map[key]` yields. -/
inductive Lookup where
  /-- An own property: the record stored under the key. -/
  | record (r : DependencyRecord)
  /-- The read `map["__proto__"]` after a record was installed as the prototype. -/
  | protoRecord (r : DependencyRecord)
  /-- A truthy inherited value that is not a record: an `Object.prototype` function,
  `Object.prototype` itself, or a field of the prototype record.  Its `usedIn` is
  `undefined`. -/
  | inherited
  /-- The value `undefined`. -/
  | undefined
  deriving DecidableEq, Repr

/-- The read `map[key]`: own properties first, then the prototype chain. -/
def JsDict.get (m : JsDict) (key : String) : Lookup :=
  match m.own.lookup key with
  | some r => .record r
  | none =>
    if key = "__proto__" then
      match m.proto with
      | some p => .protoRecord p
      | none => .inherited
    else if (m.proto.isSome ∧ key ∈ recordKeys) ∨ key ∈ objectPrototypeKeys then .inherited
    else .undefined

/-- Append `name` to the `usedIn` of the record stored under `key`. -/
def pushUsedIn (key name : String) :
    List (String × DependencyRecord) → List (String × DependencyRecord)
  | [] => []
  | (k, w) :: rest =>
    if k = key then (k, { w with usedIn := w.usedIn ++ [name] }) :: rest
    else (k, w) :: pushUsedIn key name rest

/-- The statement `if (map[dep]) { map[dep].usedIn.push(name); }`.  The call of `push` on
the `undefined` `usedIn` of an inherited value throws a `TypeError`. -/
def JsDict.link (m : JsDict) (dep name : String) : Option JsDict :=
  match m.get dep with
  | .record _ => some { m with own := pushUsedIn dep name m.own }
  | .protoRecord p => some { m with proto := some { p with usedIn := p.usedIn ++ [name] } }
  | .inherited => none
  | .undefined => some m

/-- The loop `node.dependencies.forEach(dep => ...)` for one node. -/
def linkNode (name : String) : JsDict → List String → Option JsDict
  | m, [] => some m
  | m, dep :: deps =>
    match m.link dep name with
    | none => none
    | some m1 => linkNode name m1 deps

/-- The loop `Object.values(map).forEach(node => ...)` over the nodes. -/
def linkAll : JsDict → List DependencyRecord → Option JsDict
  | m, [] => some m
  | m, node :: nodes =>
    match linkNode node.fileName m node.dependencies with
    | none => none
    | some m1 => linkAll m1 nodes

/-- The record built for one report item. -/
def newRecord (d : ReportItem) : DependencyRecord :=
  { fileName := d.fileName
    dependencies := d.dependencies.getD []
    vulnerabilities := d.vulnerabilities.getD []
    usedIn := []
    dependencyType := "direct"
    transitiveDepth := 1 }

/-- The first loop: `raw.forEach(d => { map[d.fileName] = {...}; })`. -/
def buildMap (raw : List ReportItem) : JsDict :=
  raw.foldl (fun m d => m.set d.fileName (newRecord d)) JsDict.empty

/-- Build reverse dependency links from the report (`simulateDependencyRelations`);
`none` when the second loop throws. -/
def simulateDependencyRelations (reportJson : Report) : Option (List DependencyRecord) :=
  let map := buildMap (reportJson.dependencies.getD [])
  match linkAll map map.values with
  | none => none
  | some linked => some linked.values

/-! ## Simulations and the impact operation -/

/-- The text `sourceNode.vulnerabilities[0]?.description || ''`. -/
def firstDescription (sourceNode : DependencyRecord) : String :=
  match sourceNode.vulnerabilities[0]? with
  | some v => v.description.getD ""
  | none => ""

/-- The candidate versions of `buildSimulations`: the explicit ones, or the one fallback
version when there is none. -/
def recommendedVersions (desc : String) : List String :=
  let recs := extractRecommendedVersions desc
  if recs.length = 0 then [extractSafeVersionFromDescription desc] else recs

/-- Build upgrade-path simulations for a vulnerable dependency (`buildSimulations`). -/
def buildSimulations (sourceNode : DependencyRecord) (vulnerableDependency : String) :
    List Simulation :=
  (recommendedVersions (firstDescription sourceNode)).map (fun ver =>
    { id := vulnerableDependency ++ "-upgrade-to-" ++ ver
      description := "Simulate upgrading " ++ vulnerableDependency ++ " to " ++ ver
      severityScore := sourceNode.vulnerabilities.length
      recommendedVersion := ver
      graph := [{ from_ := vulnerableDependency, to_ := ver }] })

/-- Step 4 of the handler: the impact list. -/
def computeImpact (enhanced : List DependencyRecord) (vulnerableDependency : String) :
    List ImpactEntry :=
  (enhanced.filter (fun d =>
      d.dependencies.contains vulnerableDependency && d.vulnerabilities.length == 0)).map
    (fun d =>
      { source := vulnerableDependency
        target := d.fileName
        impactLevel := "High"
        transitiveDepth := d.transitiveDepth
        dependencyType := d.dependencyType
        usedIn := d.usedIn
        recommendation := "After upgrading " ++ vulnerableDependency ++
          ", verify integration with " ++ d.fileName })

/-- The response of `POST /impact-analysis`. -/
inductive ImpactResponse where
  /-- Status 200 with `{ simulations, impact }`. -/
  | ok (simulations : List Simulation) (impact : List ImpactEntry)
  /-- Status 404 with `{ error }`. -/
  | notFound (error : String)
  /-- Status 500 with `{ error }`: the `catch` branch. -/
  | failed (error : String)
  deriving DecidableEq, Repr

/-- The handler of `POST /impact-analysis` on the latest stored report of the project
(`none` when the project has no analysis) and the requested identifier. -/
def impactAnalysis (analysis : Option Report) (vulnerableDependency : String) :
    ImpactResponse :=
  match analysis with
  | none => .notFound "Analysis not found"
  | some reportJson =>
    match simulateDependencyRelations reportJson with
    | none => .failed "Impact analysis failed"
    | some enhanced =>
      match enhanced.find? (fun d => d.fileName == vulnerableDependency) with
      | none => .notFound "Vulnerable dependency not found"
      | some source =>
        .ok (buildSimulations source vulnerableDependency)
          (computeImpact enhanced vulnerableDependency)

/-! ## Closed forms used in the proofs -/

/-- Closed form of `\d+\.` at the head of `s`: the input after the dot. -/
def digitsDot (s : List Char) : Option (List Char) :=
  match s with
  | [] => none
  | c :: t =>
    if isDigit c then
      match t.dropWhile isDigit with
      | [] => none
      | d :: r => if d = Char.ofNat 46 then some r else none
    else none

/-- Closed form of `\d+` at the head of `s`, taken greedily: the input after the digits. -/
def digitsRun (s : List Char) : Option (List Char) :=
  match s with
  | [] => none
  | c :: t => if isDigit c then some (t.dropWhile isDigit) else none

/-- Closed form of `semverRe` at the head of `s`: the input after the match. -/
def semverAt (s : List Char) : Option (List Char) :=
  match digitsDot s with
  | none => none
  | some r1 =>
    match digitsDot r1 with
    | none => none
    | some r2 => digitsRun r2

/-- A text of the form digits.digits.digits with the three runs of digits `a`, `b`, `c`. -/
def semverText (a b c : List Char) : List Char :=
  a ++ Char.ofNat 46 :: b ++ Char.ofNat 46 :: c

/-- A non-empty run of ASCII digits. -/
def IsDigits (a : List Char) : Prop := a ≠ [] ∧ ∀ c ∈ a, isDigit c = true

/-- The text contains a substring of the form digits.digits.digits. -/
def HasSemver (s : List Char) : Prop :=
  ∃ pre a b c post, IsDigits a ∧ IsDigits b ∧ IsDigits c ∧
    s = pre ++ semverText a b c ++ post

/-! ## The claimed result of the fallback stage, in the words of the specification -/

/-- The integer triple (major, minor, patch) a text digits.digits.digits spells, each field
read as an exact integer. -/
def exactTriple (v : List Char) : Nat × Nat × Nat :=
  match (splitChar (Char.ofNat 46) v).map decimalValue with
  | [x, y, z] => (x, y, z)
  | _ => (0, 0, 0)

/-- The integer triples of all matches of `/\d+\.\d+\.\d+/g` in the description. -/
def matchTriples (desc : String) : List (Nat × Nat × Nat) :=
  (semverMatches desc).map exactTriple

/-- Lexicographic order on (major, minor, patch). -/
def tripleLe (u t : Nat × Nat × Nat) : Prop :=
  u.1 < t.1 ∨ (u.1 = t.1 ∧ (u.2.1 < t.2.1 ∨ (u.2.1 = t.2.1 ∧ u.2.2 ≤ t.2.2)))

instance tripleLeDecidable : DecidableRel tripleLe :=
  fun u t => inferInstanceAs
    (Decidable (u.1 < t.1 ∨ (u.1 = t.1 ∧ (u.2.1 < t.2.1 ∨ (u.2.1 = t.2.1 ∧ u.2.2 ≤ t.2.2)))))

/-- The version string `M.m.(p+1)` for the triple `(M, m, p)`, each number in decimal. -/
def bumpedVersion (t : Nat × Nat × Nat) : String :=
  Nat.repr t.1 ++ "." ++ Nat.repr t.2.1 ++ "." ++ Nat.repr (t.2.2 + 1)

/-- The array `[major, minor, patch]` of a triple. -/
def tripleList (t : Nat × Nat × Nat) : List Nat := [t.1, t.2.1, t.2.2]

/-- The invariant of the own properties of `map`: the keys are pairwise distinct and every
record is stored under its own `fileName`. -/
def KeysOk (l : List (String × DependencyRecord)) : Prop :=
  (l.map Prod.fst).Nodup ∧ ∀ e ∈ l, e.2.fileName = e.1

/-! ## Example inputs -/

/-- A report with a vulnerable item `A`, a clean item `B` that depends on `A`, and a
vulnerable item `C` that depends on `A`. -/
def exampleReport : Report :=
  { dependencies := some
      [ { fileName := "A", dependencies := none,
          vulnerabilities := some [{ name := "CVE-1", severity := some "HIGH",
                                     description := some "affects 1.0.0 and 1.2.0" }] },
        { fileName := "B", dependencies := some ["A"], vulnerabilities := none },
        { fileName := "C", dependencies := some ["A"],
          vulnerabilities := some [{ name := "CVE-2", severity := some "LOW",
                                     description := none }] } ] }

/-- The records `simulateDependencyRelations` returns for `exampleReport`. -/
def exampleEnhanced : List DependencyRecord :=
  [ { fileName := "A", dependencies := [],
      vulnerabilities := [{ name := "CVE-1", severity := some "HIGH",
                            description := some "affects 1.0.0 and 1.2.0" }],
      usedIn := ["B", "C"], dependencyType := "direct", transitiveDepth := 1 },
    { fileName := "B", dependencies := ["A"], vulnerabilities := [],
      usedIn := [], dependencyType := "direct", transitiveDepth := 1 },
    { fileName := "C", dependencies := ["A"],
      vulnerabilities := [{ name := "CVE-2", severity := some "LOW", description := none }],
      usedIn := [], dependencyType := "direct", transitiveDepth := 1 } ]

/-- A report with an item named `__proto__` that depends on the item `a`. -/
def protoReport : Report :=
  { dependencies := some
      [ { fileName := "__proto__", dependencies := some ["a"], vulnerabilities := none },
        { fileName := "a", dependencies := none, vulnerabilities := none } ] }

/-- A record whose first vulnerability mentions the version `1.0.0`. -/
def exampleLib : DependencyRecord :=
  { fileName := "lib-1.0.0.jar", dependencies := [],
    vulnerabilities := [{ name := "CVE-3", severity := some "MEDIUM",
                          description := some "Versions up to 1.0.0 are affected" }],
    usedIn := [], dependencyType := "direct", transitiveDepth := 1 }

/-! ## Closed form of the second loop of `simulateDependencyRelations` -/

/-- The effect of one `push` on one own property: the record under `dep` gains `name`. -/
def bump (dep name : String) (e : String × DependencyRecord) : String × DependencyRecord :=
  if e.1 = dep then (e.1, { e.2 with usedIn := e.2.usedIn ++ [name] }) else e

/-- The names pushed to the record under `key` while the second loop visits `nodes`: each
node once for every occurrence of `key` in its `dependencies`, in visiting order. -/
def usedInFrom (nodes : List DependencyRecord) (key : String) : List String :=
  nodes.flatMap (fun node => List.replicate (node.dependencies.count key) node.fileName)

/-- The effect of the whole second loop on one own property. -/
def withUsedIn (nodes : List DependencyRecord) (e : String × DependencyRecord) :
    String × DependencyRecord :=
  (e.1, { e.2 with usedIn := e.2.usedIn ++ usedInFrom nodes e.1 })

/-- The effect of the inner loop for one node on one own property: the record gains the
name of the node once for every occurrence of its key in `deps`. -/
def bumpMany (name : String) (deps : List String) (e : String × DependencyRecord) :
    String × DependencyRecord :=
  (e.1, { e.2 with usedIn := e.2.usedIn ++ List.replicate (deps.count e.1) name })

/-! ## The summary of the analysis operation -/

/-- The counts `summary` of `POST /projects/:id/analyze`. -/
structure AnalysisSummary where
  totalDependencies : Nat
  vulnerableCount : Nat
  highSeverity : Nat
  mediumSeverity : Nat
  lowSeverity : Nat
  deriving DecidableEq, Repr

/-- The array `deps.flatMap(d => d.vulnerabilities || [])`. -/
def allVulnerabilities (deps : List ReportItem) : List Vulnerability :=
  deps.flatMap (fun d => d.vulnerabilities.getD [])

/-- Step 8 of the handler: the summary counts, computed from the dependency list of the raw
report. -/
def buildSummary (reportJson : Report) : AnalysisSummary :=
  let deps := reportJson.dependencies.getD []
  { totalDependencies := deps.length
    vulnerableCount := (deps.filter (fun d => (d.vulnerabilities.getD []).length != 0)).length
    highSeverity :=
      ((allVulnerabilities deps).filter (fun v => v.severity == some "HIGH")).length
    mediumSeverity :=
      ((allVulnerabilities deps).filter (fun v => v.severity == some "MEDIUM")).length
    lowSeverity :=
      ((allVulnerabilities deps).filter (fun v => v.severity == some "LOW")).length }

/-! ## The Dependency Edge Parser -/

/-- The double quote. -/
def quoteChar : Char := Char.ofNat 34

/-- The pattern `/"([^"]+)"/g`. -/
def quotedRe : Regex :=
  .seq (.chr (exactChar quoteChar))
    (.seq (.group (.plus (fun c => !(c == quoteChar)))) (.chr (exactChar quoteChar)))

/-- The call `quoted.replace(/"/g, '')`: every double quote is removed. -/
def stripQuotes (quoted : List Char) : List Char :=
  quoted.filter (fun c => !(c == quoteChar))

/-- Template-literal conversion of a value that is a string or `undefined`. -/
def showField : Option (List Char) → List Char
  | some s => s
  | none => "undefined".toList

/-- The inner function `parseArtifact`: the 2nd and the 4th colon-separated field of the
coordinate, joined as `artifactId-version.jar`. -/
def parseArtifact (quoted : List Char) : String :=
  let fields := splitChar (Char.ofNat 58) (stripQuotes quoted)
  String.mk (showField fields[1]? ++ "-".toList ++ showField fields[3]? ++ ".jar".toList)

/-- The body of the loop for one line: an edge when the line has exactly two matches. -/
def parseLine (line : List Char) : Option Edge :=
  match quotedRe.matchGlobal line with
  | some [m0, m1] => some { from_ := parseArtifact m0, to_ := parseArtifact m1 }
  | _ => none

/-- Step 7 of the handler: `dotOutput.split('\n').forEach(line => ...)`, which pushes the
edge of every line that has one onto `graph`. -/
def parseGraph (dotOutput : String) : List Edge :=
  (splitChar (Char.ofNat 10) dotOutput.toList).foldl
    (fun graph line =>
      match parseLine line with
      | some edge => graph ++ [edge]
      | none => graph) []

/-- The number of quoted substrings the parser finds in a line. -/
def quotedCount (line : List Char) : Nat := (quotedRe.matchesAll line).length

/-! ## More example inputs -/

/-- Two records that differ only after their first vulnerability. -/
def exampleFirstA : DependencyRecord :=
  { fileName := "lib-1.0.0.jar", dependencies := [],
    vulnerabilities :=
      [ { name := "CVE-3", severity := some "MEDIUM",
          description := some "Versions up to 1.0.0 are affected" },
        { name := "CVE-4", severity := some "HIGH",
          description := some "It is recommended to upgrade to version 9" } ],
    usedIn := [], dependencyType := "direct", transitiveDepth := 1 }

/-- The second of the two records: another name and severity on the first vulnerability,
another second vulnerability. -/
def exampleFirstB : DependencyRecord :=
  { fileName := "lib-1.0.0.jar", dependencies := ["x"],
    vulnerabilities :=
      [ { name := "CVE-5", severity := none,
          description := some "Versions up to 1.0.0 are affected" },
        { name := "CVE-6", severity := some "LOW", description := some "fixed in 7.7.7" } ],
    usedIn := ["y"], dependencyType := "direct", transitiveDepth := 1 }

/-- A report with the severities `[HIGH, LOW]` on one item and `[CRITICAL]` on another. -/
def severityReport : Report :=
  { dependencies := some
      [ { fileName := "x.jar", dependencies := none,
          vulnerabilities := some
            [ { name := "CVE-1", severity := some "HIGH", description := none },
              { name := "CVE-2", severity := some "LOW", description := none } ] },
        { fileName := "y.jar", dependencies := none,
          vulnerabilities := some
            [ { name := "CVE-3", severity := some "CRITICAL", description := none } ] } ] }

/-- A report whose dependency list repeats the fileName `a.jar`. -/
def repeatedReport : Report :=
  { dependencies := some
      [ { fileName := "a.jar", dependencies := none, vulnerabilities := none },
        { fileName := "a.jar", dependencies := some ["b.jar"], vulnerabilities := none },
        { fileName := "b.jar", dependencies := none, vulnerabilities := none } ] }

/-- A report with one item, which depends on an identifier named `constructor`. -/
def constructorReport : Report :=
  { dependencies := some
      [ { fileName := "a.jar", dependencies := some ["constructor"], vulnerabilities := none } ] }

/-- The text `x` between two double quotes. -/
def quoted (x : List Char) : List Char := quoteChar :: x ++ [quoteChar]

/-- A non-empty text without a double quote: what may stand between two quotes. -/
def IsQuotable (x : List Char) : Prop := x ≠ [] ∧ quoteChar ∉ x

/-- A report in which `a.jar` depends on `b.jar` and on `missing.jar`, which names no item. -/
def danglingReport : Report :=
  { dependencies := some
      [ { fileName := "a.jar", dependencies := some ["missing.jar", "b.jar"],
          vulnerabilities := none },
        { fileName := "b.jar", dependencies := none, vulnerabilities := none } ] }

/-- The records `simulateDependencyRelations` returns for `danglingReport`. -/
def danglingEnhanced : List DependencyRecord :=
  [ { fileName := "a.jar", dependencies := ["missing.jar", "b.jar"], vulnerabilities := [],
      usedIn := [], dependencyType := "direct", transitiveDepth := 1 },
    { fileName := "b.jar", dependencies := [], vulnerabilities := [],
      usedIn := ["a.jar"], dependencyType := "direct", transitiveDepth := 1 } ]

/-- The records `simulateDependencyRelations` returns for `repeatedReport`. -/
def repeatedEnhanced : List DependencyRecord :=
  [ { fileName := "a.jar", dependencies := ["b.jar"], vulnerabilities := [],
      usedIn := [], dependencyType := "direct", transitiveDepth := 1 },
    { fileName := "b.jar", dependencies := [], vulnerabilities := [],
      usedIn := ["a.jar"], dependencyType := "direct", transitiveDepth := 1 } ]

/-- A report whose vulnerabilities carry the severities `high`, `CRITICAL`, `HIGH ` (with a
trailing blank) and none at all. -/
def otherSeverityReport : Report :=
  { dependencies := some
      [ { fileName := "x.jar", dependencies := none,
          vulnerabilities := some
            [ { name := "CVE-1", severity := some "high", description := none },
              { name := "CVE-2", severity := some "CRITICAL", description := none },
              { name := "CVE-3", severity := some "HIGH ", description := none },
              { name := "CVE-4", severity := none, description := none } ] } ] }

/-- A build-graph text with lines that hold one, two, two, one, three and no quoted
substrings. -/
def exampleGraphText : String :=
  "digraph \"com.x:app:jar:1.0\" \x7b\n" ++
  "\t\"com.x:app:jar:1.0\" -> \"g:a1:jar:1.0.0:compile\" ;\n" ++
  "\t\"g:a1:jar:1.0.0:compile\" -> \"g:a2:jar:2.0.0:runtime\" ;\n" ++
  "\t\"g:a3:jar:3.0.0\"\n" ++
  "\t\"g:a4:jar:4\" \"g:a5:jar:5\" \"g:a6:jar:6\"\n" ++
  " \x7d"

/-! ## Example inputs for the impact operation and the simulations -/

/-- A chain: `C` depends on `B`, `B` depends on `A`; only `A` is vulnerable. -/
def chainReport : Report :=
  { dependencies := some
      [ { fileName := "A", dependencies := none,
          vulnerabilities := some [{ name := "CVE-1", severity := some "HIGH",
                                     description := some "affects 1.0.0" }] },
        { fileName := "B", dependencies := some ["A"], vulnerabilities := none },
        { fileName := "C", dependencies := some ["B"], vulnerabilities := none } ] }

/-- The records `simulateDependencyRelations` returns for `chainReport`. -/
def chainEnhanced : List DependencyRecord :=
  [ { fileName := "A", dependencies := [],
      vulnerabilities := [{ name := "CVE-1", severity := some "HIGH",
                            description := some "affects 1.0.0" }],
      usedIn := ["B"], dependencyType := "direct", transitiveDepth := 1 },
    { fileName := "B", dependencies := ["A"], vulnerabilities := [],
      usedIn := ["C"], dependencyType := "direct", transitiveDepth := 1 },
    { fileName := "C", dependencies := ["B"], vulnerabilities := [],
      usedIn := [], dependencyType := "direct", transitiveDepth := 1 } ]

/-- The clean record `B` of `chainEnhanced`. -/
def chainB : DependencyRecord :=
  { fileName := "B", dependencies := ["A"], vulnerabilities := [],
    usedIn := ["C"], dependencyType := "direct", transitiveDepth := 1 }

/-- The vulnerable record `A` of `chainEnhanced`. -/
def chainA : DependencyRecord :=
  { fileName := "A", dependencies := [],
    vulnerabilities := [{ name := "CVE-1", severity := some "HIGH",
                          description := some "affects 1.0.0" }],
    usedIn := ["B"], dependencyType := "direct", transitiveDepth := 1 }

/-- A record whose first description names the version `5` twice in the explicit phrase. -/
def duplicateLib : DependencyRecord :=
  { fileName := "lib-4.jar", dependencies := [],
    vulnerabilities := [{ name := "CVE-7", severity := some "HIGH",
                          description := some "It is recommended to upgrade to version 5 or 5." }],
    usedIn := [], dependencyType := "direct", transitiveDepth := 1 }

/-- The colon-separated fields of a quoted coordinate, as `parseArtifact` splits them. -/
def coordinateFields (quoted : List Char) : List (List Char) :=
  splitChar (Char.ofNat 58) (stripQuotes quoted)

/-! ## Notions used in the proofs about the explicit stage -/

/-- The pattern has no capture group, so it hands the capture on unchanged. -/
def Regex.groupFree : Regex → Bool
  | .empty => true
  | .chr _ => true
  | .seq a b => a.groupFree && b.groupFree
  | .alt a b => a.groupFree && b.groupFree
  | .opt a => a.groupFree
  | .star _ => true
  | .plus _ => true
  | .plusLazy _ => true
  | .group _ => false
  | .eos => true

/-- The text has no white space at its beginning and none at its end. -/
def IsTrimmed (t : List Char) : Prop :=
  (∀ c, t.head? = some c → isJsSpace c = false) ∧
  (∀ c, t.getLast? = some c → isJsSpace c = false)

/-- The match of the explicit pattern on `recommended to upgrade to version .5 or 6.1`. -/
def periodMatch : Match :=
  { before := []
    text := "recommended to upgrade to version .5 or 6.".toList
    cap := some ".5 or 6".toList
    after := "1".toList }

/-! ## The impact colouring of `ConnectivityGraph.js` -/

/-- What the read `reverseAdj[key]` yields. -/
inductive AdjLookup where
  /-- An own property: the array stored under the key. -/
  | array (froms : List String)
  /-- A truthy value inherited from `Object.prototype`: one of its functions, or
  `Object.prototype` itself under `__proto__`.  It has neither `push` nor `forEach`. -/
  | inherited
  /-- The value `undefined`. -/
  | undefined
  deriving DecidableEq, Repr

/-- The read `reverseAdj[key]` on the plain object `reverseAdj`, given by its own
properties: own properties first, then `Object.prototype`. -/
def adjGet (reverseAdj : List (String × List String)) (key : String) : AdjLookup :=
  match reverseAdj.lookup key with
  | some froms => .array froms
  | none => if key = "__proto__" ∨ key ∈ objectPrototypeKeys then .inherited else .undefined

/-- The call `reverseAdj[key].push(name)` on an own property. -/
def pushFrom (key name : String) :
    List (String × List String) → List (String × List String)
  | [] => []
  | (k, xs) :: rest =>
    if k = key then (k, xs ++ [name]) :: rest else (k, xs) :: pushFrom key name rest

/-- The body of the first loop for one edge:
`if (!reverseAdj[to]) reverseAdj[to] = []; reverseAdj[to].push(from);`.  An inherited value
is truthy, so no array is created, and the call of its missing `push` throws a
`TypeError`. -/
def addReverse (reverseAdj : List (String × List String)) (e : Edge) :
    Option (List (String × List String)) :=
  match adjGet reverseAdj e.to_ with
  | .array _ => some (pushFrom e.to_ e.from_ reverseAdj)
  | .inherited => none
  | .undefined => some (reverseAdj ++ [(e.to_, [e.from_])])

/-- The first loop, `graph.forEach(({ from, to }) => ...)`; `none` when it throws. -/
def buildReverseAdj :
    List (String × List String) → List Edge → Option (List (String × List String))
  | m, [] => some m
  | m, e :: es =>
    match addReverse m e with
    | none => none
    | some m1 => buildReverseAdj m1 es

/-- The call `set.add(x)` on a `Set`, kept as the list of its elements in insertion order. -/
def setAdd (s : List String) (x : String) : List String := if x ∈ s then s else s ++ [x]

/-- The call `new Set(xs)`. -/
def jsSet (xs : List String) : List String := xs.foldl setAdd []

/-- The set `vulnerableSet`: the fileNames of the dependencies with a non-empty
`vulnerabilities`. -/
def vulnerableSet (dependencies : List ReportItem) : List String :=
  jsSet ((dependencies.filter (fun d => (d.vulnerabilities.getD []).length != 0)).map
    ReportItem.fileName)

/-- The variables of the breadth-first search. -/
structure BfsState where
  queue : List String
  visited : List String
  impactedSet : List String
  deriving DecidableEq, Repr

/-- The callback of `forEach` for one `dep`. -/
def visit (vulnerable : List String) (st : BfsState) (dep : String) : BfsState :=
  if dep ∈ st.visited then st
  else
    { queue := st.queue ++ [dep]
      visited := setAdd st.visited dep
      impactedSet := if dep ∈ vulnerable then st.impactedSet else setAdd st.impactedSet dep }

/-- How the search ends. -/
inductive BfsOutcome where
  /-- The queue ran empty: the final `impactedSet`. -/
  | finished (impactedSet : List String)
  /-- A `TypeError` was thrown. -/
  | typeError
  /-- The allotted rounds ran out with a non-empty queue. -/
  | unfinished
  deriving DecidableEq, Repr

/-- The loop `while (queue.length) { ... }`, for at most `fuel` rounds.  The read
`reverseAdj[curr] || []` of an inherited value is truthy, and the call of its missing
`forEach` throws a `TypeError`. -/
def bfsLoop (reverseAdj : List (String × List String)) (vulnerable : List String) :
    Nat → BfsState → BfsOutcome
  | 0, st =>
    match st.queue with
    | [] => .finished st.impactedSet
    | _ :: _ => .unfinished
  | fuel + 1, st =>
    match st.queue with
    | [] => .finished st.impactedSet
    | curr :: rest =>
      match adjGet reverseAdj curr with
      | .array froms =>
        bfsLoop reverseAdj vulnerable fuel
          (froms.foldl (visit vulnerable) { st with queue := rest })
      | .inherited => .typeError
      | .undefined => bfsLoop reverseAdj vulnerable fuel { st with queue := rest }

/-- The impact calculation of `ConnectivityGraph`: the reverse adjacency, the vulnerable
set and the breadth-first search from it.  Every identifier enters the queue at most once,
so one round for each vulnerable identifier and each edge is enough. -/
def impactedOf (dependencies : List ReportItem) (graph : List Edge) : BfsOutcome :=
  match buildReverseAdj [] graph with
  | none => .typeError
  | some reverseAdj =>
    bfsLoop reverseAdj (vulnerableSet dependencies)
      ((vulnerableSet dependencies).length + graph.length)
      { queue := vulnerableSet dependencies
        visited := vulnerableSet dependencies
        impactedSet := [] }

/-- One edge of the graph leads from `a` to `b`. -/
def edgeRel (graph : List Edge) (a b : String) : Prop :=
  ∃ e ∈ graph, e.from_ = a ∧ e.to_ = b

/-- A path of one or more edges leads from `x` to `v`. -/
def Reaches (graph : List Edge) (x v : String) : Prop :=
  Relation.TransGen (edgeRel graph) x v

/-- The sources of the edges into `key`, in the order of the edges. -/
def predecessors (graph : List Edge) (key : String) : List String :=
  (graph.filter (fun e => e.to_ == key)).map Edge.from_

/-- The identifier is a property that every plain object inherits. -/
def IsInheritedName (key : String) : Prop := key = "__proto__" ∨ key ∈ objectPrototypeKeys

/-- A graph with a cycle `a -> b -> c -> a` from which the vulnerable `v` is reachable, and
an edge out of `v`. -/
def cycleGraph : List Edge :=
  [ { from_ := "a.jar", to_ := "b.jar" }, { from_ := "b.jar", to_ := "c.jar" },
    { from_ := "c.jar", to_ := "a.jar" }, { from_ := "c.jar", to_ := "v.jar" },
    { from_ := "v.jar", to_ := "d.jar" }, { from_ := "w.jar", to_ := "v.jar" } ]

/-- The dependencies of the example: `v.jar` and `w.jar` are vulnerable. -/
def cycleDependencies : List ReportItem :=
  [ { fileName := "a.jar", dependencies := none, vulnerabilities := none },
    { fileName := "v.jar", dependencies := none,
      vulnerabilities := some [{ name := "CVE-1", severity := none, description := none }] },
    { fileName := "w.jar", dependencies := none,
      vulnerabilities := some [{ name := "CVE-2", severity := none, description := none }] },
    { fileName := "d.jar", dependencies := none, vulnerabilities := some [] } ]

/-- The invariant of the search: the vulnerable identifiers are visited; a visited
identifier is vulnerable or reaches a vulnerable one; `impactedSet` holds the visited
identifiers that are not vulnerable; a visited identifier that has left the queue has all
its predecessors visited; the queue holds visited identifiers only. -/
def BfsInv (graph : List Edge) (vs : List String) (st : BfsState) : Prop :=
  (∀ x ∈ vs, x ∈ st.visited) ∧
  (∀ x ∈ st.visited, x ∈ vs ∨ ∃ v ∈ vs, Reaches graph x v) ∧
  (∀ x, x ∈ st.impactedSet ↔ (x ∈ st.visited ∧ x ∉ vs)) ∧
  (∀ x ∈ st.visited, x ∈ st.queue ∨ ∀ y, edgeRel graph y x → y ∈ st.visited) ∧
  (∀ x ∈ st.queue, x ∈ st.visited)

/-- One vulnerable dependency whose fileName is `toString`. -/
def toStringDependencies : List ReportItem :=
  [ { fileName := "toString", dependencies := none,
      vulnerabilities := some [{ name := "CVE-1", severity := none, description := none }] } ]

/-- A report in which `app.jar` depends on the item `lib.jar` and on an identifier named
`toString`, which names no item; `lib.jar` is vulnerable. -/
def inheritedDepReport : Report :=
  { dependencies := some
      [ { fileName := "app.jar", dependencies := some ["lib.jar", "toString"],
          vulnerabilities := none },
        { fileName := "lib.jar", dependencies := none,
          vulnerabilities := some [{ name := "CVE-8", severity := some "HIGH",
                                     description := some "fixed in 1.0.1" }] } ] }

/-! # Theorems -/

/-! ## Greedy repetition -/

theorem starGreedy_of_fail {α : Type} (p : Char → Bool) (k : List Char → Option α)
    (hk : ∀ c t, p c = true → k (c :: t) = none) (s : List Char) :
    starGreedy p k s = k (s.dropWhile p) := by
  induction s with
  | nil => rfl
  | cons c t ih =>
    by_cases hc : p c = true
    · simp only [starGreedy, hc, if_true, List.dropWhile_cons_of_pos, ih]
      cases h : k (t.dropWhile p) with
      | some r => rfl
      | none => simp [hk c t hc]
    · simp [starGreedy, hc, List.dropWhile]

theorem starGreedy_of_success {α : Type} (p : Char → Bool) (k : List Char → Option α)
    (s : List Char) (r : α) (h : k (s.dropWhile p) = some r) :
    starGreedy p k s = some r := by
  induction s with
  | nil => simpa [starGreedy] using h
  | cons c t ih =>
    by_cases hc : p c = true
    · simp only [List.dropWhile_cons_of_pos hc] at h
      simp [starGreedy, hc, ih h]
    · simp only [List.dropWhile_cons_of_neg hc] at h
      simp [starGreedy, hc, h]

theorem dropWhile_append_of_all (p : Char → Bool) (a rest : List Char)
    (ha : ∀ c ∈ a, p c = true) : (a ++ rest).dropWhile p = rest.dropWhile p := by
  induction a with
  | nil => rfl
  | cons c t ih =>
    have hc : p c = true := ha c (List.mem_cons_self _ _)
    simp only [List.cons_append, List.dropWhile_cons_of_pos hc]
    exact ih (fun d hd => ha d (List.mem_cons_of_mem _ hd))

theorem isDigit_dot : isDigit (Char.ofNat 46) = false := by decide

theorem digitsDot_eq_some (s r : List Char) :
    digitsDot s = some r ↔ ∃ a, IsDigits a ∧ s = a ++ Char.ofNat 46 :: r := by
  constructor
  · intro h
    cases s with
    | nil => simp [digitsDot] at h
    | cons c t =>
      by_cases hc : isDigit c = true
      · simp only [digitsDot, hc, if_true] at h
        cases hd : t.dropWhile isDigit with
        | nil => simp [hd] at h
        | cons d r1 =>
          simp only [hd] at h
          by_cases hdd : d = Char.ofNat 46
          · simp only [hdd, if_true, Option.some.injEq] at h
            refine ⟨c :: t.takeWhile isDigit, ⟨by simp, ?_⟩, ?_⟩
            · intro x hx
              rcases List.mem_cons.mp hx with rfl | hx
              · exact hc
              · exact List.mem_takeWhile_imp hx
            · have := List.takeWhile_append_dropWhile isDigit t
              rw [hd, hdd, h] at this
              simp [this]
          · simp [hdd] at h
      · simp [digitsDot, hc] at h
  · rintro ⟨a, ⟨hne, hall⟩, rfl⟩
    cases a with
    | nil => exact absurd rfl hne
    | cons c a1 =>
      have hc : isDigit c = true := hall c (List.mem_cons_self _ _)
      have hrest : (a1 ++ Char.ofNat 46 :: r).dropWhile isDigit = Char.ofNat 46 :: r := by
        rw [dropWhile_append_of_all isDigit a1 _ (fun d hd => hall d (List.mem_cons_of_mem _ hd))]
        simp [List.dropWhile, isDigit_dot]
      simp [digitsDot, hc, hrest]

theorem digitsRun_eq_some (s r : List Char) :
    digitsRun s = some r ↔
      ∃ a, IsDigits a ∧ s = a ++ r ∧ r.dropWhile isDigit = r := by
  constructor
  · intro h
    cases s with
    | nil => simp [digitsRun] at h
    | cons c t =>
      by_cases hc : isDigit c = true
      · simp only [digitsRun, hc, if_true, Option.some.injEq] at h
        refine ⟨c :: t.takeWhile isDigit, ⟨by simp, ?_⟩, ?_, ?_⟩
        · intro x hx
          rcases List.mem_cons.mp hx with rfl | hx
          · exact hc
          · exact List.mem_takeWhile_imp hx
        · rw [← h]; simp [List.takeWhile_append_dropWhile]
        · rw [← h]; simp [List.dropWhile_idempotent]
      · simp [digitsRun, hc] at h
  · rintro ⟨a, ⟨hne, hall⟩, rfl, hr⟩
    cases a with
    | nil => exact absurd rfl hne
    | cons c a1 =>
      have hc : isDigit c = true := hall c (List.mem_cons_self _ _)
      simp only [digitsRun, List.cons_append, hc, if_true, Option.some.injEq]
      rw [dropWhile_append_of_all isDigit a1 _ (fun d hd => hall d (List.mem_cons_of_mem _ hd))]
      exact hr

theorem exactChar_dot_of_digit (c : Char) (hc : isDigit c = true) :
    exactChar (Char.ofNat 46) c = false := by
  simp only [exactChar, beq_eq_false_iff_ne, ne_eq]
  rintro rfl
  simp [isDigit_dot] at hc

theorem run_digits_dot {α : Type} (R : Regex) (s : List Char) (cap : Option (List Char))
    (K : List Char → Option (List Char) → Option α) :
    (Regex.seq (.plus isDigit) (.seq (.chr (exactChar (Char.ofNat 46))) R)).run s cap K =
      match digitsDot s with
      | none => none
      | some r => R.run r cap K := by
  cases s with
  | nil => simp [Regex.run, digitsDot]
  | cons c t =>
    by_cases hc : isDigit c = true
    · simp only [Regex.run, hc, if_true, digitsDot]
      rw [starGreedy_of_fail]
      · cases hd : t.dropWhile isDigit with
        | nil => simp
        | cons d r =>
          by_cases hdd : d = Char.ofNat 46
          · simp [hdd, exactChar]
          · simp [hdd, exactChar]
      · intro d u hd
        simp [exactChar_dot_of_digit d hd]
    · simp [Regex.run, hc, digitsDot]

theorem run_digits_total {α : Type} (s : List Char) (cap : Option (List Char))
    (K : List Char → Option (List Char) → α) :
    (Regex.plus isDigit).run s cap (fun r c => some (K r c)) =
      match digitsRun s with
      | none => none
      | some r => some (K r cap) := by
  cases s with
  | nil => simp [Regex.run, digitsRun]
  | cons c t =>
    by_cases hc : isDigit c = true
    · simp only [Regex.run, hc, if_true, digitsRun]
      exact starGreedy_of_success isDigit _ t _ rfl
    · simp [Regex.run, hc, digitsRun]

theorem semverRe_matchAt (s : List Char) :
    semverRe.matchAt s =
      (semverAt s).map (fun rest =>
        { before := [], text := s.take (s.length - rest.length), cap := none, after := rest }) := by
  unfold Regex.matchAt semverRe semverAt
  rw [run_digits_dot]
  cases h1 : digitsDot s with
  | none => rfl
  | some r1 =>
    simp only []
    rw [run_digits_dot]
    cases h2 : digitsDot r1 with
    | none => rfl
    | some r2 =>
      simp only []
      rw [run_digits_total]
      cases h3 : digitsRun r2 <;> rfl

theorem semverAt_eq_some (s rest : List Char) :
    semverAt s = some rest ↔
      ∃ a b c, IsDigits a ∧ IsDigits b ∧ IsDigits c ∧ s = semverText a b c ++ rest ∧
        rest.dropWhile isDigit = rest := by
  unfold semverAt
  constructor
  · intro h
    cases h1 : digitsDot s with
    | none => simp [h1] at h
    | some r1 =>
      cases h2 : digitsDot r1 with
      | none => simp [h1, h2] at h
      | some r2 =>
        simp only [h1, h2] at h
        obtain ⟨a, ha, hs⟩ := (digitsDot_eq_some _ _).mp h1
        obtain ⟨b, hb, hr1⟩ := (digitsDot_eq_some _ _).mp h2
        obtain ⟨c, hc, hr2, hrest⟩ := (digitsRun_eq_some _ _).mp h
        refine ⟨a, b, c, ha, hb, hc, ?_, hrest⟩
        simp [hs, hr1, hr2, semverText]
  · rintro ⟨a, b, c, ha, hb, hc, hs, hrest⟩
    have h1 : digitsDot s = some (b ++ Char.ofNat 46 :: (c ++ rest)) :=
      (digitsDot_eq_some _ _).mpr ⟨a, ha, by simp [hs, semverText]⟩
    have h2 : digitsDot (b ++ Char.ofNat 46 :: (c ++ rest)) = some (c ++ rest) :=
      (digitsDot_eq_some _ _).mpr ⟨b, hb, rfl⟩
    simp only [h1, h2]
    exact (digitsRun_eq_some _ _).mpr ⟨c, hc, rfl, hrest⟩

/-! ## The matcher hands a suffix of its input to the continuation -/

theorem starGreedy_some_imp {α : Type} (p : Char → Bool) (k : List Char → Option α)
    (v : List Char) (z : α) (h : starGreedy p k v = some z) :
    ∃ x, x <:+ v ∧ k x = some z := by
  induction v with
  | nil => exact ⟨[], List.suffix_refl _, by simpa [starGreedy] using h⟩
  | cons c t ih =>
    by_cases hp : p c = true
    · simp only [starGreedy, hp, if_true] at h
      cases hs : starGreedy p k t with
      | some w =>
        rw [hs] at h
        simp only [Option.some.injEq] at h
        subst h
        obtain ⟨x, hx, hk⟩ := ih hs
        exact ⟨x, hx.trans (List.suffix_cons c t), hk⟩
      | none =>
        rw [hs] at h
        exact ⟨c :: t, List.suffix_refl _, h⟩
    · simp only [starGreedy, hp] at h
      exact ⟨c :: t, List.suffix_refl _, h⟩

theorem starLazy_some_imp {α : Type} (p : Char → Bool) (k : List Char → Option α)
    (v : List Char) (z : α) (h : starLazy p k v = some z) :
    ∃ x, x <:+ v ∧ k x = some z := by
  induction v with
  | nil => exact ⟨[], List.suffix_refl _, by simpa [starLazy] using h⟩
  | cons c t ih =>
    simp only [starLazy] at h
    cases hs : k (c :: t) with
    | some w =>
      rw [hs] at h
      simp only [Option.some.injEq] at h
      subst h
      exact ⟨c :: t, List.suffix_refl _, hs⟩
    | none =>
      rw [hs] at h
      by_cases hp : p c = true
      · simp only [hp, if_true] at h
        obtain ⟨x, hx, hk⟩ := ih h
        exact ⟨x, hx.trans (List.suffix_cons c t), hk⟩
      · simp [hp] at h

theorem run_some_imp {α : Type} (R : Regex) :
    ∀ (v : List Char) (cp : Option (List Char))
      (K : List Char → Option (List Char) → Option α) (z : α),
      R.run v cp K = some z → ∃ x c, x <:+ v ∧ K x c = some z := by
  induction R with
  | empty =>
    intro v cp K z hz
    exact ⟨v, cp, List.suffix_refl _, hz⟩
  | chr p =>
    intro v cp K z hz
    cases v with
    | nil => simp [Regex.run] at hz
    | cons c t =>
      by_cases hp : p c = true
      · simp only [Regex.run, hp, if_true] at hz
        exact ⟨t, cp, List.suffix_cons c t, hz⟩
      · simp [Regex.run, hp] at hz
  | seq a b iha ihb =>
    intro v cp K z hz
    simp only [Regex.run] at hz
    obtain ⟨x, c, hx, hk⟩ := iha v cp _ z hz
    obtain ⟨y, d, hy, hk2⟩ := ihb x c K z hk
    exact ⟨y, d, hy.trans hx, hk2⟩
  | alt a b iha ihb =>
    intro v cp K z hz
    simp only [Regex.run] at hz
    cases ha : a.run v cp K with
    | some w =>
      rw [ha] at hz
      simp only [Option.some.injEq] at hz
      subst hz
      exact iha v cp K _ ha
    | none =>
      rw [ha] at hz
      exact ihb v cp K z hz
  | opt a iha =>
    intro v cp K z hz
    simp only [Regex.run] at hz
    cases ha : a.run v cp K with
    | some w =>
      rw [ha] at hz
      simp only [Option.some.injEq] at hz
      subst hz
      exact iha v cp K _ ha
    | none =>
      rw [ha] at hz
      exact ⟨v, cp, List.suffix_refl _, hz⟩
  | star p =>
    intro v cp K z hz
    simp only [Regex.run] at hz
    obtain ⟨x, hx, hk⟩ := starGreedy_some_imp p _ v z hz
    exact ⟨x, cp, hx, hk⟩
  | plus p =>
    intro v cp K z hz
    cases v with
    | nil => simp [Regex.run] at hz
    | cons c t =>
      by_cases hp : p c = true
      · simp only [Regex.run, hp, if_true] at hz
        obtain ⟨x, hx, hk⟩ := starGreedy_some_imp p _ t z hz
        exact ⟨x, cp, hx.trans (List.suffix_cons c t), hk⟩
      · simp [Regex.run, hp] at hz
  | plusLazy p =>
    intro v cp K z hz
    cases v with
    | nil => simp [Regex.run] at hz
    | cons c t =>
      by_cases hp : p c = true
      · simp only [Regex.run, hp, if_true] at hz
        obtain ⟨x, hx, hk⟩ := starLazy_some_imp p _ t z hz
        exact ⟨x, cp, hx.trans (List.suffix_cons c t), hk⟩
      · simp [Regex.run, hp] at hz
  | group a iha =>
    intro v cp K z hz
    simp only [Regex.run] at hz
    obtain ⟨x, c, hx, hk⟩ := iha v cp _ z hz
    exact ⟨x, _, hx, hk⟩
  | eos =>
    intro v cp K z hz
    cases v with
    | nil => exact ⟨[], cp, List.suffix_refl _, by simpa [Regex.run] using hz⟩
    | cons c t => simp [Regex.run] at hz

theorem matchAt_some_imp (r : Regex) (s : List Char) (m : Match) (h : r.matchAt s = some m) :
    m.before = [] ∧ m.after <:+ s ∧ s = m.text ++ m.after := by
  unfold Regex.matchAt at h
  obtain ⟨x, c, hx, hk⟩ := run_some_imp r s none _ m h
  simp only [Option.some.injEq] at hk
  subst hk
  refine ⟨rfl, hx, ?_⟩
  obtain ⟨pre, rfl⟩ := hx
  simp

/-! ## Leftmost and successive matches -/

theorem exec_eq_some_imp (r : Regex) (s : List Char) (m : Match) (h : r.exec s = some m) :
    ∃ suf m0, s = m.before ++ suf ∧ r.matchAt suf = some m0 ∧ m0.before = [] ∧
      m.text = m0.text ∧ m.cap = m0.cap ∧ m.after = m0.after := by
  induction s generalizing m with
  | nil =>
    simp only [Regex.exec] at h
    have := (matchAt_some_imp r _ m h).1
    exact ⟨[], m, by simp [this], h, this, rfl, rfl, rfl⟩
  | cons c t ih =>
    simp only [Regex.exec] at h
    cases hm : r.matchAt (c :: t) with
    | some m1 =>
      rw [hm] at h
      simp only [Option.some.injEq] at h
      subst h
      have := (matchAt_some_imp r _ m1 hm).1
      exact ⟨c :: t, m1, by simp [this], hm, this, rfl, rfl, rfl⟩
    | none =>
      rw [hm] at h
      cases he : r.exec t with
      | none => simp [he] at h
      | some m2 =>
        rw [he] at h
        simp only [Option.some.injEq] at h
        subst h
        obtain ⟨suf, m0, hs, hm0, hb0, ht, hc, ha⟩ := ih m2 he
        exact ⟨suf, m0, by simp [← hs], hm0, hb0, ht, hc, ha⟩

/-- A match splits the input into the text before it, its own text and the rest. -/
theorem exec_decompose (r : Regex) (s : List Char) (m : Match) (h : r.exec s = some m) :
    s = m.before ++ m.text ++ m.after := by
  obtain ⟨suf, m0, hs, hm0, _, ht, _, ha⟩ := exec_eq_some_imp r s m h
  have := (matchAt_some_imp r suf m0 hm0).2.2
  rw [hs, this, ht, ha, List.append_assoc]

theorem exec_isSome_of_matchAt (r : Regex) (pre suf : List Char)
    (h : (r.matchAt suf).isSome = true) : (r.exec (pre ++ suf)).isSome = true := by
  induction pre with
  | nil =>
    cases suf with
    | nil => simpa [Regex.exec] using h
    | cons c t =>
      simp only [List.nil_append, Regex.exec]
      cases hm : r.matchAt (c :: t) with
      | some m => rfl
      | none => simp [hm] at h
  | cons c p ih =>
    simp only [List.cons_append, Regex.exec]
    cases hm : r.matchAt (c :: (p ++ suf)) with
    | some m => rfl
    | none =>
      cases he : r.exec (p ++ suf) with
      | some m => rfl
      | none => simp [he] at ih

theorem matchesAux_eq_nil (r : Regex) (fuel : Nat) (s : List Char) :
    r.matchesAux (fuel + 1) s = [] ↔ r.exec s = none := by
  simp only [Regex.matchesAux]
  cases r.exec s <;> simp

theorem mem_matchesAux (r : Regex) (fuel : Nat) (s : List Char) (m : Match)
    (h : m ∈ r.matchesAux fuel s) : ∃ u, r.exec u = some m := by
  induction fuel generalizing s with
  | zero => simp [Regex.matchesAux] at h
  | succ n ih =>
    simp only [Regex.matchesAux] at h
    cases he : r.exec s with
    | none => simp [he] at h
    | some m1 =>
      rw [he] at h
      simp only [List.mem_cons] at h
      rcases h with rfl | h
      · exact ⟨s, he⟩
      · by_cases hemp : m1.text.isEmpty = true
        · simp only [hemp, if_true] at h
          cases ha : m1.after with
          | nil => simp [ha] at h
          | cons c t =>
            rw [ha] at h
            exact ih t h
        · simp only [hemp] at h
          exact ih _ h

/-- The rounds of the `lastIndex` loop never run out: with any number of rounds above the
length of the input the successive matches are the same. -/
theorem matchesAux_fuel (r : Regex) (fuel : Nat) (s : List Char) (h : s.length < fuel) :
    r.matchesAux fuel s = r.matchesAll s := by
  unfold Regex.matchesAll
  have key : ∀ (n : Nat) (f1 f2 : Nat) (u : List Char), u.length ≤ n → u.length < f1 →
      u.length < f2 → r.matchesAux f1 u = r.matchesAux f2 u := by
    intro n
    induction n with
    | zero =>
      intro f1 f2 u hu h1 h2
      have hnil : u = [] := List.length_eq_zero.mp (Nat.le_zero.mp hu)
      subst hnil
      obtain ⟨g1, rfl⟩ : ∃ g, f1 = g + 1 := ⟨f1 - 1, by omega⟩
      obtain ⟨g2, rfl⟩ : ∃ g, f2 = g + 1 := ⟨f2 - 1, by omega⟩
      simp only [Regex.matchesAux]
      cases he : r.exec [] with
      | none => rfl
      | some m =>
        have hd := exec_decompose r [] m he
        have ht : m.text = [] := by
          have := congrArg List.length hd
          simp only [List.length_nil, List.length_append] at this
          exact List.length_eq_zero.mp (by omega)
        have ha : m.after = [] := by
          have := congrArg List.length hd
          simp only [List.length_nil, List.length_append] at this
          exact List.length_eq_zero.mp (by omega)
        simp [ht, ha]
    | succ n ih =>
      intro f1 f2 u hu h1 h2
      obtain ⟨g1, rfl⟩ : ∃ g, f1 = g + 1 := ⟨f1 - 1, by omega⟩
      obtain ⟨g2, rfl⟩ : ∃ g, f2 = g + 1 := ⟨f2 - 1, by omega⟩
      simp only [Regex.matchesAux]
      cases he : r.exec u with
      | none => rfl
      | some m =>
        have hd := congrArg List.length (exec_decompose r u m he)
        simp only [List.length_append] at hd
        simp only []
        congr 1
        by_cases hemp : m.text.isEmpty = true
        · simp only [hemp, if_true]
          cases ha : m.after with
          | nil => rfl
          | cons c t =>
            rw [ha] at hd
            simp only [List.length_cons] at hd
            exact ih g1 g2 t (by omega) (by omega) (by omega)
        · simp only [hemp]
          have hpos : 0 < m.text.length := by
            cases ht : m.text with
            | nil => simp [ht] at hemp
            | cons c t => simp
          exact ih g1 g2 m.after (by omega) (by omega) (by omega)
  exact key s.length fuel (s.length + 1) s (Nat.le_refl _) h (Nat.lt_succ_self _)

/-! ## The matches of the semver pattern -/

theorem take_length_sub (x rest : List Char) :
    (x ++ rest).take ((x ++ rest).length - rest.length) = x := by
  simp

theorem semverRe_matchAt_text (s : List Char) (m : Match) (h : semverRe.matchAt s = some m) :
    ∃ a b c, IsDigits a ∧ IsDigits b ∧ IsDigits c ∧ m.text = semverText a b c ∧
      s = semverText a b c ++ m.after := by
  rw [semverRe_matchAt] at h
  cases hs : semverAt s with
  | none => simp [hs] at h
  | some rest =>
    rw [hs] at h
    simp only [Option.map_some', Option.some.injEq] at h
    obtain ⟨a, b, c, ha, hb, hc, hsa, _⟩ := (semverAt_eq_some _ _).mp hs
    refine ⟨a, b, c, ha, hb, hc, ?_, ?_⟩
    · rw [← h]
      simp only [hsa]
      exact take_length_sub _ _
    · rw [← h]
      exact hsa

theorem semverRe_matchAt_isSome (a b c post : List Char) (ha : IsDigits a) (hb : IsDigits b)
    (hc : IsDigits c) : (semverRe.matchAt (semverText a b c ++ post)).isSome = true := by
  rw [semverRe_matchAt]
  have hsplit : c ++ post = (c ++ post.takeWhile isDigit) ++ post.dropWhile isDigit := by
    rw [List.append_assoc, List.takeWhile_append_dropWhile]
  have hc2 : IsDigits (c ++ post.takeWhile isDigit) := by
    refine ⟨by simp [hc.1], ?_⟩
    intro x hx
    rcases List.mem_append.mp hx with hx | hx
    · exact hc.2 x hx
    · exact List.mem_takeWhile_imp hx
  have : semverAt (semverText a b c ++ post) = some (post.dropWhile isDigit) := by
    refine (semverAt_eq_some _ _).mpr ⟨a, b, c ++ post.takeWhile isDigit, ha, hb, hc2, ?_, ?_⟩
    · simp only [semverText, List.append_assoc, List.cons_append]
      rw [List.takeWhile_append_dropWhile]
    · exact List.dropWhile_idempotent _ _
  simp [this]

theorem semverMatches_eq (desc : String) :
    semverMatches desc = (semverRe.matchesAll desc.toList).map Match.text := by
  unfold semverMatches Regex.matchGlobal
  cases h : semverRe.matchesAll desc.toList <;> simp

theorem mem_semverMatches (desc : String) (v : List Char) (h : v ∈ semverMatches desc) :
    ∃ a b c, IsDigits a ∧ IsDigits b ∧ IsDigits c ∧ v = semverText a b c := by
  rw [semverMatches_eq] at h
  obtain ⟨m, hm, rfl⟩ := List.mem_map.mp h
  obtain ⟨u, hu⟩ := mem_matchesAux _ _ _ _ hm
  obtain ⟨suf, m0, _, hm0, _, ht, _, _⟩ := exec_eq_some_imp _ _ _ hu
  obtain ⟨a, b, c, ha, hb, hc, htext, _⟩ := semverRe_matchAt_text _ _ hm0
  exact ⟨a, b, c, ha, hb, hc, by rw [ht, htext]⟩

theorem semverMatches_ne_nil_iff (desc : String) :
    semverMatches desc ≠ [] ↔ HasSemver desc.toList := by
  rw [semverMatches_eq]
  simp only [ne_eq, List.map_eq_nil_iff, Regex.matchesAll, matchesAux_eq_nil]
  constructor
  · intro h
    cases he : semverRe.exec desc.toList with
    | none => exact absurd he h
    | some m =>
      obtain ⟨suf, m0, hs, hm0, _, _, _, _⟩ := exec_eq_some_imp _ _ _ he
      obtain ⟨a, b, c, ha, hb, hc, _, hsuf⟩ := semverRe_matchAt_text _ _ hm0
      exact ⟨m.before, a, b, c, m0.after, ha, hb, hc, by rw [hs, hsuf]; simp⟩
  · rintro ⟨pre, a, b, c, post, ha, hb, hc, hs⟩ hnone
    have := exec_isSome_of_matchAt semverRe pre _ (semverRe_matchAt_isSome a b c post ha hb hc)
    rw [← List.append_assoc, ← hs, hnone] at this
    simp at this

/-! ## Splitting and reading the fields -/

theorem splitChar_of_not_mem (sep : Char) (a : List Char) (h : sep ∉ a) :
    splitChar sep a = [a] := by
  induction a with
  | nil => rfl
  | cons c t ih =>
    have hc : c ≠ sep := fun e => h (e ▸ List.mem_cons_self _ _)
    have ht : sep ∉ t := fun e => h (List.mem_cons_of_mem _ e)
    simp [splitChar, hc, ih ht]

theorem splitChar_append_sep (sep : Char) (a rest : List Char) (h : sep ∉ a) :
    splitChar sep (a ++ sep :: rest) = a :: splitChar sep rest := by
  induction a with
  | nil => simp [splitChar]
  | cons c t ih =>
    have hc : c ≠ sep := fun e => h (e ▸ List.mem_cons_self _ _)
    have ht : sep ∉ t := fun e => h (List.mem_cons_of_mem _ e)
    simp [splitChar, hc, ih ht]

theorem dot_not_mem_digits (a : List Char) (ha : IsDigits a) : Char.ofNat 46 ∉ a := by
  intro h
  have := ha.2 _ h
  simp [isDigit_dot] at this

theorem splitChar_semverText (a b c : List Char) (ha : IsDigits a) (hb : IsDigits b)
    (hc : IsDigits c) : splitChar (Char.ofNat 46) (semverText a b c) = [a, b, c] := by
  unfold semverText
  rw [List.append_assoc, List.cons_append, splitChar_append_sep _ _ _ (dot_not_mem_digits a ha),
    splitChar_append_sep _ _ _ (dot_not_mem_digits b hb),
    splitChar_of_not_mem _ _ (dot_not_mem_digits c hc)]

theorem exactTriple_semverText (a b c : List Char) (ha : IsDigits a) (hb : IsDigits b)
    (hc : IsDigits c) :
    exactTriple (semverText a b c) = (decimalValue a, decimalValue b, decimalValue c) := by
  simp [exactTriple, splitChar_semverText a b c ha hb hc]

theorem parseSemver_semverText (a b c : List Char) (ha : IsDigits a) (hb : IsDigits b)
    (hc : IsDigits c) :
    parseSemver (semverText a b c) = [jsNumber a, jsNumber b, jsNumber c] := by
  simp [parseSemver, splitChar_semverText a b c ha hb hc]

theorem toDouble_of_lt (n : Nat) (h : n < 2 ^ 53) : toDouble n = n := by
  unfold toDouble
  rw [if_pos h]

theorem parseSemver_eq_tripleList (v : List Char)
    (hv : ∃ a b c, IsDigits a ∧ IsDigits b ∧ IsDigits c ∧ v = semverText a b c)
    (hsafe : (exactTriple v).1 < 2 ^ 53 ∧ (exactTriple v).2.1 < 2 ^ 53 ∧
      (exactTriple v).2.2 < 2 ^ 53) :
    parseSemver v = tripleList (exactTriple v) := by
  obtain ⟨a, b, c, ha, hb, hc, rfl⟩ := hv
  rw [exactTriple_semverText a b c ha hb hc] at hsafe ⊢
  rw [parseSemver_semverText a b c ha hb hc]
  simp only [tripleList, jsNumber]
  rw [toDouble_of_lt _ hsafe.1, toDouble_of_lt _ hsafe.2.1, toDouble_of_lt _ hsafe.2.2]

/-! ## The comparator and the sort -/

theorem semverLe_tripleList (u t : Nat × Nat × Nat) :
    semverLe (tripleList u) (tripleList t) ↔ tripleLe u t := by
  obtain ⟨u1, u2, u3⟩ := u
  obtain ⟨t1, t2, t3⟩ := t
  simp only [semverLe, semverCompare, semverCompareAt, tripleList, tripleLe,
    List.getElem?_cons_zero, List.getElem?_cons_succ, ne_eq, Option.some.injEq]
  by_cases h1 : u1 = t1
  · subst h1
    by_cases h2 : u2 = t2
    · subst h2
      by_cases h3 : u3 = t3
      · subst h3
        simp
      · simp only [not_true_eq_false, if_false, h3, not_false_eq_true, if_true, lt_self_iff_false,
          false_or, true_and]
        omega
    · simp only [not_true_eq_false, if_false, h2, not_false_eq_true, if_true, lt_self_iff_false,
        false_or, true_and, false_and, or_false]
      omega
  · simp only [h1, not_false_eq_true, if_true, false_and, or_false]
    omega

theorem tripleLe_total (u t : Nat × Nat × Nat) : tripleLe u t ∨ tripleLe t u := by
  unfold tripleLe
  omega

theorem tripleLe_trans (u t w : Nat × Nat × Nat) (h1 : tripleLe u t) (h2 : tripleLe t w) :
    tripleLe u w := by
  unfold tripleLe at *
  omega

theorem sorted_getLast_max (l : List (Nat × Nat × Nat)) (hs : l.Sorted tripleLe)
    (t : Nat × Nat × Nat) (ht : l.getLast? = some t) : ∀ u ∈ l, tripleLe u t := by
  induction l with
  | nil => simp at ht
  | cons a l ih =>
    intro u hu
    cases l with
    | nil =>
      simp only [List.getLast?_singleton, Option.some.injEq] at ht
      simp only [List.mem_singleton] at hu
      subst ht hu
      rcases tripleLe_total u u with h | h <;> exact h
    | cons b l2 =>
      have ht2 : (b :: l2).getLast? = some t := by
        simpa [List.getLast?_cons_cons] using ht
      have hs2 := List.Sorted.of_cons hs
      have hmem : t ∈ b :: l2 := List.mem_of_getLast?_eq_some ht2
      rcases List.mem_cons.mp hu with rfl | hu
      · exact List.rel_of_sorted_cons hs t hmem
      · exact ih hs2 ht2 u hu

/-! ## Numbers below `2 ^ 53` -/

theorem numToString_of_lt (n : Nat) (h : n < 2 ^ 53) : numToString n = Nat.toDigits 10 n := by
  unfold numToString
  rw [if_pos h]

theorem numToString_two_pow_53 :
    numToString (toDouble (2 ^ 53)) = Nat.toDigits 10 (2 ^ 53) := by
  decide!

theorem showSucc_of_lt (p : Nat) (h : p < 2 ^ 53) :
    showSucc (some p) = Nat.toDigits 10 (p + 1) := by
  simp only [showSucc, jsSucc]
  by_cases hp : p + 1 < 2 ^ 53
  · rw [toDouble_of_lt _ hp, numToString_of_lt _ hp]
  · have : p + 1 = 2 ^ 53 := by omega
    rw [this]
    exact numToString_two_pow_53

theorem string_of_version (a b c : Nat) :
    String.mk (Nat.toDigits 10 a ++ Char.ofNat 46 :: Nat.toDigits 10 b ++
      Char.ofNat 46 :: Nat.toDigits 10 c) = Nat.repr a ++ "." ++ Nat.repr b ++ "." ++ Nat.repr c := by
  apply String.ext
  simp only [Nat.repr, List.asString, String.data_append, List.append_assoc, List.cons_append,
    List.nil_append]

/-! ## The fallback stage -/

theorem sortedSemvers_eq (desc : String)
    (hsafe : ∀ t ∈ matchTriples desc, t.1 < 2 ^ 53 ∧ t.2.1 < 2 ^ 53 ∧ t.2.2 < 2 ^ 53) :
    sortedSemvers desc = ((matchTriples desc).insertionSort tripleLe).map tripleList := by
  have hmap : (semverMatches desc).map parseSemver = (matchTriples desc).map tripleList := by
    unfold matchTriples
    rw [List.map_map]
    apply List.map_congr_left
    intro v hv
    exact parseSemver_eq_tripleList v (mem_semverMatches desc v hv)
      (hsafe _ (List.mem_map_of_mem _ hv))
  unfold sortedSemvers
  rw [hmap]
  symm
  apply List.map_insertionSort
  intro a _ b _
  exact (semverLe_tripleList a b).symm

/-- The fallback stage on exact fields: the bumped maximum of the match triples. -/
theorem fallback_bumps_max (desc : String) (h : HasSemver desc.toList)
    (hsafe : ∀ t ∈ matchTriples desc, t.1 < 2 ^ 53 ∧ t.2.1 < 2 ^ 53 ∧ t.2.2 < 2 ^ 53) :
    ∃ t ∈ matchTriples desc, (∀ u ∈ matchTriples desc, tripleLe u t) ∧
      extractSafeVersionFromDescription desc = bumpedVersion t := by
  have hne : semverMatches desc ≠ [] := (semverMatches_ne_nil_iff desc).mpr h
  have hlen : (semverMatches desc).length ≠ 0 := by
    intro h0
    exact hne (List.length_eq_zero.mp h0)
  haveI : IsTotal (Nat × Nat × Nat) tripleLe := ⟨tripleLe_total⟩
  haveI : IsTrans (Nat × Nat × Nat) tripleLe := ⟨tripleLe_trans⟩
  have hsorted : ((matchTriples desc).insertionSort tripleLe).Sorted tripleLe :=
    List.sorted_insertionSort tripleLe _
  have hne2 : (matchTriples desc).insertionSort tripleLe ≠ [] := by
    intro h0
    have := congrArg List.length h0
    rw [List.length_insertionSort] at this
    simp only [matchTriples, List.length_map, List.length_nil] at this
    exact hlen this
  obtain ⟨t, ht⟩ : ∃ t, ((matchTriples desc).insertionSort tripleLe).getLast? = some t := by
    cases hg : ((matchTriples desc).insertionSort tripleLe).getLast? with
    | some t => exact ⟨t, rfl⟩
    | none => exact absurd (List.getLast?_eq_none_iff.mp hg) hne2
  have htmem : t ∈ matchTriples desc :=
    (List.mem_insertionSort tripleLe).mp (List.mem_of_getLast?_eq_some ht)
  refine ⟨t, htmem, ?_, ?_⟩
  · intro u hu
    exact sorted_getLast_max _ hsorted t ht u ((List.mem_insertionSort tripleLe).mpr hu)
  · obtain ⟨h1, h2, h3⟩ := hsafe t htmem
    unfold extractSafeVersionFromDescription
    rw [if_neg hlen, sortedSemvers_eq desc hsafe, List.getLast?_map, ht]
    simp only [Option.map_some', Option.getD_some, tripleList, List.getElem?_cons_zero,
      List.getElem?_cons_succ, showValue]
    rw [numToString_of_lt _ h1, numToString_of_lt _ h2, showSucc_of_lt _ h3]
    exact string_of_version _ _ _

/-- C6 (amended): for a description that contains a substring digits.digits.digits and in
which every field of every match is below `2 ^ 53`, `extractSafeVersionFromDescription`
returns `M.m.(p+1)` for a match triple `(M, m, p)` that is the maximum of the integer
triples of all matches in the lexicographic order. -/
theorem extractSafeVersion_bumps_max (desc : String) (h : HasSemver desc.toList)
    (hsafe : ∀ t ∈ matchTriples desc, t.1 < 2 ^ 53 ∧ t.2.1 < 2 ^ 53 ∧ t.2.2 < 2 ^ 53) :
    ∃ t ∈ matchTriples desc, (∀ u ∈ matchTriples desc, tripleLe u t) ∧
      extractSafeVersionFromDescription desc = bumpedVersion t :=
  fallback_bumps_max desc h hsafe

/-! ## Splitting always yields a piece -/

theorem splitAux_ne_nil (r : Regex) (fuel : Nat) (acc s : List Char) :
    r.splitAux fuel acc s ≠ [] := by
  induction fuel generalizing acc s with
  | zero => simp [Regex.splitAux]
  | succ n ih =>
    cases s with
    | nil => simp [Regex.splitAux]
    | cons c t =>
      simp only [Regex.splitAux]
      cases hm : r.matchAt (c :: t) with
      | none => exact ih _ _
      | some m =>
        by_cases hcond : (m.text.isEmpty && acc.isEmpty) = true
        · simp only [hcond, if_true]
          exact ih _ _
        · simp [hcond]

theorem commaRe_split_ne_nil (s : List Char) : commaRe.split s ≠ [] := by
  cases s with
  | nil =>
    have : (commaRe.matchAt []).isSome = false := by decide
    simp [Regex.split, this]
  | cons c t =>
    simp only [Regex.split]
    exact splitAux_ne_nil _ _ _ _

theorem extractRecommendedVersions_eq_nil_iff (desc : String) :
    extractRecommendedVersions desc = [] ↔ explicitRe.exec desc.toList = none := by
  unfold extractRecommendedVersions
  cases h : explicitRe.exec desc.toList with
  | none => simp
  | some m =>
    simp only [List.map_eq_nil_iff, reduceCtorEq, iff_false]
    exact commaRe_split_ne_nil _

/-! ## The dictionary keeps its keys distinct -/

theorem map_fst_setOwn (k : String) (v : DependencyRecord) (l : List (String × DependencyRecord)) :
    (setOwn k v l).map Prod.fst =
      if k ∈ l.map Prod.fst then l.map Prod.fst else l.map Prod.fst ++ [k] := by
  induction l with
  | nil => simp [setOwn]
  | cons e rest ih =>
    obtain ⟨k1, w⟩ := e
    by_cases h : k1 = k
    · subst h
      simp [setOwn]
    · have h2 : ¬ k = k1 := fun e => h e.symm
      simp only [setOwn, h, if_false, List.map_cons, ih, List.mem_cons, h2, false_or]
      split <;> simp

theorem mem_setOwn (k : String) (v : DependencyRecord) (l : List (String × DependencyRecord))
    (e : String × DependencyRecord) (h : e ∈ setOwn k v l) : e = (k, v) ∨ e ∈ l := by
  induction l with
  | nil => simpa [setOwn] using h
  | cons e1 rest ih =>
    obtain ⟨k1, w⟩ := e1
    by_cases hk : k1 = k
    · subst hk
      simp only [setOwn, if_true, List.mem_cons] at h
      rcases h with h | h
      · exact Or.inl h
      · exact Or.inr (List.mem_cons_of_mem _ h)
    · simp only [setOwn, hk, if_false, List.mem_cons] at h
      rcases h with h | h
      · exact Or.inr (h ▸ List.mem_cons_self _ _)
      · rcases ih h with h | h
        · exact Or.inl h
        · exact Or.inr (List.mem_cons_of_mem _ h)

theorem keysOk_setOwn (k : String) (v : DependencyRecord) (l : List (String × DependencyRecord))
    (hl : KeysOk l) (hv : v.fileName = k) : KeysOk (setOwn k v l) := by
  refine ⟨?_, ?_⟩
  · rw [map_fst_setOwn]
    split
    · exact hl.1
    · rename_i hk
      exact List.Nodup.append hl.1 (List.nodup_singleton k) (by
        intro x hx hx2
        simp only [List.mem_singleton] at hx2
        exact hk (hx2 ▸ hx))
  · intro e he
    rcases mem_setOwn k v l e he with rfl | he
    · exact hv
    · exact hl.2 e he

theorem map_fst_pushUsedIn (k n : String) (l : List (String × DependencyRecord)) :
    (pushUsedIn k n l).map Prod.fst = l.map Prod.fst := by
  induction l with
  | nil => rfl
  | cons e rest ih =>
    obtain ⟨k1, w⟩ := e
    by_cases h : k1 = k
    · simp [pushUsedIn, h]
    · simp [pushUsedIn, h, ih]

theorem mem_pushUsedIn (k n : String) (l : List (String × DependencyRecord))
    (e : String × DependencyRecord) (h : e ∈ pushUsedIn k n l) :
    ∃ e0 ∈ l, e.1 = e0.1 ∧ e.2.fileName = e0.2.fileName ∧
      e.2.dependencies = e0.2.dependencies ∧ e.2.vulnerabilities = e0.2.vulnerabilities := by
  induction l with
  | nil => simp [pushUsedIn] at h
  | cons e1 rest ih =>
    obtain ⟨k1, w⟩ := e1
    by_cases hk : k1 = k
    · simp only [pushUsedIn, hk, if_true, List.mem_cons] at h
      rcases h with rfl | h
      · exact ⟨(k1, w), List.mem_cons_self _ _, hk.symm, rfl, rfl, rfl⟩
      · exact ⟨e, List.mem_cons_of_mem _ h, rfl, rfl, rfl, rfl⟩
    · simp only [pushUsedIn, hk, if_false, List.mem_cons] at h
      rcases h with rfl | h
      · exact ⟨(k1, w), List.mem_cons_self _ _, rfl, rfl, rfl, rfl⟩
      · obtain ⟨e0, he0, h1⟩ := ih h
        exact ⟨e0, List.mem_cons_of_mem _ he0, h1⟩

theorem keysOk_pushUsedIn (k n : String) (l : List (String × DependencyRecord))
    (hl : KeysOk l) : KeysOk (pushUsedIn k n l) := by
  refine ⟨?_, ?_⟩
  · rw [map_fst_pushUsedIn]
    exact hl.1
  · intro e he
    obtain ⟨e0, he0, h1, h2, _⟩ := mem_pushUsedIn k n l e he
    rw [h1, h2]
    exact hl.2 e0 he0

theorem keysOk_set (m : JsDict) (k : String) (v : DependencyRecord) (hm : KeysOk m.own)
    (hv : v.fileName = k) : KeysOk (m.set k v).own := by
  unfold JsDict.set
  split
  · exact hm
  · exact keysOk_setOwn k v m.own hm hv

theorem keysOk_buildMap (raw : List ReportItem) : KeysOk (buildMap raw).own := by
  have key : ∀ (l : List ReportItem) (m : JsDict), KeysOk m.own →
      KeysOk (l.foldl (fun m d => m.set d.fileName (newRecord d)) m).own := by
    intro l
    induction l with
    | nil => intro m hm; exact hm
    | cons d rest ih =>
      intro m hm
      exact ih _ (keysOk_set m d.fileName (newRecord d) hm rfl)
  exact key raw JsDict.empty ⟨List.nodup_nil, by intro e he; cases he⟩

theorem keysOk_link (m m1 : JsDict) (dep name : String) (hm : KeysOk m.own)
    (h : m.link dep name = some m1) : KeysOk m1.own := by
  unfold JsDict.link at h
  split at h
  · simp only [Option.some.injEq] at h
    subst h
    exact keysOk_pushUsedIn dep name m.own hm
  · simp only [Option.some.injEq] at h
    subst h
    exact hm
  · cases h
  · simp only [Option.some.injEq] at h
    subst h
    exact hm

theorem keysOk_linkNode (name : String) (deps : List String) (m m1 : JsDict)
    (hm : KeysOk m.own) (h : linkNode name m deps = some m1) : KeysOk m1.own := by
  induction deps generalizing m with
  | nil =>
    simp only [linkNode, Option.some.injEq] at h
    subst h
    exact hm
  | cons dep rest ih =>
    simp only [linkNode] at h
    cases hl : m.link dep name with
    | none => simp [hl] at h
    | some m2 =>
      rw [hl] at h
      exact ih m2 (keysOk_link m m2 dep name hm hl) h

theorem keysOk_linkAll (nodes : List DependencyRecord) (m m1 : JsDict)
    (hm : KeysOk m.own) (h : linkAll m nodes = some m1) : KeysOk m1.own := by
  induction nodes generalizing m with
  | nil =>
    simp only [linkAll, Option.some.injEq] at h
    subst h
    exact hm
  | cons node rest ih =>
    simp only [linkAll] at h
    cases hl : linkNode node.fileName m node.dependencies with
    | none => simp [hl] at h
    | some m2 =>
      rw [hl] at h
      exact ih m2 (keysOk_linkNode _ _ m m2 hm hl) h

theorem entries_perm (m : JsDict) : m.entries.Perm m.own := by
  unfold JsDict.entries
  exact ((List.perm_insertionSort indexLe _).append_right _).trans
    (List.filter_append_perm _ m.own)

theorem values_fileNames_nodup (m : JsDict) (hm : KeysOk m.own) :
    (m.values.map DependencyRecord.fileName).Nodup := by
  have hperm := entries_perm m
  have h1 : m.values.map DependencyRecord.fileName = m.entries.map Prod.fst := by
    unfold JsDict.values
    rw [List.map_map]
    apply List.map_congr_left
    intro e he
    exact hm.2 e (hperm.mem_iff.mp he)
  rw [h1]
  exact ((hperm.map Prod.fst).nodup_iff).mpr hm.1

theorem simulate_fileNames_nodup (reportJson : Report) (enhanced : List DependencyRecord)
    (h : simulateDependencyRelations reportJson = some enhanced) :
    (enhanced.map DependencyRecord.fileName).Nodup := by
  unfold simulateDependencyRelations at h
  simp only [] at h
  cases hl : linkAll (buildMap (reportJson.dependencies.getD []))
      (buildMap (reportJson.dependencies.getD [])).values with
  | none => simp [hl] at h
  | some linked =>
    rw [hl] at h
    simp only [Option.some.injEq] at h
    subst h
    exact values_fileNames_nodup linked (keysOk_linkAll _ _ _ (keysOk_buildMap _) hl)

/-! ## The claims -/

/-- C1 (code defect): on the description of the specification,
"...recommended to upgrade to version 4.2.1, which fixes...", the explicit stage
`extractRecommendedVersions` returns `["4"]` and not `["4.2.1"]`: the lazy capture stops at
the first period, which is the one inside the version. -/
theorem extractRecommendedVersions_dotted_version :
    extractRecommendedVersions "...recommended to upgrade to version 4.2.1, which fixes..." =
      ["4"] := by
  decide

/-- C2 (code defect): on a description whose explicit phrase names the two versions
`1.2.3 or 1.3.0.`, `extractRecommendedVersions` returns `["1"]` and not
`["1.2.3", "1.3.0"]`: the capture ends at the first period of the first version. -/
theorem extractRecommendedVersions_two_versions :
    extractRecommendedVersions "It is recommended to upgrade to version 1.2.3 or 1.3.0." =
      ["1"] := by
  decide

/-- C3 (code defect): for the report with the two items `__proto__` (which depends on `a`)
and `a`, whose fileNames are distinct, `simulateDependencyRelations` returns the record
`a` alone and with an empty `usedIn`, although the item `__proto__` lists `a` among its
dependencies. -/
theorem simulateDependencyRelations_proto_item :
    simulateDependencyRelations protoReport =
      some [{ fileName := "a", dependencies := [], vulnerabilities := [], usedIn := [],
              dependencyType := "direct", transitiveDepth := 1 }] := by
  decide

theorem mem_computeImpact (enhanced : List DependencyRecord) (v : String) (e : ImpactEntry) :
    e ∈ computeImpact enhanced v ↔
      ∃ D ∈ enhanced, (v ∈ D.dependencies ∧ D.vulnerabilities = []) ∧
        e = { source := v, target := D.fileName, impactLevel := "High",
              transitiveDepth := D.transitiveDepth, dependencyType := D.dependencyType,
              usedIn := D.usedIn,
              recommendation := "After upgrading " ++ v ++ ", verify integration with " ++
                D.fileName } := by
  simp only [computeImpact, List.mem_map, List.mem_filter, Bool.and_eq_true,
    List.contains, List.elem_eq_mem, decide_eq_true_eq, beq_iff_eq, List.length_eq_zero]
  constructor
  · rintro ⟨D, ⟨hD, h1, h2⟩, rfl⟩
    exact ⟨D, hD, ⟨h1, h2⟩, rfl⟩
  · rintro ⟨D, hD, ⟨h1, h2⟩, rfl⟩
    exact ⟨D, ⟨hD, h1, h2⟩, rfl⟩

theorem eq_of_fileName_eq (l : List DependencyRecord)
    (hnd : (l.map DependencyRecord.fileName).Nodup) (a b : DependencyRecord) (ha : a ∈ l)
    (hb : b ∈ l) (h : a.fileName = b.fileName) : a = b :=
  List.inj_on_of_nodup_map hnd ha hb h

theorem countP_target_eq_one (l : List DependencyRecord)
    (hnd : (l.map DependencyRecord.fileName).Nodup) (v : String) (D : DependencyRecord)
    (hD : D ∈ l) (hc : v ∈ D.dependencies ∧ D.vulnerabilities = []) :
    (computeImpact l v).countP (fun e => e.target == D.fileName) = 1 := by
  induction l with
  | nil => cases hD
  | cons a rest ih =>
    have hnd2 : (rest.map DependencyRecord.fileName).Nodup := (List.nodup_cons.mp hnd).2
    have hnot : a.fileName ∉ rest.map DependencyRecord.fileName := (List.nodup_cons.mp hnd).1
    rcases List.mem_cons.mp hD with rfl | hD2
    · -- the head is `D`: it yields the one entry, and the tail yields none
      have htail : (computeImpact rest v).countP (fun e => e.target == D.fileName) = 0 := by
        rw [List.countP_eq_zero]
        intro e he
        obtain ⟨D2, hD2, _, rfl⟩ := (mem_computeImpact rest v e).mp he
        simp only [beq_iff_eq]
        intro hEq
        exact hnot (hEq ▸ List.mem_map_of_mem _ hD2)
      have hf : (D.dependencies.contains v && D.vulnerabilities.length == 0) = true := by
        simp [hc.1, hc.2]
      unfold computeImpact at htail ⊢
      rw [List.filter_cons, if_pos hf, List.map_cons, List.countP_cons, htail]
      simp
    · have hne : a.fileName ≠ D.fileName := by
        intro hEq
        exact hnot (hEq ▸ List.mem_map_of_mem _ hD2)
      have := ih hnd2 hD2
      unfold computeImpact at this ⊢
      by_cases hf : (a.dependencies.contains v && a.vulnerabilities.length == 0) = true
      · rw [List.filter_cons, if_pos hf, List.map_cons, List.countP_cons, this]
        simp [hne]
      · rw [List.filter_cons, if_neg hf]
        exact this

/-- C4: for a report on which ingestion returns the records `enhanced`, and an identifier
`v` that has a record among them, the impact operation returns an impact list in which a
record `D` is the target of an entry exactly when `v` is one of `D.dependencies` and
`D.vulnerabilities` is empty, each such `D` is the target of exactly one entry, and every
entry names a clean record that depends on `v`. -/
theorem impact_targets_clean_dependents (reportJson : Report) (v : String)
    (enhanced : List DependencyRecord)
    (h : simulateDependencyRelations reportJson = some enhanced)
    (hv : ∃ s ∈ enhanced, s.fileName = v) :
    ∃ sims impact, impactAnalysis (some reportJson) v = .ok sims impact ∧
      (∀ D ∈ enhanced,
        ((∃ e ∈ impact, e.target = D.fileName) ↔
          (v ∈ D.dependencies ∧ D.vulnerabilities = [])) ∧
        ((v ∈ D.dependencies ∧ D.vulnerabilities = []) →
          impact.countP (fun e => e.target == D.fileName) = 1)) ∧
      (∀ e ∈ impact, ∃ D ∈ enhanced, D.fileName = e.target ∧ D.vulnerabilities = [] ∧
        v ∈ D.dependencies) := by
  have hnd := simulate_fileNames_nodup reportJson enhanced h
  obtain ⟨src, hsrc⟩ : ∃ src, enhanced.find? (fun d => d.fileName == v) = some src := by
    cases hf : enhanced.find? (fun d => d.fileName == v) with
    | some src => exact ⟨src, rfl⟩
    | none =>
      obtain ⟨s, hs, hsv⟩ := hv
      have := List.find?_eq_none.mp hf s hs
      simp [hsv] at this
  refine ⟨buildSimulations src v, computeImpact enhanced v, ?_, ?_, ?_⟩
  · simp only [impactAnalysis, h, hsrc]
  · intro D hD
    refine ⟨⟨?_, ?_⟩, ?_⟩
    · rintro ⟨e, he, het⟩
      obtain ⟨D2, hD2, hc, rfl⟩ := (mem_computeImpact enhanced v e).mp he
      have : D2 = D := eq_of_fileName_eq enhanced hnd D2 D hD2 hD het
      exact this ▸ hc
    · intro hc
      exact ⟨_, (mem_computeImpact enhanced v _).mpr ⟨D, hD, hc, rfl⟩, rfl⟩
    · intro hc
      exact countP_target_eq_one enhanced hnd v D hD hc
  · intro e he
    obtain ⟨D, hD, hc, rfl⟩ := (mem_computeImpact enhanced v e).mp he
    exact ⟨D, hD, rfl, hc.2, hc.1⟩

/-- C4, on the report with `A` vulnerable, `B` clean and depending on `A`, and `C` vulnerable
and depending on `A`: the impact list for `A` holds the one entry for `B`. -/
theorem impact_targets_clean_dependents_witness :
    simulateDependencyRelations exampleReport = some exampleEnhanced ∧
    (computeImpact exampleEnhanced "A").map ImpactEntry.target = ["B"] ∧
    ∃ sims impact, impactAnalysis (some exampleReport) "A" = .ok sims impact ∧
      (∀ D ∈ exampleEnhanced,
        ((∃ e ∈ impact, e.target = D.fileName) ↔
          ("A" ∈ D.dependencies ∧ D.vulnerabilities = [])) ∧
        (("A" ∈ D.dependencies ∧ D.vulnerabilities = []) →
          impact.countP (fun e => e.target == D.fileName) = 1)) ∧
      (∀ e ∈ impact, ∃ D ∈ exampleEnhanced, D.fileName = e.target ∧ D.vulnerabilities = [] ∧
        "A" ∈ D.dependencies) :=
  ⟨by decide, by decide,
    impact_targets_clean_dependents exampleReport "A" exampleEnhanced (by decide)
      ⟨_, List.mem_cons_self _ _, rfl⟩⟩

/-- Off the error path: for a report on which ingestion returns the records `enhanced`, the
impact operation answers "not found" exactly when no record has the requested fileName, and
whenever a record has it the operation returns a result (simulations and an impact list). -/
theorem impact_notFound_iff (reportJson : Report) (v : String)
    (enhanced : List DependencyRecord)
    (h : simulateDependencyRelations reportJson = some enhanced) :
    ((∃ msg, impactAnalysis (some reportJson) v = .notFound msg) ↔
      ¬ ∃ s ∈ enhanced, s.fileName = v) ∧
    ((¬ ∃ s ∈ enhanced, s.fileName = v) →
      impactAnalysis (some reportJson) v = .notFound "Vulnerable dependency not found") ∧
    ((∃ s ∈ enhanced, s.fileName = v) →
      ∃ sims impact, impactAnalysis (some reportJson) v = .ok sims impact) := by
  cases hf : enhanced.find? (fun d => d.fileName == v) with
  | none =>
    have hno : ¬ ∃ s ∈ enhanced, s.fileName = v := by
      rintro ⟨s, hs, hsv⟩
      have := List.find?_eq_none.mp hf s hs
      simp [hsv] at this
    have hnf : impactAnalysis (some reportJson) v =
        .notFound "Vulnerable dependency not found" := by
      simp only [impactAnalysis, h, hf]
    exact ⟨⟨fun _ => hno, fun _ => ⟨_, hnf⟩⟩, fun _ => hnf, fun hex => absurd hex hno⟩
  | some src =>
    have hyes : ∃ s ∈ enhanced, s.fileName = v :=
      ⟨src, List.mem_of_find?_eq_some hf, by simpa using List.find?_some hf⟩
    have hok : impactAnalysis (some reportJson) v =
        .ok (buildSimulations src v) (computeImpact enhanced v) := by
      simp only [impactAnalysis, h, hf]
    refine ⟨⟨?_, fun hno => absurd hyes hno⟩, fun hno => absurd hyes hno,
      fun _ => ⟨_, _, hok⟩⟩
    rintro ⟨msg, hmsg⟩
    rw [hok] at hmsg
    cases hmsg

/-- Off the error path, on the example report: the identifier `Q` names no record and the
operation answers "not found"; the identifier `A` names one and the operation returns a
result. -/
theorem impact_notFound_iff_witness :
    simulateDependencyRelations exampleReport = some exampleEnhanced ∧
    impactAnalysis (some exampleReport) "Q" = .notFound "Vulnerable dependency not found" ∧
    (((∃ msg, impactAnalysis (some exampleReport) "Q" = .notFound msg) ↔
      ¬ ∃ s ∈ exampleEnhanced, s.fileName = "Q") ∧
    ((¬ ∃ s ∈ exampleEnhanced, s.fileName = "Q") →
      impactAnalysis (some exampleReport) "Q" = .notFound "Vulnerable dependency not found") ∧
    ((∃ s ∈ exampleEnhanced, s.fileName = "Q") →
      ∃ sims impact, impactAnalysis (some exampleReport) "Q" = .ok sims impact)) :=
  ⟨by decide, by decide, impact_notFound_iff exampleReport "Q" exampleEnhanced (by decide)⟩

/-- C6, on a description that mentions `1.0.0` and `1.2.0`: the result is `1.2.1`. -/
theorem extractSafeVersion_bumps_max_witness :
    HasSemver "affects 1.0.0 and 1.2.0".toList ∧
    (∀ t ∈ matchTriples "affects 1.0.0 and 1.2.0",
      t.1 < 2 ^ 53 ∧ t.2.1 < 2 ^ 53 ∧ t.2.2 < 2 ^ 53) ∧
    extractSafeVersionFromDescription "affects 1.0.0 and 1.2.0" = "1.2.1" ∧
    ∃ t ∈ matchTriples "affects 1.0.0 and 1.2.0",
      (∀ u ∈ matchTriples "affects 1.0.0 and 1.2.0", tripleLe u t) ∧
      extractSafeVersionFromDescription "affects 1.0.0 and 1.2.0" = bumpedVersion t :=
  ⟨(semverMatches_ne_nil_iff _).mp (by decide), by decide, by decide,
    extractSafeVersion_bumps_max "affects 1.0.0 and 1.2.0"
      ((semverMatches_ne_nil_iff _).mp (by decide)) (by decide)⟩

/-- C6 as stated fails: the description `0.0.9007199254740992` contains a substring
digits.digits.digits, its one match has the triple `(0, 0, 2 ^ 53)`, and the function returns
`0.0.9007199254740992`, the version of that triple itself, not `0.0.9007199254740993`:
`2 ^ 53 + 1` is not a double and the sum rounds back to `2 ^ 53`. -/
theorem extractSafeVersion_counterexample :
    HasSemver "0.0.9007199254740992".toList ∧
    matchTriples "0.0.9007199254740992" = [(0, 0, 9007199254740992)] ∧
    extractSafeVersionFromDescription "0.0.9007199254740992" = "0.0.9007199254740992" ∧
    ¬ ∃ t ∈ matchTriples "0.0.9007199254740992",
      (∀ u ∈ matchTriples "0.0.9007199254740992", tripleLe u t) ∧
      extractSafeVersionFromDescription "0.0.9007199254740992" = bumpedVersion t := by
  have hm : matchTriples "0.0.9007199254740992" = [(0, 0, 9007199254740992)] := by decide
  have he : extractSafeVersionFromDescription "0.0.9007199254740992" =
      "0.0.9007199254740992" := by decide!
  refine ⟨(semverMatches_ne_nil_iff _).mp (by decide), hm, he, ?_⟩
  rintro ⟨t, ht, _, hb⟩
  rw [hm, List.mem_singleton] at ht
  subst ht
  rw [he] at hb
  revert hb
  decide

/-- C7: for a description on which the explicit stage yields nothing and which contains no
substring digits.digits.digits, the candidate list of `buildSimulations` is `["latest"]`. -/
theorem recommender_latest (desc : String) (h1 : extractRecommendedVersions desc = [])
    (h2 : ¬ HasSemver desc.toList) :
    recommendedVersions desc = ["latest"] ∧
    ∀ (node : DependencyRecord) (id : String), firstDescription node = desc →
      (buildSimulations node id).map Simulation.recommendedVersion = ["latest"] := by
  have hnil : semverMatches desc = [] := by
    by_contra hne
    exact h2 ((semverMatches_ne_nil_iff desc).mp hne)
  have hsafe : extractSafeVersionFromDescription desc = "latest" := by
    unfold extractSafeVersionFromDescription
    rw [if_pos (by rw [hnil]; rfl)]
  have hrec : recommendedVersions desc = ["latest"] := by
    unfold recommendedVersions
    simp only [h1, List.length_nil, if_true, hsafe]
  refine ⟨hrec, ?_⟩
  intro node id hd
  unfold buildSimulations
  rw [hd, hrec]
  rfl

/-- C7, on a description without the explicit phrase and without a version number. -/
theorem recommender_latest_witness :
    extractRecommendedVersions "no fixed release is known" = [] ∧
    ¬ HasSemver "no fixed release is known".toList ∧
    recommendedVersions "no fixed release is known" = ["latest"] ∧
    ∀ (node : DependencyRecord) (id : String),
      firstDescription node = "no fixed release is known" →
      (buildSimulations node id).map Simulation.recommendedVersion = ["latest"] :=
  ⟨by decide, fun h => (semverMatches_ne_nil_iff _).mpr h (by decide),
    recommender_latest "no fixed release is known" (by decide)
      (fun h => (semverMatches_ne_nil_iff _).mpr h (by decide))⟩

/-- C8: the two stages are composed first-match-wins.  The candidate versions of
`buildSimulations` are those of `extractRecommendedVersions` when that list is non-empty,
and the one version of `extractSafeVersionFromDescription` otherwise; and whenever the
explicit pattern matches the description, the candidates are the explicit ones. -/
theorem candidates_first_match_wins (node : DependencyRecord) (id : String) :
    ((buildSimulations node id).map Simulation.recommendedVersion =
      if extractRecommendedVersions (firstDescription node) = []
      then [extractSafeVersionFromDescription (firstDescription node)]
      else extractRecommendedVersions (firstDescription node)) ∧
    ((explicitRe.exec (firstDescription node).toList).isSome = true →
      (buildSimulations node id).map Simulation.recommendedVersion =
        extractRecommendedVersions (firstDescription node)) := by
  have hmap : (buildSimulations node id).map Simulation.recommendedVersion =
      recommendedVersions (firstDescription node) := by
    unfold buildSimulations
    rw [List.map_map]
    exact List.map_id _
  have hrec : recommendedVersions (firstDescription node) =
      if extractRecommendedVersions (firstDescription node) = []
      then [extractSafeVersionFromDescription (firstDescription node)]
      else extractRecommendedVersions (firstDescription node) := by
    unfold recommendedVersions
    simp only [List.length_eq_zero]
  refine ⟨hmap.trans hrec, ?_⟩
  intro hsome
  have hne : extractRecommendedVersions (firstDescription node) ≠ [] := by
    intro hnil
    rw [(extractRecommendedVersions_eq_nil_iff _).mp hnil] at hsome
    cases hsome
  rw [hmap, hrec, if_neg hne]

/-- C9: for every record and identifier the candidate list is non-empty and
`buildSimulations` returns at least one simulation. -/
theorem buildSimulations_nonempty (node : DependencyRecord) (id : String) :
    recommendedVersions (firstDescription node) ≠ [] ∧
    1 ≤ (buildSimulations node id).length := by
  have hne : recommendedVersions (firstDescription node) ≠ [] := by
    unfold recommendedVersions
    simp only [List.length_eq_zero]
    split
    · simp
    · assumption
  refine ⟨hne, ?_⟩
  unfold buildSimulations
  rw [List.length_map]
  exact List.length_pos.mpr hne

/-- C10: `buildSimulations` returns one simulation per candidate version, in candidate
order; the simulation for the candidate `ver` has the id `id-upgrade-to-ver`, the
recommended version `ver`, the number of the record's vulnerabilities as severity score
and the single edge from `id` to `ver` as graph. -/
theorem buildSimulations_shape (node : DependencyRecord) (id : String) :
    buildSimulations node id =
      (if extractRecommendedVersions (firstDescription node) = []
       then [extractSafeVersionFromDescription (firstDescription node)]
       else extractRecommendedVersions (firstDescription node)).map (fun ver =>
        { id := id ++ "-upgrade-to-" ++ ver
          description := "Simulate upgrading " ++ id ++ " to " ++ ver
          severityScore := node.vulnerabilities.length
          recommendedVersion := ver
          graph := [{ from_ := id, to_ := ver }] }) := by
  unfold buildSimulations recommendedVersions
  simp only [List.length_eq_zero]

/-- C10, for the identifier `lib-1.0.0.jar` and the candidate version `1.0.1`. -/
theorem buildSimulations_shape_witness :
    buildSimulations exampleLib "lib-1.0.0.jar" =
      [{ id := "lib-1.0.0.jar-upgrade-to-1.0.1"
         description := "Simulate upgrading lib-1.0.0.jar to 1.0.1"
         severityScore := 1
         recommendedVersion := "1.0.1"
         graph := [{ from_ := "lib-1.0.0.jar", to_ := "1.0.1" }] }] :=
  (buildSimulations_shape exampleLib "lib-1.0.0.jar").trans (by decide)

/-! ## The second loop in closed form -/

theorem pushUsedIn_eq_map (k n : String) (l : List (String × DependencyRecord))
    (hl : (l.map Prod.fst).Nodup) : pushUsedIn k n l = l.map (bump k n) := by
  induction l with
  | nil => rfl
  | cons e rest ih =>
    obtain ⟨k1, w⟩ := e
    have hnd := List.nodup_cons.mp hl
    by_cases h : k1 = k
    · subst h
      have hid : rest.map (bump k1 n) = rest := by
        conv_rhs => rw [← List.map_id rest]
        apply List.map_congr_left
        intro e he
        have : e.1 ≠ k1 := fun hk => hnd.1 (by
          rw [← hk]
          exact List.mem_map.mpr ⟨e, he, rfl⟩)
        simp [bump, this]
      simp [pushUsedIn, bump, hid]
    · simp [pushUsedIn, bump, h, ih hnd.2]

theorem map_bump_of_not_mem (k n : String) (l : List (String × DependencyRecord))
    (hk : l.lookup k = none) : l.map (bump k n) = l := by
  conv_rhs => rw [← List.map_id l]
  apply List.map_congr_left
  intro e he
  have : e.1 ≠ k := by
    intro h
    rw [List.lookup_eq_none_iff] at hk
    exact absurd (hk e he) (by simp [h])
  simp [bump, this]

theorem map_fst_bump (k n : String) (l : List (String × DependencyRecord)) :
    (l.map (bump k n)).map Prod.fst = l.map Prod.fst := by
  rw [List.map_map]
  apply List.map_congr_left
  intro e _
  simp only [Function.comp, bump]
  split <;> rfl

theorem link_own (m m1 : JsDict) (dep name : String) (hm : (m.own.map Prod.fst).Nodup)
    (h : m.link dep name = some m1) : m1.own = m.own.map (bump dep name) := by
  unfold JsDict.link JsDict.get at h
  cases hl : m.own.lookup dep with
  | some r =>
    simp only [hl, Option.some.injEq] at h
    subst h
    exact pushUsedIn_eq_map dep name m.own hm
  | none =>
    rw [map_bump_of_not_mem dep name m.own hl]
    simp only [hl] at h
    split at h
    · rename_i hg
      split at hg
      · split at hg <;> cases hg
      · split at hg <;> cases hg
    · simp only [Option.some.injEq] at h
      subst h
      rfl
    · cases h
    · simp only [Option.some.injEq] at h
      subst h
      rfl

theorem map_fst_bumpMany (name : String) (deps : List String)
    (l : List (String × DependencyRecord)) :
    (l.map (bumpMany name deps)).map Prod.fst = l.map Prod.fst := by
  rw [List.map_map]
  rfl

theorem map_fst_withUsedIn (nodes : List DependencyRecord)
    (l : List (String × DependencyRecord)) :
    (l.map (withUsedIn nodes)).map Prod.fst = l.map Prod.fst := by
  rw [List.map_map]
  rfl

theorem bumpMany_bump (name dep : String) (rest : List String)
    (e : String × DependencyRecord) :
    bumpMany name rest (bump dep name e) = bumpMany name (dep :: rest) e := by
  obtain ⟨k, r⟩ := e
  by_cases h : k = dep
  · subst h
    simp [bumpMany, bump, List.replicate_succ]
  · have h2 : ¬ dep = k := fun e => h e.symm
    simp [bumpMany, bump, h, List.count_cons, h2]

theorem linkNode_own (name : String) (deps : List String) (m m1 : JsDict)
    (hm : (m.own.map Prod.fst).Nodup) (h : linkNode name m deps = some m1) :
    m1.own = m.own.map (bumpMany name deps) := by
  induction deps generalizing m with
  | nil =>
    simp only [linkNode, Option.some.injEq] at h
    subst h
    conv_lhs => rw [← List.map_id m.own]
    apply List.map_congr_left
    intro e _
    simp [bumpMany]
  | cons dep rest ih =>
    simp only [linkNode] at h
    cases hl : m.link dep name with
    | none => simp [hl] at h
    | some m2 =>
      rw [hl] at h
      have h2 := link_own m m2 dep name hm hl
      have hm2 : (m2.own.map Prod.fst).Nodup := by
        rw [h2, map_fst_bump]
        exact hm
      rw [ih m2 hm2 h, h2, List.map_map]
      apply List.map_congr_left
      intro e _
      exact bumpMany_bump name dep rest e

theorem withUsedIn_bumpMany (node : DependencyRecord) (rest : List DependencyRecord)
    (e : String × DependencyRecord) :
    withUsedIn rest (bumpMany node.fileName node.dependencies e) =
      withUsedIn (node :: rest) e := by
  simp [withUsedIn, bumpMany, usedInFrom, List.append_assoc]

theorem linkAll_own (nodes : List DependencyRecord) (m m1 : JsDict)
    (hm : (m.own.map Prod.fst).Nodup) (h : linkAll m nodes = some m1) :
    m1.own = m.own.map (withUsedIn nodes) := by
  induction nodes generalizing m with
  | nil =>
    simp only [linkAll, Option.some.injEq] at h
    subst h
    conv_lhs => rw [← List.map_id m.own]
    apply List.map_congr_left
    intro e _
    simp [withUsedIn, usedInFrom]
  | cons node rest ih =>
    simp only [linkAll] at h
    cases hl : linkNode node.fileName m node.dependencies with
    | none => simp [hl] at h
    | some m2 =>
      rw [hl] at h
      have h2 := linkNode_own _ _ m m2 hm hl
      have hm2 : (m2.own.map Prod.fst).Nodup := by
        rw [h2, map_fst_bumpMany]
        exact hm
      rw [ih m2 hm2 h, h2, List.map_map]
      apply List.map_congr_left
      intro e _
      exact withUsedIn_bumpMany node rest e

theorem mem_usedInFrom (nodes : List DependencyRecord) (key y : String) :
    y ∈ usedInFrom nodes key ↔
      ∃ node ∈ nodes, node.fileName = y ∧ key ∈ node.dependencies := by
  simp only [usedInFrom, List.mem_flatMap, List.mem_replicate, ne_eq, List.count_eq_zero]
  constructor
  · rintro ⟨node, hn, hc, rfl⟩
    exact ⟨node, hn, rfl, not_not.mp hc⟩
  · rintro ⟨node, hn, rfl, hk⟩
    exact ⟨node, hn, not_not.mpr hk, rfl⟩

/-! ## The records returned, in closed form -/

theorem entries_map (m m1 : JsDict) (g : String × DependencyRecord → String × DependencyRecord)
    (hg : ∀ e, (g e).1 = e.1) (hown : m1.own = m.own.map g) :
    m1.entries = m.entries.map g := by
  unfold JsDict.entries
  rw [hown, List.map_append, List.filter_map, List.filter_map]
  have h1 : ((fun e : String × DependencyRecord => (arrayIndex? e.1).isSome) ∘ g) =
      (fun e : String × DependencyRecord => (arrayIndex? e.1).isSome) := by
    funext e
    simp [Function.comp, hg e]
  have h2 : ((fun e : String × DependencyRecord => !(arrayIndex? e.1).isSome) ∘ g) =
      (fun e : String × DependencyRecord => !(arrayIndex? e.1).isSome) := by
    funext e
    simp [Function.comp, hg e]
  rw [h1, h2]
  congr 1
  symm
  apply List.map_insertionSort
  intro a _ b _
  simp [indexLe, hg a, hg b]

theorem mem_buildMap_own (raw : List ReportItem) (e : String × DependencyRecord)
    (he : e ∈ (buildMap raw).own) : ∃ d ∈ raw, e = (d.fileName, newRecord d) := by
  have key : ∀ (l : List ReportItem) (m : JsDict),
      e ∈ (l.foldl (fun m d => m.set d.fileName (newRecord d)) m).own →
      e ∈ m.own ∨ ∃ d ∈ l, e = (d.fileName, newRecord d) := by
    intro l
    induction l with
    | nil => intro m hm; exact Or.inl hm
    | cons d rest ih =>
      intro m hm
      simp only [List.foldl_cons] at hm
      rcases ih (m.set d.fileName (newRecord d)) hm with h | ⟨d2, hd2, h⟩
      · unfold JsDict.set at h
        split at h
        · exact Or.inl h
        · rcases mem_setOwn _ _ _ _ h with h | h
          · exact Or.inr ⟨d, List.mem_cons_self _ _, h⟩
          · exact Or.inl h
      · exact Or.inr ⟨d2, List.mem_cons_of_mem _ hd2, h⟩
  rcases key raw JsDict.empty he with h | h
  · cases h
  · exact h

theorem mem_buildMap_values (raw : List ReportItem) (r : DependencyRecord)
    (hr : r ∈ (buildMap raw).values) : ∃ d ∈ raw, r = newRecord d := by
  unfold JsDict.values at hr
  obtain ⟨e, he, rfl⟩ := List.mem_map.mp hr
  obtain ⟨d, hd, rfl⟩ := mem_buildMap_own raw e ((entries_perm _).mem_iff.mp he)
  exact ⟨d, hd, rfl⟩

/-- The records `simulateDependencyRelations` returns, when it returns: the records of the
first loop in the order of `Object.values`, each with the names of the records that list
its `fileName` among their dependencies as `usedIn`. -/
theorem simulate_eq (reportJson : Report) (enhanced : List DependencyRecord)
    (h : simulateDependencyRelations reportJson = some enhanced) :
    enhanced = (buildMap (reportJson.dependencies.getD [])).values.map (fun r =>
      { r with usedIn := usedInFrom (buildMap (reportJson.dependencies.getD [])).values
                 r.fileName }) := by
  unfold simulateDependencyRelations at h
  simp only [] at h
  cases hl : linkAll (buildMap (reportJson.dependencies.getD []))
      (buildMap (reportJson.dependencies.getD [])).values with
  | none => simp [hl] at h
  | some linked =>
    rw [hl] at h
    simp only [Option.some.injEq] at h
    subst h
    have hk := keysOk_buildMap (reportJson.dependencies.getD [])
    have hown := linkAll_own _ _ linked hk.1 hl
    have hent := entries_map (buildMap (reportJson.dependencies.getD [])) linked
      (withUsedIn (buildMap (reportJson.dependencies.getD [])).values) (fun _ => rfl) hown
    unfold JsDict.values
    rw [hent, List.map_map, List.map_map]
    apply List.map_congr_left
    intro e he
    have hmem := (entries_perm _).mem_iff.mp he
    obtain ⟨d, _, rfl⟩ := mem_buildMap_own _ e hmem
    simp only [Function.comp, withUsedIn, newRecord, List.nil_append]
    rfl

/-- The reverse index over the records returned: a name is in `usedIn` of a returned record
`X` exactly when it is the `fileName` of a returned record that lists `X.fileName` among its
dependencies. -/
theorem usedIn_iff_of_returned (reportJson : Report) (enhanced : List DependencyRecord)
    (h : simulateDependencyRelations reportJson = some enhanced) (X : DependencyRecord)
    (hX : X ∈ enhanced) (y : String) :
    y ∈ X.usedIn ↔ ∃ Y ∈ enhanced, Y.fileName = y ∧ X.fileName ∈ Y.dependencies := by
  have heq := simulate_eq reportJson enhanced h
  rw [heq] at hX
  obtain ⟨r, hr, rfl⟩ := List.mem_map.mp hX
  simp only [mem_usedInFrom]
  constructor
  · rintro ⟨node, hn, hf, hd⟩
    rw [heq]
    exact ⟨_, List.mem_map.mpr ⟨node, hn, rfl⟩, hf, hd⟩
  · rintro ⟨Y, hY, hf, hd⟩
    rw [heq] at hY
    obtain ⟨node, hn, rfl⟩ := List.mem_map.mp hY
    exact ⟨node, hn, hf, hd⟩

/-! ## The records of the first loop and the items of the report -/

theorem mem_setOwn_self (k : String) (v : DependencyRecord)
    (l : List (String × DependencyRecord)) : (k, v) ∈ setOwn k v l := by
  induction l with
  | nil => simp [setOwn]
  | cons e rest ih =>
    obtain ⟨k1, w⟩ := e
    by_cases h : k1 = k
    · simp [setOwn, h]
    · simp only [setOwn, h, if_false]
      exact List.mem_cons_of_mem _ ih

theorem mem_setOwn_of_ne (k : String) (v : DependencyRecord)
    (l : List (String × DependencyRecord)) (e : String × DependencyRecord) (he : e ∈ l)
    (hne : e.1 ≠ k) : e ∈ setOwn k v l := by
  induction l with
  | nil => cases he
  | cons e1 rest ih =>
    obtain ⟨k1, w⟩ := e1
    by_cases h : k1 = k
    · rcases List.mem_cons.mp he with rfl | he2
      · exact absurd h hne
      · simp only [setOwn, h, if_true]
        exact List.mem_cons_of_mem _ he2
    · simp only [setOwn, h, if_false]
      rcases List.mem_cons.mp he with rfl | he2
      · exact List.mem_cons_self _ _
      · exact List.mem_cons_of_mem _ (ih he2)

theorem mem_foldl_set (l : List ReportItem)
    (hnd : (l.map ReportItem.fileName).Nodup)
    (hproto : "__proto__" ∉ l.map ReportItem.fileName) (m : JsDict) :
    (∀ e ∈ m.own, e.1 ∉ l.map ReportItem.fileName →
      e ∈ (l.foldl (fun m d => m.set d.fileName (newRecord d)) m).own) ∧
    (∀ d ∈ l, (d.fileName, newRecord d) ∈
      (l.foldl (fun m d => m.set d.fileName (newRecord d)) m).own) := by
  induction l generalizing m with
  | nil => exact ⟨fun e he _ => he, fun d hd => by cases hd⟩
  | cons d rest ih =>
    have hnd2 : d.fileName ∉ rest.map ReportItem.fileName ∧
        (rest.map ReportItem.fileName).Nodup := List.nodup_cons.mp hnd
    have hp : d.fileName ≠ "__proto__" := by
      intro h
      exact hproto (by simp [h])
    have hp2 : "__proto__" ∉ rest.map ReportItem.fileName := by
      intro h
      exact hproto (by simp only [List.map_cons]; exact List.mem_cons_of_mem _ h)
    have hset : (m.set d.fileName (newRecord d)).own = setOwn d.fileName (newRecord d) m.own := by
      simp [JsDict.set, hp]
    obtain ⟨ih1, ih2⟩ := ih hnd2.2 hp2 (m.set d.fileName (newRecord d))
    simp only [List.foldl_cons]
    refine ⟨?_, ?_⟩
    · intro e he hne
      have hne1 : e.1 ≠ d.fileName := by
        intro h
        exact hne (by simp [h])
      have hne2 : e.1 ∉ rest.map ReportItem.fileName := by
        intro h
        exact hne (by simp only [List.map_cons]; exact List.mem_cons_of_mem _ h)
      apply ih1 e _ hne2
      rw [hset]
      exact mem_setOwn_of_ne _ _ _ e he hne1
    · intro d2 hd2
      rcases List.mem_cons.mp hd2 with rfl | hd3
      · apply ih1 _ _ hnd2.1
        rw [hset]
        exact mem_setOwn_self _ _ _
      · exact ih2 d2 hd3

theorem newRecord_mem_values (raw : List ReportItem)
    (hnd : (raw.map ReportItem.fileName).Nodup)
    (hproto : "__proto__" ∉ raw.map ReportItem.fileName) (d : ReportItem) (hd : d ∈ raw) :
    newRecord d ∈ (buildMap raw).values := by
  have := (mem_foldl_set raw hnd hproto JsDict.empty).2 d hd
  unfold JsDict.values
  exact List.mem_map.mpr ⟨_, (entries_perm _).mem_iff.mpr this, rfl⟩

/-- The reverse index over the items of the report: when the fileNames of the report are
pairwise distinct and none is `__proto__`, a name is in `usedIn` of a returned record `X`
exactly when it is the `fileName` of an item that lists `X.fileName` among its
dependencies. -/
theorem usedIn_iff_of_items (reportJson : Report) (enhanced : List DependencyRecord)
    (h : simulateDependencyRelations reportJson = some enhanced)
    (hnd : ((reportJson.dependencies.getD []).map ReportItem.fileName).Nodup)
    (hproto : "__proto__" ∉ (reportJson.dependencies.getD []).map ReportItem.fileName)
    (X : DependencyRecord) (hX : X ∈ enhanced) (y : String) :
    y ∈ X.usedIn ↔
      ∃ d ∈ reportJson.dependencies.getD [],
        d.fileName = y ∧ X.fileName ∈ d.dependencies.getD [] := by
  have heq := simulate_eq reportJson enhanced h
  rw [heq] at hX
  obtain ⟨r, hr, rfl⟩ := List.mem_map.mp hX
  simp only [mem_usedInFrom]
  constructor
  · rintro ⟨node, hn, hf, hdep⟩
    obtain ⟨d, hd, rfl⟩ := mem_buildMap_values _ node hn
    exact ⟨d, hd, hf, hdep⟩
  · rintro ⟨d, hd, hf, hdep⟩
    exact ⟨newRecord d, newRecord_mem_values _ hnd hproto d hd, hf, hdep⟩

/-! ## Claims C11 to C13 -/

/-- C11: only the first vulnerability's description is consulted.  Two records with the same
number of vulnerabilities and the same description on their first vulnerability give, with
the same identifier, equal lists of simulations, whatever else the records hold. -/
theorem buildSimulations_first_description (n1 n2 : DependencyRecord) (id : String)
    (hlen : n1.vulnerabilities.length = n2.vulnerabilities.length)
    (hdesc : (n1.vulnerabilities[0]?).map Vulnerability.description =
      (n2.vulnerabilities[0]?).map Vulnerability.description) :
    buildSimulations n1 id = buildSimulations n2 id := by
  have hfirst : firstDescription n1 = firstDescription n2 := by
    unfold firstDescription
    cases h1 : n1.vulnerabilities[0]? with
    | none =>
      cases h2 : n2.vulnerabilities[0]? with
      | none => rfl
      | some v2 => simp [h1, h2] at hdesc
    | some v1 =>
      cases h2 : n2.vulnerabilities[0]? with
      | none => simp [h1, h2] at hdesc
      | some v2 =>
        simp only [h1, h2, Option.map_some', Option.some.injEq] at hdesc
        simp only [hdesc]
  unfold buildSimulations
  rw [hfirst, hlen]

/-- C11, on two records that share the description of the first vulnerability and differ in
its name and severity, in the second vulnerability and in every other field. -/
theorem buildSimulations_first_description_witness :
    exampleFirstA.vulnerabilities.length = exampleFirstB.vulnerabilities.length ∧
    exampleFirstA ≠ exampleFirstB ∧
    buildSimulations exampleFirstA "lib-1.0.0.jar" =
      buildSimulations exampleFirstB "lib-1.0.0.jar" :=
  ⟨by decide, by decide,
    buildSimulations_first_description exampleFirstA exampleFirstB "lib-1.0.0.jar"
      (by decide) (by decide)⟩

/-- C12: the three severity counts of the summary are the numbers of vulnerabilities,
flattened over all items (a missing list counting as empty), whose severity is exactly
`HIGH`, `MEDIUM` and `LOW`; a vulnerability with any other severity, or none, is counted in
none of the three, so the three counts and the number of those others add up to the number
of all vulnerabilities. -/
theorem summary_severity_counts (reportJson : Report) :
    (buildSummary reportJson).highSeverity =
      (allVulnerabilities (reportJson.dependencies.getD [])).countP
        (fun v => v.severity == some "HIGH") ∧
    (buildSummary reportJson).mediumSeverity =
      (allVulnerabilities (reportJson.dependencies.getD [])).countP
        (fun v => v.severity == some "MEDIUM") ∧
    (buildSummary reportJson).lowSeverity =
      (allVulnerabilities (reportJson.dependencies.getD [])).countP
        (fun v => v.severity == some "LOW") ∧
    (buildSummary reportJson).highSeverity + (buildSummary reportJson).mediumSeverity +
      (buildSummary reportJson).lowSeverity +
      (allVulnerabilities (reportJson.dependencies.getD [])).countP
        (fun v => !(v.severity == some "HIGH") && !(v.severity == some "MEDIUM") &&
          !(v.severity == some "LOW")) =
      (allVulnerabilities (reportJson.dependencies.getD [])).length := by
  simp only [buildSummary, ← List.countP_eq_length_filter]
  refine ⟨trivial, trivial, trivial, ?_⟩
  generalize allVulnerabilities (reportJson.dependencies.getD []) = vs
  induction vs with
  | nil => rfl
  | cons v t ih =>
    simp only [List.countP_cons, List.length_cons]
    by_cases h1 : v.severity = some "HIGH"
    · simp [h1]
      omega
    · by_cases h2 : v.severity = some "MEDIUM"
      · simp [h2]
        omega
      · by_cases h3 : v.severity = some "LOW"
        · simp [h3]
          omega
        · simp [h1, h2, h3]
          omega

/-- C12, on the report with the severities `[HIGH, LOW]` and `[CRITICAL]`, and on a report
whose four vulnerabilities have the severities `high`, `CRITICAL`, `HIGH ` and none: the
latter are counted in none of the three. -/
theorem summary_severity_counts_witness :
    buildSummary severityReport =
      { totalDependencies := 2, vulnerableCount := 2, highSeverity := 1,
        mediumSeverity := 0, lowSeverity := 1 } ∧
    buildSummary otherSeverityReport =
      { totalDependencies := 1, vulnerableCount := 1, highSeverity := 0,
        mediumSeverity := 0, lowSeverity := 0 } ∧
    (buildSummary severityReport).highSeverity =
      (allVulnerabilities (severityReport.dependencies.getD [])).countP
        (fun v => v.severity == some "HIGH") :=
  ⟨by decide, by decide, (summary_severity_counts severityReport).1⟩

theorem values_perm_items (raw : List ReportItem)
    (hnd : (raw.map ReportItem.fileName).Nodup)
    (hproto : "__proto__" ∉ raw.map ReportItem.fileName) :
    (buildMap raw).values.Perm (raw.map newRecord) := by
  have h1 : (buildMap raw).values.Nodup :=
    List.Nodup.of_map _ (values_fileNames_nodup _ (keysOk_buildMap raw))
  have h2 : (raw.map newRecord).Nodup := by
    apply List.Nodup.of_map DependencyRecord.fileName
    rw [List.map_map]
    exact hnd
  rw [List.perm_ext_iff_of_nodup h1 h2]
  intro r
  constructor
  · intro hr
    obtain ⟨d, hd, rfl⟩ := mem_buildMap_values raw r hr
    exact List.mem_map_of_mem _ hd
  · intro hr
    obtain ⟨d, hd, rfl⟩ := List.mem_map.mp hr
    exact newRecord_mem_values raw hnd hproto d hd

/-- C13 (amended): for a report whose fileNames are pairwise distinct and none of which is
`__proto__`, and on which ingestion returns the records `enhanced`, the summary's
`totalDependencies` is the number of those records and `vulnerableCount` is the number of
those records that have at least one vulnerability. -/
theorem summary_counts_records (reportJson : Report) (enhanced : List DependencyRecord)
    (h : simulateDependencyRelations reportJson = some enhanced)
    (hnd : ((reportJson.dependencies.getD []).map ReportItem.fileName).Nodup)
    (hproto : "__proto__" ∉ (reportJson.dependencies.getD []).map ReportItem.fileName) :
    (buildSummary reportJson).totalDependencies = enhanced.length ∧
    (buildSummary reportJson).vulnerableCount =
      enhanced.countP (fun r => r.vulnerabilities.length != 0) := by
  have heq := simulate_eq reportJson enhanced h
  have hperm := values_perm_items (reportJson.dependencies.getD []) hnd hproto
  constructor
  · rw [heq, List.length_map, hperm.length_eq, List.length_map]
    rfl
  · rw [heq, List.countP_map]
    have hc := hperm.countP_eq (fun r : DependencyRecord => r.vulnerabilities.length != 0)
    show _ = List.countP (fun r : DependencyRecord => r.vulnerabilities.length != 0)
      (buildMap (reportJson.dependencies.getD [])).values
    rw [hc, List.countP_map, List.countP_eq_length_filter]
    rfl

/-- C13, on the example report: three items, three records, two of them vulnerable. -/
theorem summary_counts_records_witness :
    simulateDependencyRelations exampleReport = some exampleEnhanced ∧
    ((exampleReport.dependencies.getD []).map ReportItem.fileName).Nodup ∧
    "__proto__" ∉ (exampleReport.dependencies.getD []).map ReportItem.fileName ∧
    (buildSummary exampleReport).totalDependencies = 3 ∧
    (buildSummary exampleReport).vulnerableCount = 2 ∧
    (buildSummary exampleReport).totalDependencies = exampleEnhanced.length ∧
    (buildSummary exampleReport).vulnerableCount =
      exampleEnhanced.countP (fun r => r.vulnerabilities.length != 0) :=
  ⟨by decide, by decide, by decide, by decide, by decide,
    summary_counts_records exampleReport exampleEnhanced (by decide) (by decide) (by decide)⟩

/-- C13 as stated fails: the report that lists `a.jar` twice and `b.jar` once has
`totalDependencies = 3`, while ingestion returns two records. -/
theorem summary_counts_counterexample :
    (buildSummary repeatedReport).totalDependencies = 3 ∧
    ∃ enhanced, simulateDependencyRelations repeatedReport = some enhanced ∧
      enhanced.length = 2 ∧
      (buildSummary repeatedReport).totalDependencies ≠ enhanced.length :=
  ⟨by decide, (simulateDependencyRelations repeatedReport).getD [], by decide, by decide,
    by decide⟩

/-! ## The Dependency Edge Parser -/

theorem parseLine_isSome_iff (line : List Char) :
    (parseLine line).isSome = true ↔ quotedCount line = 2 := by
  unfold parseLine quotedCount Regex.matchGlobal
  cases h : quotedRe.matchesAll line with
  | nil => simp
  | cons a t =>
    cases t with
    | nil => simp
    | cons b t2 =>
      cases t2 with
      | nil => simp
      | cons c t3 => simp

theorem parseLine_eq_none_iff (line : List Char) :
    parseLine line = none ↔ quotedCount line ≠ 2 := by
  rw [ne_eq, ← parseLine_isSome_iff]
  cases parseLine line <;> simp

theorem foldl_push_eq (lines : List (List Char)) (acc : List Edge) :
    lines.foldl
      (fun graph line =>
        match parseLine line with
        | some edge => graph ++ [edge]
        | none => graph) acc = acc ++ lines.filterMap parseLine := by
  induction lines generalizing acc with
  | nil => simp
  | cons l rest ih =>
    simp only [List.foldl_cons, List.filterMap_cons]
    cases h : parseLine l with
    | none => exact ih acc
    | some e =>
      rw [ih]
      simp

theorem parseGraph_eq_filterMap (dotOutput : String) :
    parseGraph dotOutput =
      (splitChar (Char.ofNat 10) dotOutput.toList).filterMap parseLine := by
  unfold parseGraph
  rw [foldl_push_eq]
  rfl

theorem filterMap_filter_isSome {α β : Type} (f : α → Option β) (p : α → Bool)
    (hp : ∀ a, p a = true ↔ (f a).isSome = true) (l : List α) :
    (l.filter p).filterMap f = l.filterMap f ∧
    (l.filterMap f).length = (l.filter p).length := by
  induction l with
  | nil => exact ⟨rfl, rfl⟩
  | cons a t ih =>
    cases h : f a with
    | none =>
      have hpa : ¬ p a = true := by
        rw [hp a, h]
        simp
      simp only [List.filter_cons, hpa, if_false, List.filterMap_cons, h]
      exact ih
    | some b =>
      have hpa : p a = true := by
        rw [hp a, h]
        rfl
      simp only [List.filter_cons, hpa, if_true, List.filterMap_cons, h, List.length_cons]
      exact ⟨by rw [ih.1], by rw [ih.2]⟩

theorem parseLine_of_matches (line q1 q2 f0 a1 f2 v1 g0 a2 g2 v2 : List Char)
    (r1 r2 : List (List Char))
    (hq : quotedRe.matchGlobal line = some [q1, q2])
    (h1 : splitChar (Char.ofNat 58) (stripQuotes q1) = f0 :: a1 :: f2 :: v1 :: r1)
    (h2 : splitChar (Char.ofNat 58) (stripQuotes q2) = g0 :: a2 :: g2 :: v2 :: r2) :
    parseLine line =
      some { from_ := String.mk a1 ++ "-" ++ String.mk v1 ++ ".jar"
             to_ := String.mk a2 ++ "-" ++ String.mk v2 ++ ".jar" } := by
  unfold parseLine
  rw [hq]
  simp only [parseArtifact, h1, h2, List.getElem?_cons_succ, List.getElem?_cons_zero, showField]
  rfl

/-- C14: for a line in which the parser finds exactly the two quoted substrings `q1` and
`q2`, each a colon-separated coordinate with at least four fields, the edge of the line goes
from `a1-v1.jar` to `a2-v2.jar`, where `a1`, `v1` and `a2`, `v2` are the 2nd and the 4th
field of the first and of the second quoted substring. -/
theorem parseLine_coordinates (line q1 q2 f0 a1 f2 v1 g0 a2 g2 v2 : List Char)
    (r1 r2 : List (List Char))
    (hq : quotedRe.matchGlobal line = some [q1, q2])
    (h1 : splitChar (Char.ofNat 58) (stripQuotes q1) = f0 :: a1 :: f2 :: v1 :: r1)
    (h2 : splitChar (Char.ofNat 58) (stripQuotes q2) = g0 :: a2 :: g2 :: v2 :: r2) :
    parseLine line =
      some { from_ := String.mk a1 ++ "-" ++ String.mk v1 ++ ".jar"
             to_ := String.mk a2 ++ "-" ++ String.mk v2 ++ ".jar" } :=
  parseLine_of_matches line q1 q2 f0 a1 f2 v1 g0 a2 g2 v2 r1 r2 hq h1 h2

/-- C14, on the line of the specification: the coordinates `g:a1:jar:1.0.0` and
`g:a2:jar:2.0.0` give the edge from `a1-1.0.0.jar` to `a2-2.0.0.jar`. -/
theorem parseLine_coordinates_witness :
    quotedRe.matchGlobal "\t\"g:a1:jar:1.0.0\" -> \"g:a2:jar:2.0.0\" ;".toList =
      some ["\"g:a1:jar:1.0.0\"".toList, "\"g:a2:jar:2.0.0\"".toList] ∧
    parseLine "\t\"g:a1:jar:1.0.0\" -> \"g:a2:jar:2.0.0\" ;".toList =
      some { from_ := "a1-1.0.0.jar", to_ := "a2-2.0.0.jar" } :=
  ⟨by decide,
    parseLine_coordinates "\t\"g:a1:jar:1.0.0\" -> \"g:a2:jar:2.0.0\" ;".toList
      "\"g:a1:jar:1.0.0\"".toList "\"g:a2:jar:2.0.0\"".toList
      "g".toList "a1".toList "jar".toList "1.0.0".toList
      "g".toList "a2".toList "jar".toList "2.0.0".toList [] []
      (by decide) (by decide) (by decide)⟩

/-- C15: the edge list of a text is made of the edges of its lines, in line order; a line
yields an edge exactly when the parser finds exactly two quoted substrings in it, so the
list has one edge per such line and none for a line with 0, 1, 3 or more of them. -/
theorem parseGraph_one_edge_per_line (dotOutput : String) :
    parseGraph dotOutput =
      ((splitChar (Char.ofNat 10) dotOutput.toList).filter
        (fun line => quotedCount line == 2)).filterMap parseLine ∧
    (parseGraph dotOutput).length =
      ((splitChar (Char.ofNat 10) dotOutput.toList).filter
        (fun line => quotedCount line == 2)).length ∧
    (∀ line, quotedCount line = 2 → (parseLine line).isSome = true) ∧
    (∀ line, quotedCount line ≠ 2 → parseLine line = none) := by
  have hp : ∀ line : List Char,
      (quotedCount line == 2) = true ↔ (parseLine line).isSome = true := by
    intro line
    rw [parseLine_isSome_iff]
    simp
  have h := filterMap_filter_isSome parseLine (fun line => quotedCount line == 2) hp
    (splitChar (Char.ofNat 10) dotOutput.toList)
  refine ⟨?_, ?_, ?_, ?_⟩
  · rw [parseGraph_eq_filterMap, h.1]
  · rw [parseGraph_eq_filterMap, h.2]
  · intro line hl
    exact (parseLine_isSome_iff line).mpr hl
  · intro line hl
    exact (parseLine_eq_none_iff line).mpr hl

/-- C15, on a text of six lines with one, two, two, one, three and no quoted substrings: two
edges, those of the second and of the third line, in this order. -/
theorem parseGraph_one_edge_per_line_witness :
    (splitChar (Char.ofNat 10) exampleGraphText.toList).map quotedCount = [1, 2, 2, 1, 3, 0] ∧
    parseGraph exampleGraphText =
      [{ from_ := "app-1.0.jar", to_ := "a1-1.0.0.jar" },
       { from_ := "a1-1.0.0.jar", to_ := "a2-2.0.0.jar" }] ∧
    (parseGraph exampleGraphText).length =
      ((splitChar (Char.ofNat 10) exampleGraphText.toList).filter
        (fun line => quotedCount line == 2)).length :=
  ⟨by decide, by decide, (parseGraph_one_edge_per_line exampleGraphText).2.1⟩

/-! ## The quoted substrings of a well-quoted line -/

theorem quotedRe_matchAt_of_not_quote (s : List Char)
    (h : ∀ c t, s = c :: t → c ≠ quoteChar) : quotedRe.matchAt s = none := by
  unfold Regex.matchAt quotedRe
  cases s with
  | nil => rfl
  | cons c t =>
    have hc : exactChar quoteChar c = false := by
      simp only [exactChar, beq_eq_false_iff_ne, ne_eq]
      exact h c t rfl
    simp [Regex.run, hc]

theorem dropWhile_not_quote (x rest : List Char) (hx : quoteChar ∉ x) :
    (x ++ quoteChar :: rest).dropWhile (fun c => !(c == quoteChar)) = quoteChar :: rest := by
  rw [dropWhile_append_of_all]
  · simp [List.dropWhile]
  · intro c hc
    have : c ≠ quoteChar := fun e => hx (e ▸ hc)
    simp [this]

theorem take_eq_of_append (x rest l : List Char) (n : Nat) (hl : l = x ++ rest)
    (hn : n = x.length) : l.take n = x := by
  subst hl hn
  exact List.take_left' rfl

theorem quotedRe_matchAt_quoted (x rest : List Char) (hx : IsQuotable x) :
    quotedRe.matchAt (quoted x ++ rest) =
      some { before := [], text := quoted x, cap := some x, after := rest } := by
  obtain ⟨hne, hq⟩ := hx
  cases x with
  | nil => exact absurd rfl hne
  | cons c t =>
    have hc : c ≠ quoteChar := fun e => hq (e ▸ List.mem_cons_self _ _)
    have ht : quoteChar ∉ t := fun e => hq (List.mem_cons_of_mem _ e)
    unfold Regex.matchAt quotedRe quoted
    simp only [Regex.run, List.cons_append, exactChar, beq_self_eq_true, if_true, hc,
      beq_iff_eq, Bool.not_eq_true', if_false, not_false_eq_true]
    simp only [show (c == quoteChar) = false from by simp [hc], Bool.not_false, if_true]
    rw [starGreedy_of_fail]
    · rw [List.append_assoc, List.singleton_append, dropWhile_not_quote t rest ht]
      simp only [exactChar, beq_self_eq_true, if_true, Option.some.injEq, Match.mk.injEq,
        true_and, and_true]
      constructor
      · exact take_eq_of_append _ rest _ _ (by simp) (by simp; omega)
      · exact take_eq_of_append _ (quoteChar :: rest) _ _ (by simp) (by simp; omega)
    · intro d u hd
      have : d ≠ quoteChar := by simpa using hd
      simp [this]

theorem quotedRe_exec_of_quoteFree (s : List Char) (hs : quoteChar ∉ s) :
    quotedRe.exec s = none := by
  induction s with
  | nil =>
    simp only [Regex.exec]
    exact quotedRe_matchAt_of_not_quote [] (fun c t h => by cases h)
  | cons c t ih =>
    have hc : c ≠ quoteChar := fun e => hs (e ▸ List.mem_cons_self _ _)
    have ht : quoteChar ∉ t := fun e => hs (List.mem_cons_of_mem _ e)
    simp only [Regex.exec]
    rw [quotedRe_matchAt_of_not_quote (c :: t) (fun d u h => by
      simp only [List.cons.injEq] at h
      exact h.1 ▸ hc), ih ht]

theorem quotedRe_exec_quoted (pre x rest : List Char) (hpre : quoteChar ∉ pre)
    (hx : IsQuotable x) :
    quotedRe.exec (pre ++ quoted x ++ rest) =
      some { before := pre, text := quoted x, cap := some x, after := rest } := by
  induction pre with
  | nil =>
    have hm := quotedRe_matchAt_quoted x rest hx
    simp only [List.nil_append]
    unfold quoted at hm ⊢
    simp only [List.cons_append] at hm ⊢
    simp only [Regex.exec, hm]
  | cons c t ih =>
    have hc : c ≠ quoteChar := fun e => hpre (e ▸ List.mem_cons_self _ _)
    have ht : quoteChar ∉ t := fun e => hpre (List.mem_cons_of_mem _ e)
    have hl : (c :: t) ++ quoted x ++ rest = c :: (t ++ quoted x ++ rest) := rfl
    rw [hl]
    simp only [Regex.exec]
    rw [quotedRe_matchAt_of_not_quote _ (fun d u h => by
      simp only [List.cons.injEq] at h
      exact h.1 ▸ hc), ih ht]

theorem quoted_isEmpty (x : List Char) : (quoted x).isEmpty = false := rfl

/-- In a line with two quoted texts and no other double quote, the parser finds exactly
those two quoted substrings. -/
theorem matchGlobal_two_quoted (pre x1 mid x2 post : List Char) (hpre : quoteChar ∉ pre)
    (hmid : quoteChar ∉ mid) (hpost : quoteChar ∉ post) (h1 : IsQuotable x1)
    (h2 : IsQuotable x2) :
    quotedRe.matchGlobal (pre ++ quoted x1 ++ mid ++ quoted x2 ++ post) =
      some [quoted x1, quoted x2] := by
  have hlen : ∃ n, (pre ++ quoted x1 ++ mid ++ quoted x2 ++ post).length + 1 = n + 2 := by
    exact ⟨(pre ++ quoted x1 ++ mid ++ quoted x2 ++ post).length - 1, by
      simp [quoted]
      omega⟩
  obtain ⟨n, hn⟩ := hlen
  have hall : quotedRe.matchesAll (pre ++ quoted x1 ++ mid ++ quoted x2 ++ post) =
      [{ before := pre, text := quoted x1, cap := some x1,
         after := mid ++ quoted x2 ++ post },
       { before := mid, text := quoted x2, cap := some x2, after := post }] := by
    unfold Regex.matchesAll
    rw [hn]
    have e1 : quotedRe.exec (pre ++ quoted x1 ++ mid ++ quoted x2 ++ post) =
        some { before := pre, text := quoted x1, cap := some x1,
               after := mid ++ quoted x2 ++ post } := by
      have := quotedRe_exec_quoted pre x1 (mid ++ quoted x2 ++ post) hpre h1
      simpa only [List.append_assoc] using this
    have e2 := quotedRe_exec_quoted mid x2 post hmid h2
    have e3 := quotedRe_exec_of_quoteFree post hpost
    simp only [Regex.matchesAux, e1, quoted_isEmpty, Bool.false_eq_true, if_false, e2]
    cases n with
    | zero => rfl
    | succ k => simp only [Regex.matchesAux, e3]
  unfold Regex.matchGlobal
  rw [hall]
  rfl

theorem stripQuotes_quoted (x : List Char) (hx : quoteChar ∉ x) :
    stripQuotes (quoted x) = x := by
  unfold stripQuotes quoted
  simp only [List.filter_cons, beq_self_eq_true, Bool.not_true, Bool.false_eq_true, if_false,
    List.filter_append, List.filter_nil, List.append_nil]
  rw [List.filter_eq_self]
  intro c hc
  have : c ≠ quoteChar := fun e => hx (e ▸ hc)
  simp [this]

/-- The edge of a line with two quoted coordinates and no other double quote. -/
theorem parseLine_well_quoted (pre x1 mid x2 post f0 a1 f2 v1 g0 a2 g2 v2 : List Char)
    (r1 r2 : List (List Char)) (hpre : quoteChar ∉ pre) (hmid : quoteChar ∉ mid)
    (hpost : quoteChar ∉ post) (hx1 : IsQuotable x1) (hx2 : IsQuotable x2)
    (h1 : splitChar (Char.ofNat 58) x1 = f0 :: a1 :: f2 :: v1 :: r1)
    (h2 : splitChar (Char.ofNat 58) x2 = g0 :: a2 :: g2 :: v2 :: r2) :
    parseLine (pre ++ quoted x1 ++ mid ++ quoted x2 ++ post) =
      some { from_ := String.mk a1 ++ "-" ++ String.mk v1 ++ ".jar"
             to_ := String.mk a2 ++ "-" ++ String.mk v2 ++ ".jar" } :=
  parseLine_of_matches _ (quoted x1) (quoted x2) f0 a1 f2 v1 g0 a2 g2 v2 r1 r2
    (matchGlobal_two_quoted pre x1 mid x2 post hpre hmid hpost hx1 hx2)
    (by rw [stripQuotes_quoted x1 hx1.2]; exact h1)
    (by rw [stripQuotes_quoted x2 hx2.2]; exact h2)

/-! ## Claims C16 to C20 -/

/-- C16 (code defect): for the report whose one item `a.jar` depends on an identifier named
`constructor`, `simulateDependencyRelations` throws (the read `map["constructor"]` yields
the inherited function, whose `usedIn` is `undefined`), and the impact operation answers
with status 500. -/
theorem simulateDependencyRelations_throws :
    simulateDependencyRelations constructorReport = none ∧
    impactAnalysis (some constructorReport) "a.jar" = .failed "Impact analysis failed" := by
  decide

/-- When it returns: every record `simulateDependencyRelations` returns has the `fileName` of
an item of the report, and every element of every `usedIn` list is the `fileName` of an
item of the report: an identifier that only occurs inside a `dependencies` list gets no record and no
entry in the reverse index. -/
theorem records_name_items (reportJson : Report) (enhanced : List DependencyRecord)
    (h : simulateDependencyRelations reportJson = some enhanced) :
    ∀ X ∈ enhanced,
      (∃ d ∈ reportJson.dependencies.getD [], d.fileName = X.fileName) ∧
      ∀ y ∈ X.usedIn, ∃ d ∈ reportJson.dependencies.getD [], d.fileName = y := by
  intro X hX
  have heq := simulate_eq reportJson enhanced h
  rw [heq] at hX
  obtain ⟨r, hr, rfl⟩ := List.mem_map.mp hX
  constructor
  · obtain ⟨d, hd, rfl⟩ := mem_buildMap_values _ r hr
    exact ⟨d, hd, rfl⟩
  · intro y hy
    obtain ⟨node, hn, hf, _⟩ := (mem_usedInFrom _ _ _).mp hy
    obtain ⟨d, hd, rfl⟩ := mem_buildMap_values _ node hn
    exact ⟨d, hd, hf⟩

/-- The same on a report in which `a.jar` depends on `b.jar` and on `missing.jar`, which
names no item: the records are `a.jar` and `b.jar`, and no record is named `missing.jar`. -/
theorem records_name_items_witness :
    simulateDependencyRelations danglingReport = some danglingEnhanced ∧
    (∀ X ∈ danglingEnhanced, X.fileName ≠ "missing.jar") ∧
    ∀ X ∈ danglingEnhanced,
      (∃ d ∈ danglingReport.dependencies.getD [], d.fileName = X.fileName) ∧
      ∀ y ∈ X.usedIn, ∃ d ∈ danglingReport.dependencies.getD [], d.fileName = y :=
  ⟨by decide, by decide, records_name_items danglingReport danglingEnhanced (by decide)⟩

/-- C18 (code defect): for the report with the two items `__proto__` and `a`, whose fileNames
are distinct, ingestion returns, and no record it returns is named `__proto__`: the item
`__proto__` has no ingested record. -/
theorem simulateDependencyRelations_no_proto_record :
    ((protoReport.dependencies.getD []).map ReportItem.fileName).Nodup ∧
    ∃ enhanced, simulateDependencyRelations protoReport = some enhanced ∧
      ∀ X ∈ enhanced, X.fileName ≠ "__proto__" :=
  ⟨by decide, (simulateDependencyRelations protoReport).getD [], by decide, by decide⟩

/-- The record of an item: when the fileNames of the report are pairwise distinct and none
is `__proto__`, every item has a record among those returned, with the item's
dependencies and vulnerabilities (empty when absent), the type `direct` and the depth 1. -/
theorem record_of_item (reportJson : Report) (enhanced : List DependencyRecord)
    (h : simulateDependencyRelations reportJson = some enhanced)
    (hnd : ((reportJson.dependencies.getD []).map ReportItem.fileName).Nodup)
    (hproto : "__proto__" ∉ (reportJson.dependencies.getD []).map ReportItem.fileName)
    (d : ReportItem) (hd : d ∈ reportJson.dependencies.getD []) :
    ∃ X ∈ enhanced, X.fileName = d.fileName ∧
      X.dependencies = d.dependencies.getD [] ∧
      X.vulnerabilities = d.vulnerabilities.getD [] ∧
      X.dependencyType = "direct" ∧ X.transitiveDepth = 1 ∧
      ∀ Y ∈ enhanced, Y.fileName = d.fileName → Y = X := by
  have heq := simulate_eq reportJson enhanced h
  have hmem := newRecord_mem_values _ hnd hproto d hd
  have hnodup := simulate_fileNames_nodup reportJson enhanced h
  have hX : (fun r : DependencyRecord =>
      { r with usedIn := usedInFrom (buildMap (reportJson.dependencies.getD [])).values
                 r.fileName }) (newRecord d) ∈ enhanced := by
    rw [heq]
    exact List.mem_map_of_mem _ hmem
  refine ⟨_, hX, rfl, rfl, rfl, rfl, rfl, ?_⟩
  intro Y hY hf
  exact eq_of_fileName_eq enhanced hnodup Y _ hY hX hf

/-- C19: the records `simulateDependencyRelations` returns have pairwise distinct
fileNames, for every report, one that repeats a fileName included. -/
theorem ingested_fileNames_distinct (reportJson : Report) (enhanced : List DependencyRecord)
    (h : simulateDependencyRelations reportJson = some enhanced) :
    (enhanced.map DependencyRecord.fileName).Nodup ∧
    ∀ X ∈ enhanced, ∀ Y ∈ enhanced, X.fileName = Y.fileName → X = Y := by
  have hnd := simulate_fileNames_nodup reportJson enhanced h
  exact ⟨hnd, fun X hX Y hY hf => eq_of_fileName_eq enhanced hnd X Y hX hY hf⟩

/-- C19, on the report that lists `a.jar` twice: one record for `a.jar`, the one of the
second item. -/
theorem ingested_fileNames_distinct_witness :
    ¬ ((repeatedReport.dependencies.getD []).map ReportItem.fileName).Nodup ∧
    simulateDependencyRelations repeatedReport = some repeatedEnhanced ∧
    (repeatedEnhanced.map DependencyRecord.fileName).Nodup ∧
    ∀ X ∈ repeatedEnhanced, ∀ Y ∈ repeatedEnhanced, X.fileName = Y.fileName → X = Y :=
  ⟨by decide, by decide,
    ingested_fileNames_distinct repeatedReport repeatedEnhanced (by decide)⟩

/-- C20: every entry of the impact list the impact operation returns for the identifier `v`
is built from a record `D` of the ingested mapping that lists `v` among its dependencies
and has no vulnerability: its source is `v`, its target `D.fileName`, its impact level
`High`, its depth, type and `usedIn` those of `D`, and its recommendation the sentence
`After upgrading v, verify integration with D.fileName`. -/
theorem impact_entry_fields (reportJson : Report) (v : String)
    (enhanced : List DependencyRecord) (sims : List Simulation) (impact : List ImpactEntry)
    (h : simulateDependencyRelations reportJson = some enhanced)
    (hok : impactAnalysis (some reportJson) v = .ok sims impact) :
    ∀ e ∈ impact, ∃ D ∈ enhanced,
      (v ∈ D.dependencies ∧ D.vulnerabilities = []) ∧
      e.source = v ∧ e.target = D.fileName ∧ e.impactLevel = "High" ∧
      e.transitiveDepth = D.transitiveDepth ∧ e.dependencyType = D.dependencyType ∧
      e.usedIn = D.usedIn ∧
      e.recommendation = "After upgrading " ++ v ++ ", verify integration with " ++ D.fileName := by
  have himp : impact = computeImpact enhanced v := by
    simp only [impactAnalysis, h] at hok
    cases hf : enhanced.find? (fun d => d.fileName == v) with
    | none => simp [hf] at hok
    | some src =>
      simp only [hf, ImpactResponse.ok.injEq] at hok
      exact hok.2.symm
  intro e he
  rw [himp] at he
  obtain ⟨D, hD, hc, rfl⟩ := (mem_computeImpact enhanced v e).mp he
  exact ⟨D, hD, hc, rfl, rfl, rfl, rfl, rfl, rfl, rfl⟩

/-- C20, on the example report and the identifier `A`: the one entry, for the record `B`. -/
theorem impact_entry_fields_witness :
    simulateDependencyRelations exampleReport = some exampleEnhanced ∧
    impactAnalysis (some exampleReport) "A" =
      .ok (buildSimulations (exampleEnhanced.headD exampleLib) "A")
        (computeImpact exampleEnhanced "A") ∧
    computeImpact exampleEnhanced "A" =
      [{ source := "A", target := "B", impactLevel := "High", transitiveDepth := 1,
         dependencyType := "direct", usedIn := [],
         recommendation := "After upgrading A, verify integration with B" }] ∧
    ∀ e ∈ computeImpact exampleEnhanced "A", ∃ D ∈ exampleEnhanced,
      ("A" ∈ D.dependencies ∧ D.vulnerabilities = []) ∧
      e.source = "A" ∧ e.target = D.fileName ∧ e.impactLevel = "High" ∧
      e.transitiveDepth = D.transitiveDepth ∧ e.dependencyType = D.dependencyType ∧
      e.usedIn = D.usedIn ∧
      e.recommendation = "After upgrading " ++ "A" ++ ", verify integration with " ++
        D.fileName :=
  ⟨by decide, by decide, by decide,
    impact_entry_fields exampleReport "A" exampleEnhanced
      (buildSimulations (exampleEnhanced.headD exampleLib) "A")
      (computeImpact exampleEnhanced "A") (by decide) (by decide)⟩

/-! ## The impact operation: single hop, agreement with the reverse index, clean records -/

theorem impactAnalysis_of_mem (reportJson : Report) (enhanced : List DependencyRecord)
    (h : simulateDependencyRelations reportJson = some enhanced) (src : DependencyRecord)
    (hsrc : src ∈ enhanced) :
    impactAnalysis (some reportJson) src.fileName =
      .ok (buildSimulations src src.fileName) (computeImpact enhanced src.fileName) := by
  have hnd := simulate_fileNames_nodup reportJson enhanced h
  cases hf : enhanced.find? (fun d => d.fileName == src.fileName) with
  | none =>
    have := List.find?_eq_none.mp hf src hsrc
    simp at this
  | some s =>
    have hs : s ∈ enhanced := List.mem_of_find?_eq_some hf
    have hn : s.fileName = src.fileName := by simpa using List.find?_some hf
    have : s = src := eq_of_fileName_eq enhanced hnd s src hs hsrc hn
    subst this
    simp only [impactAnalysis, h, hf]

theorem impactAnalysis_ok_imp (reportJson : Report) (v : String)
    (enhanced : List DependencyRecord) (sims : List Simulation) (impact : List ImpactEntry)
    (h : simulateDependencyRelations reportJson = some enhanced)
    (hok : impactAnalysis (some reportJson) v = .ok sims impact) :
    impact = computeImpact enhanced v := by
  simp only [impactAnalysis, h] at hok
  cases hf : enhanced.find? (fun d => d.fileName == v) with
  | none => simp [hf] at hok
  | some src =>
    simp only [hf, ImpactResponse.ok.injEq] at hok
    exact hok.2.symm

/-- C21: the impact operation is single-hop.  Whenever the operation answers with an impact
list for the identifier `v`, a record that does not list `v` in its own `dependencies` is
the target of no entry, whatever it depends on otherwise. -/
theorem impact_single_hop (reportJson : Report) (v : String)
    (enhanced : List DependencyRecord) (sims : List Simulation) (impact : List ImpactEntry)
    (h : simulateDependencyRelations reportJson = some enhanced)
    (hok : impactAnalysis (some reportJson) v = .ok sims impact) :
    ∀ D ∈ enhanced, v ∉ D.dependencies → ∀ e ∈ impact, e.target ≠ D.fileName := by
  intro D hD hv e he heq
  rw [impactAnalysis_ok_imp reportJson v enhanced sims impact h hok] at he
  obtain ⟨D2, hD2, hc, rfl⟩ := (mem_computeImpact enhanced v e).mp he
  have hnd := simulate_fileNames_nodup reportJson enhanced h
  have : D2 = D := eq_of_fileName_eq enhanced hnd D2 D hD2 hD heq
  subst this
  exact hv hc.1

/-- C21, on the chain `C` depends on `B`, `B` depends on `A`: the impact list for `A` holds
the entry for `B` only, and the clean record `C`, which depends on `B`, is no target. -/
theorem impact_single_hop_witness :
    simulateDependencyRelations chainReport = some chainEnhanced ∧
    impactAnalysis (some chainReport) "A" =
      .ok (buildSimulations chainA "A") (computeImpact chainEnhanced "A") ∧
    (computeImpact chainEnhanced "A").map ImpactEntry.target = ["B"] ∧
    ∀ D ∈ chainEnhanced, "A" ∉ D.dependencies →
      ∀ e ∈ computeImpact chainEnhanced "A", e.target ≠ D.fileName :=
  ⟨by decide, by decide, by decide,
    impact_single_hop chainReport "A" chainEnhanced (buildSimulations chainA "A")
      (computeImpact chainEnhanced "A") (by decide) (by decide)⟩

/-- C27: the impact list and the reverse index agree.  For every identifier `v` that has a
record `V` among the returned records, the operation answers with an impact list, and an
identifier `y` is the target of one of its entries exactly when `y` is an element of
`V.usedIn` and the record named `y` has no vulnerabilities. -/
theorem impact_targets_eq_clean_usedIn (reportJson : Report)
    (enhanced : List DependencyRecord)
    (h : simulateDependencyRelations reportJson = some enhanced)
    (V : DependencyRecord) (hV : V ∈ enhanced) :
    ∃ sims impact, impactAnalysis (some reportJson) V.fileName = .ok sims impact ∧
      ∀ y, (∃ e ∈ impact, e.target = y) ↔
        (y ∈ V.usedIn ∧ ∃ Y ∈ enhanced, Y.fileName = y ∧ Y.vulnerabilities = []) := by
  refine ⟨_, _, impactAnalysis_of_mem reportJson enhanced h V hV, ?_⟩
  have hnd := simulate_fileNames_nodup reportJson enhanced h
  intro y
  constructor
  · rintro ⟨e, he, rfl⟩
    obtain ⟨D, hD, hc, rfl⟩ := (mem_computeImpact enhanced V.fileName e).mp he
    exact ⟨(usedIn_iff_of_returned reportJson enhanced h V hV _).mpr ⟨D, hD, rfl, hc.1⟩,
      D, hD, rfl, hc.2⟩
  · rintro ⟨hy, Y, hY, hYn, hYv⟩
    obtain ⟨Y2, hY2, hn2, hd2⟩ := (usedIn_iff_of_returned reportJson enhanced h V hV y).mp hy
    have : Y2 = Y := eq_of_fileName_eq enhanced hnd Y2 Y hY2 hY (hn2.trans hYn.symm)
    subst this
    exact ⟨_, (mem_computeImpact enhanced V.fileName _).mpr ⟨Y2, hY, ⟨hd2, hYv⟩, rfl⟩, hYn⟩

/-- C27, on the example report and the record `A`, whose `usedIn` is `[B, C]`: `B` is
clean and is the one target, `C` is vulnerable and is none. -/
theorem impact_targets_eq_clean_usedIn_witness :
    simulateDependencyRelations exampleReport = some exampleEnhanced ∧
    (exampleEnhanced.headD exampleLib).usedIn = ["B", "C"] ∧
    ∃ sims impact,
      impactAnalysis (some exampleReport) (exampleEnhanced.headD exampleLib).fileName =
        .ok sims impact ∧
      ∀ y, (∃ e ∈ impact, e.target = y) ↔
        (y ∈ (exampleEnhanced.headD exampleLib).usedIn ∧
          ∃ Y ∈ exampleEnhanced, Y.fileName = y ∧ Y.vulnerabilities = []) :=
  ⟨by decide, by decide,
    impact_targets_eq_clean_usedIn exampleReport exampleEnhanced (by decide)
      (exampleEnhanced.headD exampleLib) (by decide)⟩

theorem recommendedVersions_empty : recommendedVersions "" = ["latest"] := by decide

/-- C29: for a record without vulnerabilities and any identifier `id`, `buildSimulations`
returns exactly one simulation: its recommended version is `latest`, its severity score 0,
its id `id` followed by `-upgrade-to-latest`.  The impact operation asks for no
vulnerability: for a clean record among the returned records it answers with that one
simulation and an impact list. -/
theorem buildSimulations_clean (node : DependencyRecord) (id : String)
    (h : node.vulnerabilities = []) :
    buildSimulations node id =
      [{ id := id ++ "-upgrade-to-latest"
         description := "Simulate upgrading " ++ id ++ " to latest"
         severityScore := 0
         recommendedVersion := "latest"
         graph := [{ from_ := id, to_ := "latest" }] }] ∧
    ∀ (reportJson : Report) (enhanced : List DependencyRecord),
      simulateDependencyRelations reportJson = some enhanced → node ∈ enhanced →
      ∃ impact, impactAnalysis (some reportJson) node.fileName =
        .ok [{ id := node.fileName ++ "-upgrade-to-latest"
               description := "Simulate upgrading " ++ node.fileName ++ " to latest"
               severityScore := 0
               recommendedVersion := "latest"
               graph := [{ from_ := node.fileName, to_ := "latest" }] }] impact := by
  have hb : ∀ id : String, buildSimulations node id =
      [{ id := id ++ "-upgrade-to-latest"
         description := "Simulate upgrading " ++ id ++ " to latest"
         severityScore := 0
         recommendedVersion := "latest"
         graph := [{ from_ := id, to_ := "latest" }] }] := by
    intro id
    have hd : firstDescription node = "" := by simp [firstDescription, h]
    have e1 : id ++ "-upgrade-to-" ++ "latest" = id ++ "-upgrade-to-latest" := by
      rw [String.append_assoc]; rfl
    have e2 : "Simulate upgrading " ++ id ++ " to " ++ "latest" =
        "Simulate upgrading " ++ id ++ " to latest" := by
      rw [String.append_assoc ("Simulate upgrading " ++ id)]; rfl
    simp only [buildSimulations, hd, recommendedVersions_empty, h, List.map_cons, List.map_nil,
      List.length_nil, e1, e2]
  refine ⟨hb id, ?_⟩
  intro reportJson enhanced hs hn
  refine ⟨computeImpact enhanced node.fileName, ?_⟩
  rw [impactAnalysis_of_mem reportJson enhanced hs node hn, hb]

/-- C29, on the clean record `B` of the chain report. -/
theorem buildSimulations_clean_witness :
    chainB.vulnerabilities = [] ∧ chainB ∈ chainEnhanced ∧
    simulateDependencyRelations chainReport = some chainEnhanced ∧
    buildSimulations chainB "B" =
      [{ id := "B-upgrade-to-latest", description := "Simulate upgrading B to latest",
         severityScore := 0, recommendedVersion := "latest",
         graph := [{ from_ := "B", to_ := "latest" }] }] ∧
    impactAnalysis (some chainReport) "B" =
      .ok [{ id := "B-upgrade-to-latest", description := "Simulate upgrading B to latest",
             severityScore := 0, recommendedVersion := "latest",
             graph := [{ from_ := "B", to_ := "latest" }] }]
        (computeImpact chainEnhanced "B") :=
  ⟨by decide, by decide, by decide, (buildSimulations_clean chainB "B" (by decide)).1,
    by decide⟩

/-- C25: candidate versions are not de-duplicated.  The record `duplicateLib`, whose first
description names the version 5 twice in the explicit phrase, gets two simulations with the
same id; and for every record the number of simulations is the number of candidates. -/
theorem buildSimulations_keeps_duplicates :
    firstDescription duplicateLib = "It is recommended to upgrade to version 5 or 5." ∧
    recommendedVersions (firstDescription duplicateLib) = ["5", "5"] ∧
    buildSimulations duplicateLib "lib-4.jar" =
      [{ id := "lib-4.jar-upgrade-to-5", description := "Simulate upgrading lib-4.jar to 5",
         severityScore := 1, recommendedVersion := "5",
         graph := [{ from_ := "lib-4.jar", to_ := "5" }] },
       { id := "lib-4.jar-upgrade-to-5", description := "Simulate upgrading lib-4.jar to 5",
         severityScore := 1, recommendedVersion := "5",
         graph := [{ from_ := "lib-4.jar", to_ := "5" }] }] ∧
    ∀ (node : DependencyRecord) (id : String),
      (buildSimulations node id).length =
        (recommendedVersions (firstDescription node)).length := by
  refine ⟨by decide, by decide, by decide, ?_⟩
  intro node id
  simp [buildSimulations]

/-! ## The edge parser: totality, and coordinates with too few fields -/

theorem parseArtifact_short (q : List Char) (h : (coordinateFields q).length < 4) :
    parseArtifact q =
      String.mk (showField (coordinateFields q)[1]? ++ "-undefined.jar".toList) := by
  have h3 : (coordinateFields q)[3]? = none := List.getElem?_eq_none (by omega)
  have h3b : (splitChar (Char.ofNat 58) (stripQuotes q))[3]? = none := h3
  simp only [parseArtifact, h3b, showField, coordinateFields, List.append_assoc]
  rfl

/-- C22: the edge parser is total.  For every text the parser returns the list of the edges
of its lines, at most one per line; the search for the quoted substrings of a line ends
within its allotted rounds whatever the line; and the empty text, lines with unbalanced or
empty quotes and coordinates with one or seven colon fields all get an edge list. -/
theorem parseGraph_total (dotOutput : String) :
    parseGraph dotOutput =
      (splitChar (Char.ofNat 10) dotOutput.toList).filterMap parseLine ∧
    (parseGraph dotOutput).length ≤ (splitChar (Char.ofNat 10) dotOutput.toList).length ∧
    (∀ (line : List Char) (fuel : Nat), line.length < fuel →
      quotedRe.matchesAux fuel line = quotedRe.matchesAll line) ∧
    parseGraph "" = [] ∧
    parseGraph "\"x:y\" -> \"\n\"\" -> \"\"\n\"a\" -> \"b:c:d:e:f:g:h\"" =
      [{ from_ := "undefined-undefined.jar", to_ := "c-e.jar" }] := by
  refine ⟨parseGraph_eq_filterMap dotOutput, ?_, ?_, by decide, by decide⟩
  · rw [parseGraph_eq_filterMap]
    exact List.length_filterMap_le _ _
  · intro line fuel h
    exact matchesAux_fuel quotedRe fuel line h

/-- C23 fails as stated: the line `"a" -> "b"` has exactly two quoted substrings, each with
one colon-separated field, and the parser emits an edge for it, from
`undefined-undefined.jar` to `undefined-undefined.jar`. -/
theorem parseLine_short_coordinate_counterexample :
    quotedRe.matchGlobal "\"a\" -> \"b\"".toList = some ["\"a\"".toList, "\"b\"".toList] ∧
    (coordinateFields "\"a\"".toList).length = 1 ∧
    (coordinateFields "\"b\"".toList).length = 1 ∧
    parseLine "\"a\" -> \"b\"".toList =
      some { from_ := "undefined-undefined.jar", to_ := "undefined-undefined.jar" } ∧
    parseGraph "\"a\" -> \"b\"" =
      [{ from_ := "undefined-undefined.jar", to_ := "undefined-undefined.jar" }] := by
  decide

/-- C23, amended: a line with exactly two quoted substrings `q1`, `q2` of which at least
one has fewer than four colon-separated fields is not skipped.  The parser emits the edge
from `parseArtifact q1` to `parseArtifact q2`, and the endpoint of a substring with fewer
than four fields ends in `-undefined.jar`: its missing version is written as the text
`undefined`. -/
theorem parseLine_short_coordinate (line q1 q2 : List Char)
    (hq : quotedRe.matchGlobal line = some [q1, q2])
    (hshort : (coordinateFields q1).length < 4 ∨ (coordinateFields q2).length < 4) :
    ∃ e, parseLine line = some e ∧ e.from_ = parseArtifact q1 ∧ e.to_ = parseArtifact q2 ∧
      ((coordinateFields q1).length < 4 →
        e.from_ = String.mk (showField (coordinateFields q1)[1]? ++ "-undefined.jar".toList)) ∧
      ((coordinateFields q2).length < 4 →
        e.to_ = String.mk (showField (coordinateFields q2)[1]? ++ "-undefined.jar".toList)) ∧
      (e.from_ = String.mk (showField (coordinateFields q1)[1]? ++ "-undefined.jar".toList) ∨
        e.to_ = String.mk (showField (coordinateFields q2)[1]? ++ "-undefined.jar".toList)) := by
  refine ⟨{ from_ := parseArtifact q1, to_ := parseArtifact q2 }, ?_, rfl, rfl, ?_, ?_, ?_⟩
  · unfold parseLine
    rw [hq]
  · exact parseArtifact_short q1
  · exact parseArtifact_short q2
  · rcases hshort with h | h
    · exact Or.inl (parseArtifact_short q1 h)
    · exact Or.inr (parseArtifact_short q2 h)

/-- C23, amended, on the line `"g:a1" -> "g:a2:jar:2.0.0"`, whose first coordinate has two
fields: the edge goes from `a1-undefined.jar` to `a2-2.0.0.jar`. -/
theorem parseLine_short_coordinate_witness :
    parseLine "\"g:a1\" -> \"g:a2:jar:2.0.0\"".toList =
      some { from_ := "a1-undefined.jar", to_ := "a2-2.0.0.jar" } ∧
    ∃ e, parseLine "\"g:a1\" -> \"g:a2:jar:2.0.0\"".toList = some e ∧
      e.from_ = parseArtifact "\"g:a1\"".toList ∧
      e.to_ = parseArtifact "\"g:a2:jar:2.0.0\"".toList ∧
      ((coordinateFields "\"g:a1\"".toList).length < 4 →
        e.from_ = String.mk (showField (coordinateFields "\"g:a1\"".toList)[1]? ++
          "-undefined.jar".toList)) ∧
      ((coordinateFields "\"g:a2:jar:2.0.0\"".toList).length < 4 →
        e.to_ = String.mk (showField (coordinateFields "\"g:a2:jar:2.0.0\"".toList)[1]? ++
          "-undefined.jar".toList)) ∧
      (e.from_ = String.mk (showField (coordinateFields "\"g:a1\"".toList)[1]? ++
          "-undefined.jar".toList) ∨
        e.to_ = String.mk (showField (coordinateFields "\"g:a2:jar:2.0.0\"".toList)[1]? ++
          "-undefined.jar".toList)) :=
  ⟨by decide,
    parseLine_short_coordinate "\"g:a1\" -> \"g:a2:jar:2.0.0\"".toList "\"g:a1\"".toList
      "\"g:a2:jar:2.0.0\"".toList (by decide) (Or.inl (by decide))⟩

/-! ## The explicit stage: the capture, the replacement, the split and the trim -/

theorem run_groupFree {α : Type} (R : Regex) :
    ∀ (v : List Char) (cp : Option (List Char))
      (K : List Char → Option (List Char) → Option α) (z : α),
      R.groupFree = true → R.run v cp K = some z → ∃ x, x <:+ v ∧ K x cp = some z := by
  induction R with
  | empty =>
    intro v cp K z _ hz
    exact ⟨v, List.suffix_refl _, hz⟩
  | chr p =>
    intro v cp K z _ hz
    cases v with
    | nil => simp [Regex.run] at hz
    | cons c t =>
      by_cases hp : p c = true
      · simp only [Regex.run, hp, if_true] at hz
        exact ⟨t, List.suffix_cons c t, hz⟩
      · simp [Regex.run, hp] at hz
  | seq a b iha ihb =>
    intro v cp K z hg hz
    simp only [Regex.groupFree, Bool.and_eq_true] at hg
    simp only [Regex.run] at hz
    obtain ⟨x, hx, hk⟩ := iha v cp _ z hg.1 hz
    obtain ⟨y, hy, hk2⟩ := ihb x cp K z hg.2 hk
    exact ⟨y, hy.trans hx, hk2⟩
  | alt a b iha ihb =>
    intro v cp K z hg hz
    simp only [Regex.groupFree, Bool.and_eq_true] at hg
    simp only [Regex.run] at hz
    cases ha : a.run v cp K with
    | some w =>
      rw [ha] at hz
      simp only [Option.some.injEq] at hz
      subst hz
      exact iha v cp K _ hg.1 ha
    | none =>
      rw [ha] at hz
      exact ihb v cp K z hg.2 hz
  | opt a iha =>
    intro v cp K z hg hz
    simp only [Regex.groupFree] at hg
    simp only [Regex.run] at hz
    cases ha : a.run v cp K with
    | some w =>
      rw [ha] at hz
      simp only [Option.some.injEq] at hz
      subst hz
      exact iha v cp K _ hg ha
    | none =>
      rw [ha] at hz
      exact ⟨v, List.suffix_refl _, hz⟩
  | star p =>
    intro v cp K z _ hz
    simp only [Regex.run] at hz
    obtain ⟨x, hx, hk⟩ := starGreedy_some_imp p _ v z hz
    exact ⟨x, hx, hk⟩
  | plus p =>
    intro v cp K z _ hz
    cases v with
    | nil => simp [Regex.run] at hz
    | cons c t =>
      by_cases hp : p c = true
      · simp only [Regex.run, hp, if_true] at hz
        obtain ⟨x, hx, hk⟩ := starGreedy_some_imp p _ t z hz
        exact ⟨x, hx.trans (List.suffix_cons c t), hk⟩
      · simp [Regex.run, hp] at hz
  | plusLazy p =>
    intro v cp K z _ hz
    cases v with
    | nil => simp [Regex.run] at hz
    | cons c t =>
      by_cases hp : p c = true
      · simp only [Regex.run, hp, if_true] at hz
        obtain ⟨x, hx, hk⟩ := starLazy_some_imp p _ t z hz
        exact ⟨x, hx.trans (List.suffix_cons c t), hk⟩
      · simp [Regex.run, hp] at hz
  | group a _ =>
    intro v cp K z hg _
    simp [Regex.groupFree] at hg
  | eos =>
    intro v cp K z _ hz
    cases v with
    | nil => exact ⟨[], List.suffix_refl _, by simpa [Regex.run] using hz⟩
    | cons c t => simp [Regex.run] at hz

theorem lit_run_some_imp {α : Type} (f : Char → Char → Bool) (cs : List Char) (r : Regex) :
    ∀ (v : List Char) (cp : Option (List Char))
      (K : List Char → Option (List Char) → Option α) (z : α),
      (Regex.lit f cs r).run v cp K = some z → ∃ x, x <:+ v ∧ r.run x cp K = some z := by
  induction cs with
  | nil =>
    intro v cp K z hz
    exact ⟨v, List.suffix_refl _, hz⟩
  | cons c cs ih =>
    intro v cp K z hz
    simp only [Regex.lit, Regex.run] at hz
    cases v with
    | nil => simp at hz
    | cons d t =>
      by_cases hp : f c d = true
      · simp only [hp, if_true] at hz
        obtain ⟨x, hx, hk⟩ := ih t cp K z hz
        exact ⟨x, hx.trans (List.suffix_cons d t), hk⟩
      · simp [hp] at hz

theorem lit_groupFree (f : Char → Char → Bool) (cs : List Char) (r : Regex)
    (h : r.groupFree = true) : (Regex.lit f cs r).groupFree = true := by
  induction cs with
  | nil => exact h
  | cons c cs ih => simp [Regex.lit, Regex.groupFree, ih]

/-- A lazy repetition stops at the first position at which the continuation succeeds. -/
theorem starLazy_some_min {α : Type} (p : Char → Bool) (k : List Char → Option α)
    (t : List Char) (z : α) (h : starLazy p k t = some z) :
    ∃ pre rest, t = pre ++ rest ∧ k rest = some z ∧
      ∀ pre1 d pre2, pre = pre1 ++ d :: pre2 → k (d :: pre2 ++ rest) = none := by
  induction t with
  | nil =>
    refine ⟨[], [], rfl, by simpa [starLazy] using h, ?_⟩
    intro pre1 d pre2 he
    simp at he
  | cons c t ih =>
    simp only [starLazy] at h
    cases hs : k (c :: t) with
    | some w =>
      rw [hs] at h
      simp only [Option.some.injEq] at h
      subst h
      refine ⟨[], c :: t, rfl, hs, ?_⟩
      intro pre1 d pre2 he
      simp at he
    | none =>
      rw [hs] at h
      by_cases hp : p c = true
      · simp only [hp, if_true] at h
        obtain ⟨pre, rest, ht, hk, hmin⟩ := ih h
        refine ⟨c :: pre, rest, by rw [ht]; rfl, hk, ?_⟩
        intro pre1 d pre2 he
        cases pre1 with
        | nil =>
          simp only [List.nil_append, List.cons.injEq] at he
          obtain ⟨rfl, rfl⟩ := he
          rw [ht] at hs
          exact hs
        | cons e pre1 =>
          simp only [List.cons_append, List.cons.injEq] at he
          exact hmin pre1 d pre2 he.2
      · simp [hp] at h

theorem seq_run_some_imp {α : Type} (a b : Regex) (v : List Char) (cp : Option (List Char))
    (K : List Char → Option (List Char) → Option α) (z : α)
    (h : (Regex.seq a b).run v cp K = some z) :
    ∃ x c, x <:+ v ∧ b.run x c K = some z := by
  simp only [Regex.run] at h
  exact run_some_imp a v cp _ z h

/-- The lazy group `(c+?)` followed by `A`: the capture is the shortest run after which `A`
and the continuation succeed. -/
theorem group_lazy_run {α : Type} (p : Char → Bool) (A : Regex) (v : List Char)
    (cp : Option (List Char)) (K : List Char → Option (List Char) → Option α) (z : α)
    (h : (Regex.seq (.group (.plusLazy p)) A).run v cp K = some z) :
    ∃ c0 pre rest, v = c0 :: pre ++ rest ∧ A.run rest (some (c0 :: pre)) K = some z ∧
      ∀ pre1 d pre2, pre = pre1 ++ d :: pre2 →
        A.run (d :: pre2 ++ rest) (some (c0 :: pre1)) K = none := by
  simp only [Regex.run] at h
  cases v with
  | nil => simp at h
  | cons c t =>
    by_cases hp : p c = true
    · simp only [hp, if_true] at h
      obtain ⟨pre, rest, ht, hk, hmin⟩ := starLazy_some_min p _ t z h
      have e1 : (c :: t).take ((c :: t).length - rest.length) = c :: pre :=
        take_eq_of_append (c :: pre) rest _ _ (by rw [ht]; rfl)
          (by rw [ht]; simp; omega)
      rw [e1] at hk
      refine ⟨c, pre, rest, by rw [ht]; rfl, hk, ?_⟩
      intro pre1 d pre2 he
      have := hmin pre1 d pre2 he
      have e2 : (c :: t).take ((c :: t).length - (d :: pre2 ++ rest).length) = c :: pre1 :=
        take_eq_of_append (c :: pre1) (d :: pre2 ++ rest) _ _
          (by rw [ht, he]; simp) (by rw [ht, he]; simp; omega)
      rw [e2] at this
      exact this
    · simp [hp] at h

/-- The end `(?:, which|\.|$)` of the explicit pattern succeeds at every period. -/
theorem explicit_end_at_period {α : Type} (L : Regex) (y : List Char)
    (cp : Option (List Char)) (K : List Char → Option (List Char) → Option α)
    (hK : ∀ s c, K s c ≠ none) :
    (Regex.alt L (.alt (.chr (exactChar (Char.ofNat 46))) .eos)).run
      (Char.ofNat 46 :: y) cp K ≠ none := by
  simp only [Regex.run]
  have he : exactChar (Char.ofNat 46) (Char.ofNat 46) = true := by decide
  simp only [he, if_true]
  cases hL : L.run (Char.ofNat 46 :: y) cp K with
  | some r => simp
  | none =>
    cases hk : K y cp with
    | some r => simp
    | none => exact absurd hk (hK y cp)

theorem explicitRe_matchAt_cap (s : List Char) (m : Match)
    (h : explicitRe.matchAt s = some m) :
    ∃ c0 rest, m.cap = some (c0 :: rest) ∧ Char.ofNat 46 ∉ rest := by
  unfold Regex.matchAt explicitRe at h
  obtain ⟨x1, _, h1⟩ := lit_run_some_imp _ _ _ _ _ _ _ h
  obtain ⟨x2, c2, _, h2⟩ := seq_run_some_imp _ _ _ _ _ _ h1
  obtain ⟨x3, _, h3⟩ := lit_run_some_imp _ _ _ _ _ _ _ h2
  obtain ⟨x4, c4, _, h4⟩ := seq_run_some_imp _ _ _ _ _ _ h3
  obtain ⟨c0, pre, rest, hx, hA, hmin⟩ := group_lazy_run _ _ _ _ _ _ h4
  have hgf : (Regex.alt (Regex.lit ciChar ", which".toList .empty)
      (.alt (.chr (exactChar (Char.ofNat 46))) .eos)).groupFree = true := by
    simp [Regex.groupFree, lit_groupFree]
  obtain ⟨x, _, hk⟩ := run_groupFree _ _ _ _ _ hgf hA
  simp only [Option.some.injEq] at hk
  refine ⟨c0, pre, by rw [← hk], ?_⟩
  intro hmem
  obtain ⟨pre1, pre2, he⟩ := List.append_of_mem hmem
  exact explicit_end_at_period _ _ _ _ (fun _ _ => by simp) (hmin pre1 _ pre2 he)

theorem explicitRe_exec_cap (s : List Char) (m : Match) (h : explicitRe.exec s = some m) :
    ∃ c0 rest, m.cap = some (c0 :: rest) ∧ Char.ofNat 46 ∉ rest := by
  obtain ⟨suf, m0, _, hm0, _, _, hc, _⟩ := exec_eq_some_imp explicitRe s m h
  rw [hc]
  exact explicitRe_matchAt_cap suf m0 hm0

/-! ### The replacement of `or` by a comma -/

theorem replaceAux_not_mem (r : Regex) (rep : List Char) (x : Char) (hrep : x ∉ rep)
    (fuel : Nat) : ∀ s : List Char, x ∉ s → x ∉ r.replaceAux rep fuel s := by
  induction fuel with
  | zero =>
    intro s hs
    simpa [Regex.replaceAux] using hs
  | succ n ih =>
    intro s hs
    simp only [Regex.replaceAux]
    cases he : r.exec s with
    | none => exact hs
    | some m =>
      have hdec := exec_decompose r s m he
      rw [hdec] at hs
      simp only [List.mem_append, not_or] at hs
      obtain ⟨⟨hb, _⟩, ha⟩ := hs
      simp only [List.mem_append, not_or]
      refine ⟨⟨hb, hrep⟩, ?_⟩
      by_cases hemp : m.text.isEmpty = true
      · simp only [hemp, if_true]
        cases hafter : m.after with
        | nil => simp
        | cons c t =>
          rw [hafter] at ha
          simp only [List.mem_cons, not_or] at ha ⊢
          exact ⟨ha.1, ih t ha.2⟩
      · simp only [hemp]
        exact ih m.after ha

theorem replaceAux_cons_of_matchAt_none (r : Regex) (rep : List Char) (fuel : Nat)
    (c : Char) (t : List Char) (h : r.matchAt (c :: t) = none) :
    r.replaceAux rep (fuel + 1) (c :: t) = c :: r.replaceAux rep (fuel + 1) t := by
  simp only [Regex.replaceAux, Regex.exec, h]
  cases he : r.exec t with
  | none => rfl
  | some m => simp

theorem orRe_matchAt_head (s : List Char) (m : Match) (h : orRe.matchAt s = some m) :
    ∃ c t, s = c :: t ∧ isJsSpace c = true := by
  unfold Regex.matchAt orRe at h
  simp only [Regex.run] at h
  cases s with
  | nil => simp at h
  | cons c t =>
    by_cases hc : isJsSpace c = true
    · exact ⟨c, t, rfl, hc⟩
    · simp [hc] at h

theorem isJsSpace_ne_period (c : Char) (h : isJsSpace c = true) : c ≠ Char.ofNat 46 := by
  rintro rfl
  revert h
  decide

theorem isJsSpace_ne_comma (c : Char) (h : isJsSpace c = true) : c ≠ Char.ofNat 44 := by
  rintro rfl
  revert h
  decide

/-- The replacement keeps a text free of periods after its first character so. -/
theorem orRe_replaceAux_tail (fuel : Nat) (s : List Char) (hs : Char.ofNat 46 ∉ s.tail) :
    Char.ofNat 46 ∉ (orRe.replaceAux ", ".toList fuel s).tail := by
  have hrep : Char.ofNat 46 ∉ ", ".toList := by decide
  cases fuel with
  | zero => simpa [Regex.replaceAux] using hs
  | succ n =>
    cases s with
    | nil =>
      have : orRe.exec [] = none := rfl
      simp [Regex.replaceAux, this]
    | cons c t =>
      simp only [List.tail_cons] at hs
      cases hm : orRe.matchAt (c :: t) with
      | none =>
        rw [replaceAux_cons_of_matchAt_none orRe _ n c t hm]
        simp only [List.tail_cons]
        exact replaceAux_not_mem orRe _ _ hrep _ t hs
      | some m =>
        obtain ⟨c1, t1, he, hsp⟩ := orRe_matchAt_head _ m hm
        simp only [List.cons.injEq] at he
        obtain ⟨rfl, rfl⟩ := he
        have hall : Char.ofNat 46 ∉ c :: t := by
          simp only [List.mem_cons, not_or]
          exact ⟨fun e => isJsSpace_ne_period c hsp e.symm, hs⟩
        exact fun hmem => replaceAux_not_mem orRe _ _ hrep _ (c :: t) hall
          (List.mem_of_mem_tail hmem)

/-! ### The split at the commas -/

theorem splitAux_not_mem (r : Regex) (x : Char) (fuel : Nat) :
    ∀ acc s : List Char, x ∉ acc → x ∉ s → ∀ p ∈ r.splitAux fuel acc s, x ∉ p := by
  induction fuel with
  | zero =>
    intro acc s ha hs p hp
    simp only [Regex.splitAux, List.mem_singleton] at hp
    subst hp
    simp [ha, hs]
  | succ n ih =>
    intro acc s ha hs p hp
    cases s with
    | nil =>
      simp only [Regex.splitAux, List.mem_singleton] at hp
      subst hp
      exact ha
    | cons c t =>
      simp only [List.mem_cons, not_or] at hs
      have hacc : x ∉ acc ++ [c] := by
        simp only [List.mem_append, List.mem_singleton, not_or]
        exact ⟨ha, hs.1⟩
      simp only [Regex.splitAux] at hp
      cases hm : r.matchAt (c :: t) with
      | none =>
        rw [hm] at hp
        exact ih _ _ hacc hs.2 p hp
      | some m =>
        rw [hm] at hp
        by_cases hcond : (m.text.isEmpty && acc.isEmpty) = true
        · simp only [hcond, if_true] at hp
          exact ih _ _ hacc hs.2 p hp
        · simp only [hcond] at hp
          simp only [Bool.false_eq_true, if_false, List.mem_cons] at hp
          rcases hp with rfl | hp
          · exact ha
          · have hsuf := (matchAt_some_imp r _ m hm).2.1
            have hafter : x ∉ m.after := fun hmem =>
              (by simpa [List.mem_cons, not_or] using hs : x ∉ c :: t) (hsuf.subset hmem)
            exact ih [] m.after (by simp) hafter p hp

/-- The first piece of a split may begin with a period when the text does; no piece holds
one anywhere else. -/
theorem splitAux_period (r : Regex) (fuel : Nat) :
    ∀ acc s : List Char, Char.ofNat 46 ∉ (acc ++ s).tail →
      ∃ p0 ps, r.splitAux fuel acc s = p0 :: ps ∧ Char.ofNat 46 ∉ p0.tail ∧
        ∀ p ∈ ps, Char.ofNat 46 ∉ p := by
  induction fuel with
  | zero =>
    intro acc s h
    exact ⟨acc ++ s, [], rfl, h, by simp⟩
  | succ n ih =>
    intro acc s h
    cases s with
    | nil =>
      refine ⟨acc, [], rfl, by simpa using h, by simp⟩
    | cons c t =>
      have hnext : Char.ofNat 46 ∉ ((acc ++ [c]) ++ t).tail := by
        simpa [List.append_assoc] using h
      simp only [Regex.splitAux]
      cases hm : r.matchAt (c :: t) with
      | none => exact ih _ _ hnext
      | some m =>
        by_cases hcond : (m.text.isEmpty && acc.isEmpty) = true
        · simp only [hcond, if_true]
          exact ih _ _ hnext
        · simp only [hcond, Bool.false_eq_true, if_false]
          have hacc : Char.ofNat 46 ∉ acc.tail := by
            intro hmem
            apply h
            cases acc with
            | nil => simp at hmem
            | cons a acc2 =>
              simp only [List.cons_append, List.tail_cons, List.mem_append] at hmem ⊢
              exact Or.inl hmem
          obtain ⟨_, hsuf, hdec⟩ := matchAt_some_imp r _ m hm
          have hafter : Char.ofNat 46 ∉ m.after := by
            intro hmem
            apply h
            cases acc with
            | nil =>
              have htext : m.text ≠ [] := by
                intro he
                simp [he] at hcond
              cases htx : m.text with
              | nil => exact absurd htx htext
              | cons a tx =>
                rw [htx] at hdec
                simp only [List.cons_append, List.cons.injEq] at hdec
                simp only [List.nil_append, List.tail_cons]
                rw [hdec.2]
                exact List.mem_append_right _ hmem
            | cons a acc2 =>
              simp only [List.cons_append, List.tail_cons, List.mem_append]
              exact Or.inr (hsuf.subset hmem)
          exact ⟨acc, _, rfl, hacc, splitAux_not_mem r _ n [] m.after (by simp) hafter⟩

theorem commaRe_matchAt_comma (t : List Char) :
    (commaRe.matchAt (Char.ofNat 44 :: t)).isSome = true := by
  unfold Regex.matchAt commaRe
  simp only [Regex.run]
  have hns : isJsSpace (Char.ofNat 44) = false := by decide
  have hex : exactChar (Char.ofNat 44) (Char.ofNat 44) = true := by decide
  simp only [starGreedy, hns, hex, if_true, Bool.false_eq_true, if_false]
  exact Option.isSome_iff_exists.mpr ⟨_, starGreedy_of_success isJsSpace _ t _ rfl⟩

theorem commaRe_matchAt_after (s : List Char) (m : Match) (h : commaRe.matchAt s = some m) :
    m.after.length < s.length := by
  unfold Regex.matchAt commaRe at h
  obtain ⟨x, c, hx, h1⟩ := seq_run_some_imp _ _ _ _ _ _ h
  simp only [Regex.run] at h1
  cases x with
  | nil => simp at h1
  | cons d t =>
    by_cases hd : exactChar (Char.ofNat 44) d = true
    · simp only [hd, if_true] at h1
      obtain ⟨y, hy, hk⟩ := starGreedy_some_imp _ _ t m h1
      simp only [Option.some.injEq] at hk
      subst hk
      have h2 := hy.length_le
      have h3 := hx.length_le
      simp only [List.length_cons] at h3
      simp only
      omega
    · simp [hd] at h1

/-- No piece of the split at `/\s*,\s*/` holds a comma. -/
theorem commaRe_splitAux_no_comma (fuel : Nat) :
    ∀ acc s : List Char, s.length < fuel → Char.ofNat 44 ∉ acc →
      ∀ p ∈ commaRe.splitAux fuel acc s, Char.ofNat 44 ∉ p := by
  induction fuel with
  | zero =>
    intro acc s hf
    omega
  | succ n ih =>
    intro acc s hf ha p hp
    cases s with
    | nil =>
      simp only [Regex.splitAux, List.mem_singleton] at hp
      subst hp
      exact ha
    | cons c t =>
      simp only [List.length_cons] at hf
      simp only [Regex.splitAux] at hp
      cases hm : commaRe.matchAt (c :: t) with
      | none =>
        rw [hm] at hp
        have hc : c ≠ Char.ofNat 44 := by
          rintro rfl
          have := commaRe_matchAt_comma t
          rw [hm] at this
          simp at this
        have hacc : Char.ofNat 44 ∉ acc ++ [c] := by
          simp only [List.mem_append, List.mem_singleton, not_or]
          exact ⟨ha, fun e => hc e.symm⟩
        exact ih _ _ (by omega) hacc p hp
      | some m =>
        rw [hm] at hp
        have hlen := commaRe_matchAt_after _ m hm
        simp only [List.length_cons] at hlen
        have hdec := (matchAt_some_imp commaRe _ m hm).2.2
        have htext : m.text.isEmpty = false := by
          cases htx : m.text with
          | nil =>
            rw [htx] at hdec
            simp only [List.nil_append] at hdec
            rw [← hdec] at hlen
            simp at hlen
          | cons a tx => rfl
        simp only [htext, Bool.false_and, Bool.false_eq_true, if_false, List.mem_cons] at hp
        rcases hp with rfl | hp
        · exact ha
        · exact ih [] m.after (by omega) (by simp) p hp

theorem commaRe_split_no_comma (s : List Char) :
    ∀ p ∈ commaRe.split s, Char.ofNat 44 ∉ p := by
  cases s with
  | nil =>
    have : commaRe.split [] = [[]] := by decide
    rw [this]
    simp
  | cons c t =>
    simp only [Regex.split]
    exact commaRe_splitAux_no_comma _ [] (c :: t) (by simp only [List.length_cons]; omega)
      (by simp)

theorem commaRe_split_period (s : List Char) (h : Char.ofNat 46 ∉ s.tail) :
    ∃ p0 ps, commaRe.split s = p0 :: ps ∧ Char.ofNat 46 ∉ p0.tail ∧
      ∀ p ∈ ps, Char.ofNat 46 ∉ p := by
  cases s with
  | nil =>
    have : commaRe.split [] = [[]] := by decide
    rw [this]
    exact ⟨[], [], rfl, by simp, by simp⟩
  | cons c t =>
    simp only [Regex.split]
    exact splitAux_period commaRe _ [] (c :: t) (by simpa using h)

/-! ### The trim -/

theorem jsTrim_eq (s : List Char) :
    jsTrim s = (s.dropWhile isJsSpace).rdropWhile isJsSpace := rfl

theorem jsTrim_not_mem (x : Char) (s : List Char) (h : x ∉ s) : x ∉ jsTrim s := by
  intro hmem
  rw [jsTrim_eq] at hmem
  exact h ((List.dropWhile_sublist isJsSpace).subset
    ((List.rdropWhile_prefix isJsSpace _).subset hmem))

theorem jsTrim_trimmed (s : List Char) : IsTrimmed (jsTrim s) := by
  constructor
  · intro c hc
    obtain ⟨x, hx⟩ : jsTrim s <+: s.dropWhile isJsSpace := by
      rw [jsTrim_eq]
      exact List.rdropWhile_prefix isJsSpace _
    have hnot := List.head?_dropWhile_not isJsSpace s
    cases hj : jsTrim s with
    | nil => simp [hj] at hc
    | cons a r =>
      rw [hj] at hc hx
      simp only [List.head?_cons, Option.some.injEq] at hc
      subst hc
      rw [← hx] at hnot
      simpa using hnot
  · intro c hc
    unfold jsTrim at hc
    rw [List.getLast?_reverse] at hc
    have hnot := List.head?_dropWhile_not isJsSpace (s.dropWhile isJsSpace).reverse
    rw [hc] at hnot
    simpa using hnot

theorem jsTrim_tail_period (s : List Char) (h : Char.ofNat 46 ∉ s.tail) :
    Char.ofNat 46 ∉ (jsTrim s).tail := by
  by_cases hin : Char.ofNat 46 ∈ s
  · cases s with
    | nil => simp at hin
    | cons c t =>
      simp only [List.tail_cons] at h
      simp only [List.mem_cons] at hin
      have hc : c = Char.ofNat 46 := by
        rcases hin with e | e
        · exact e.symm
        · exact absurd e h
      subst hc
      have hd : (Char.ofNat 46 :: t).dropWhile isJsSpace = Char.ofNat 46 :: t :=
        List.dropWhile_cons_of_neg (by decide)
      obtain ⟨x, hx⟩ : jsTrim (Char.ofNat 46 :: t) <+: Char.ofNat 46 :: t := by
        rw [jsTrim_eq, hd]
        exact List.rdropWhile_prefix isJsSpace _
      cases hj : jsTrim (Char.ofNat 46 :: t) with
      | nil => simp
      | cons a r =>
        rw [hj] at hx
        simp only [List.cons_append, List.cons.injEq] at hx
        simp only [List.tail_cons]
        intro hmem
        apply h
        rw [← hx.2]
        exact List.mem_append_left _ hmem
  · exact fun hmem => jsTrim_not_mem _ s hin (List.mem_of_mem_tail hmem)

/-! ### The tokens of the explicit stage -/

/-- C24 fails as stated: on `recommended to upgrade to version 2,,3.` the explicit phrase
matches and the second token is the empty string. -/
theorem extractRecommendedVersions_tokens_counterexample :
    (explicitRe.exec "recommended to upgrade to version 2,,3.".toList).isSome = true ∧
    extractRecommendedVersions "recommended to upgrade to version 2,,3." = ["2", "", "3"] ∧
    extractRecommendedVersions "recommended to upgrade to version  " = [""] := by
  decide

/-- C24, amended: for every description on which the explicit phrase matches,
`extractRecommendedVersions` returns a non-empty list in which every token has no leading
or trailing white space and no comma (a token may be the empty string). -/
theorem extractRecommendedVersions_tokens (desc : String)
    (h : explicitRe.exec desc.toList ≠ none) :
    extractRecommendedVersions desc ≠ [] ∧
    ∀ t ∈ extractRecommendedVersions desc,
      IsTrimmed t.toList ∧ Char.ofNat 44 ∉ t.toList := by
  refine ⟨fun he => h ((extractRecommendedVersions_eq_nil_iff desc).mp he), ?_⟩
  intro t ht
  unfold extractRecommendedVersions at ht
  cases hm : explicitRe.exec desc.toList with
  | none => exact absurd hm h
  | some m =>
    rw [hm] at ht
    simp only [List.mem_map] at ht
    obtain ⟨v, hv, rfl⟩ := ht
    exact ⟨jsTrim_trimmed v, jsTrim_not_mem _ v (commaRe_split_no_comma _ v hv)⟩

/-- C24, amended, on a description with three candidate versions. -/
theorem extractRecommendedVersions_tokens_witness :
    extractRecommendedVersions
      "It is recommended to upgrade to version 2 , 3 or 4, which fixes it" = ["2", "3", "4"] ∧
    extractRecommendedVersions
      "It is recommended to upgrade to version 2 , 3 or 4, which fixes it" ≠ [] ∧
    ∀ t ∈ extractRecommendedVersions
        "It is recommended to upgrade to version 2 , 3 or 4, which fixes it",
      IsTrimmed t.toList ∧ Char.ofNat 44 ∉ t.toList :=
  ⟨by decide,
    extractRecommendedVersions_tokens
      "It is recommended to upgrade to version 2 , 3 or 4, which fixes it"
      (by simp only [ne_eq, ← Option.isSome_iff_ne_none]; decide)⟩

/-- C26: for every description on which the explicit phrase matches, the captured text has
no period after its first character, and so no token holds a period, except that the first
token may begin with one. -/
theorem extractRecommendedVersions_periods (desc : String) (m : Match)
    (h : explicitRe.exec desc.toList = some m) :
    (∃ c0 rest, m.cap = some (c0 :: rest) ∧ Char.ofNat 46 ∉ rest) ∧
    ∃ t0 ts, extractRecommendedVersions desc = t0 :: ts ∧
      Char.ofNat 46 ∉ t0.toList.tail ∧ ∀ t ∈ ts, Char.ofNat 46 ∉ t.toList := by
  obtain ⟨c0, rest, hcap, hrest⟩ := explicitRe_exec_cap _ m h
  refine ⟨⟨c0, rest, hcap, hrest⟩, ?_⟩
  have hrep : Char.ofNat 46 ∉ (orRe.replaceAll ", ".toList (c0 :: rest)).tail :=
    orRe_replaceAux_tail _ _ (by simpa using hrest)
  obtain ⟨p0, ps, hsplit, hp0, hps⟩ := commaRe_split_period _ hrep
  refine ⟨String.mk (jsTrim p0), ps.map (fun v => String.mk (jsTrim v)), ?_, ?_, ?_⟩
  · unfold extractRecommendedVersions
    rw [h]
    simp only [hcap, Option.getD_some, hsplit, List.map_cons]
  · exact jsTrim_tail_period p0 hp0
  · intro t ht
    obtain ⟨v, hv, rfl⟩ := List.mem_map.mp ht
    exact jsTrim_not_mem _ v (hps v hv)

/-- C26, on `recommended to upgrade to version .5 or 6.1`: the capture is `.5 or 6`, which
ends at the first period after its first character, and the tokens are `.5` and `6`. -/
theorem extractRecommendedVersions_periods_witness :
    explicitRe.exec "recommended to upgrade to version .5 or 6.1".toList = some periodMatch ∧
    extractRecommendedVersions "recommended to upgrade to version .5 or 6.1" = [".5", "6"] ∧
    ((∃ c0 rest, periodMatch.cap = some (c0 :: rest) ∧ Char.ofNat 46 ∉ rest) ∧
      ∃ t0 ts,
        extractRecommendedVersions "recommended to upgrade to version .5 or 6.1" = t0 :: ts ∧
        Char.ofNat 46 ∉ t0.toList.tail ∧ ∀ t ∈ ts, Char.ofNat 46 ∉ t.toList) :=
  ⟨rfl, by decide,
    extractRecommendedVersions_periods "recommended to upgrade to version .5 or 6.1"
      periodMatch rfl⟩

/-! ## The fallback stage: the result as a triple -/

theorem digitChar_isDigit : ∀ k, k < 10 →
    isDigit (Nat.digitChar k) = true ∧ (Nat.digitChar k).toNat - 48 = k := by
  decide

theorem decimalValue_append_single (xs : List Char) (d : Char) :
    decimalValue (xs ++ [d]) = decimalValue xs * 10 + (d.toNat - 48) := by
  simp [decimalValue, List.foldl_append]

theorem toDigitsCore_spec (fuel : Nat) : ∀ (n : Nat) (ds : List Char), n < fuel →
    ∃ xs, Nat.toDigitsCore 10 fuel n ds = xs ++ ds ∧ xs ≠ [] ∧
      (∀ c ∈ xs, isDigit c = true) ∧ decimalValue xs = n := by
  induction fuel with
  | zero =>
    intro n ds h
    omega
  | succ f ih =>
    intro n ds h
    have hd := digitChar_isDigit (n % 10) (Nat.mod_lt _ (by decide))
    simp only [Nat.toDigitsCore]
    by_cases h0 : n / 10 = 0
    · simp only [h0, if_true]
      refine ⟨[Nat.digitChar (n % 10)], rfl, by simp, ?_, ?_⟩
      · intro c hc
        simp only [List.mem_singleton] at hc
        rw [hc]
        exact hd.1
      · have := decimalValue_append_single [] (Nat.digitChar (n % 10))
        simp only [List.nil_append] at this
        rw [this, hd.2]
        simp only [decimalValue, List.foldl_nil]
        omega
    · simp only [h0, if_false]
      obtain ⟨xs, he, hne, hall, hval⟩ := ih (n / 10) (Nat.digitChar (n % 10) :: ds) (by omega)
      refine ⟨xs ++ [Nat.digitChar (n % 10)], by rw [he]; simp, by simp, ?_, ?_⟩
      · intro c hc
        simp only [List.mem_append, List.mem_singleton] at hc
        rcases hc with hc | hc
        · exact hall c hc
        · rw [hc]
          exact hd.1
      · rw [decimalValue_append_single, hval, hd.2]
        omega

theorem toDigits_isDigits (n : Nat) : IsDigits (Nat.toDigits 10 n) := by
  obtain ⟨xs, he, hne, hall, _⟩ := toDigitsCore_spec (n + 1) n [] (by omega)
  unfold Nat.toDigits
  rw [he, List.append_nil]
  exact ⟨hne, hall⟩

theorem decimalValue_toDigits (n : Nat) : decimalValue (Nat.toDigits 10 n) = n := by
  obtain ⟨xs, he, _, _, hval⟩ := toDigitsCore_spec (n + 1) n [] (by omega)
  unfold Nat.toDigits
  rw [he, List.append_nil]
  exact hval

/-- The version string of a bump, read back as an integer triple. -/
theorem exactTriple_bumpedVersion (t : Nat × Nat × Nat) :
    exactTriple (bumpedVersion t).toList = (t.1, t.2.1, t.2.2 + 1) := by
  have hs : bumpedVersion t = String.mk (semverText (Nat.toDigits 10 t.1)
      (Nat.toDigits 10 t.2.1) (Nat.toDigits 10 (t.2.2 + 1))) := by
    unfold bumpedVersion semverText
    rw [← string_of_version]
  rw [hs]
  show exactTriple (semverText _ _ _) = _
  rw [exactTriple_semverText _ _ _ (toDigits_isDigits _) (toDigits_isDigits _)
    (toDigits_isDigits _), decimalValue_toDigits, decimalValue_toDigits, decimalValue_toDigits]

theorem tripleLe_antisymm (u t : Nat × Nat × Nat) (h1 : tripleLe u t) (h2 : tripleLe t u) :
    u = t := by
  unfold tripleLe at h1 h2
  obtain ⟨a, b, c⟩ := u
  obtain ⟨x, y, z⟩ := t
  simp only at h1 h2
  have e1 : a = x := by omega
  have e2 : b = y := by omega
  have e3 : c = z := by omega
  subst e1 e2 e3
  rfl

theorem hasSemver_of_matchTriples_ne_nil (desc : String) (h : matchTriples desc ≠ []) :
    HasSemver desc.toList := by
  apply (semverMatches_ne_nil_iff desc).mp
  intro he
  apply h
  simp [matchTriples, he]

/-- C28 fails as stated: the description `1.0.9007199254740993` has the one match triple
`(1, 0, 9007199254740993)`, and the function returns `1.0.9007199254740992`, whose triple is
below the triple of the match: the patch field is not a double and rounds to `2 ^ 53`, and
so does its successor. -/
theorem fallback_strictly_greater_counterexample :
    HasSemver "1.0.9007199254740993".toList ∧
    matchTriples "1.0.9007199254740993" = [(1, 0, 9007199254740993)] ∧
    extractSafeVersionFromDescription "1.0.9007199254740993" = "1.0.9007199254740992" ∧
    exactTriple (extractSafeVersionFromDescription "1.0.9007199254740993").toList =
      (1, 0, 9007199254740992) ∧
    ¬ ∀ u ∈ matchTriples "1.0.9007199254740993",
      tripleLe u (exactTriple (extractSafeVersionFromDescription "1.0.9007199254740993").toList) ∧
      ¬ tripleLe (exactTriple (extractSafeVersionFromDescription "1.0.9007199254740993").toList)
        u := by
  have hm : matchTriples "1.0.9007199254740993" = [(1, 0, 9007199254740993)] := by decide
  have he : extractSafeVersionFromDescription "1.0.9007199254740993" =
      "1.0.9007199254740992" := by decide!
  have ht : exactTriple (extractSafeVersionFromDescription "1.0.9007199254740993").toList =
      (1, 0, 9007199254740992) := by
    rw [he]
    decide
  refine ⟨(semverMatches_ne_nil_iff _).mp (by decide), hm, he, ht, ?_⟩
  intro hall
  have := hall (1, 0, 9007199254740993) (by rw [hm]; exact List.mem_singleton.mpr rfl)
  rw [ht] at this
  exact absurd this.1 (by decide)

/-- C28, amended: for a description that contains a substring digits.digits.digits and in
which every field of every match is below `2 ^ 53`, the version returned by
`extractSafeVersionFromDescription`, read as an integer triple, is strictly greater in the
lexicographic order than the triple of every match; and a description whose match triples
are the same in another order gets the same version. -/
theorem fallback_strictly_greater (desc : String) (h : HasSemver desc.toList)
    (hsafe : ∀ t ∈ matchTriples desc, t.1 < 2 ^ 53 ∧ t.2.1 < 2 ^ 53 ∧ t.2.2 < 2 ^ 53) :
    (∀ u ∈ matchTriples desc,
      tripleLe u (exactTriple (extractSafeVersionFromDescription desc).toList) ∧
      ¬ tripleLe (exactTriple (extractSafeVersionFromDescription desc).toList) u) ∧
    ∀ desc2 : String, (matchTriples desc2).Perm (matchTriples desc) →
      extractSafeVersionFromDescription desc2 = extractSafeVersionFromDescription desc := by
  obtain ⟨t, ht, hmax, hres⟩ := fallback_bumps_max desc h hsafe
  constructor
  · intro u hu
    rw [hres, exactTriple_bumpedVersion]
    have := hmax u hu
    unfold tripleLe at this ⊢
    simp only
    omega
  · intro desc2 hperm
    have hne2 : matchTriples desc2 ≠ [] := by
      intro he
      rw [he] at hperm
      rw [List.nil_perm.mp hperm] at ht
      simp at ht
    have hsafe2 : ∀ t ∈ matchTriples desc2,
        t.1 < 2 ^ 53 ∧ t.2.1 < 2 ^ 53 ∧ t.2.2 < 2 ^ 53 :=
      fun u hu => hsafe u (hperm.subset hu)
    obtain ⟨t2, ht2, hmax2, hres2⟩ :=
      fallback_bumps_max desc2 (hasSemver_of_matchTriples_ne_nil desc2 hne2) hsafe2
    have : t2 = t :=
      tripleLe_antisymm t2 t (hmax t2 (hperm.subset ht2)) (hmax2 t (hperm.symm.subset ht))
    rw [hres, hres2, this]

/-- C28, amended, on a description with three versions and on the same versions in another
order: both get `2.10.1`. -/
theorem fallback_strictly_greater_witness :
    matchTriples "fixed in 2.3.9, not in 2.10.0 or 2.3.10" = [(2, 3, 9), (2, 10, 0), (2, 3, 10)] ∧
    extractSafeVersionFromDescription "fixed in 2.3.9, not in 2.10.0 or 2.3.10" = "2.10.1" ∧
    extractSafeVersionFromDescription "2.10.0 then 2.3.10 then 2.3.9" = "2.10.1" ∧
    ((∀ u ∈ matchTriples "fixed in 2.3.9, not in 2.10.0 or 2.3.10",
      tripleLe u (exactTriple
        (extractSafeVersionFromDescription "fixed in 2.3.9, not in 2.10.0 or 2.3.10").toList) ∧
      ¬ tripleLe (exactTriple
        (extractSafeVersionFromDescription "fixed in 2.3.9, not in 2.10.0 or 2.3.10").toList) u) ∧
    ∀ desc2 : String,
      (matchTriples desc2).Perm (matchTriples "fixed in 2.3.9, not in 2.10.0 or 2.3.10") →
      extractSafeVersionFromDescription desc2 =
        extractSafeVersionFromDescription "fixed in 2.3.9, not in 2.10.0 or 2.3.10") :=
  ⟨by decide, by decide, by decide,
    fallback_strictly_greater "fixed in 2.3.9, not in 2.10.0 or 2.3.10"
      ((semverMatches_ne_nil_iff _).mp (by decide)) (by decide)⟩

/-! ## The impact colouring of `ConnectivityGraph.js` -/

/-! ### Sets as lists -/

theorem mem_setAdd (s : List String) (x y : String) : y ∈ setAdd s x ↔ y ∈ s ∨ y = x := by
  unfold setAdd
  by_cases h : x ∈ s
  · rw [if_pos h]
    constructor
    · exact Or.inl
    · rintro (h1 | rfl)
      · exact h1
      · exact h
  · rw [if_neg h]
    simp

theorem nodup_setAdd (s : List String) (x : String) (h : s.Nodup) : (setAdd s x).Nodup := by
  unfold setAdd
  by_cases hx : x ∈ s
  · rw [if_pos hx]
    exact h
  · rw [if_neg hx]
    exact List.nodup_append.mpr ⟨h, List.nodup_singleton x, by simpa using hx⟩

theorem foldl_setAdd_spec (xs : List String) :
    ∀ s : List String, (∀ y, y ∈ xs.foldl setAdd s ↔ y ∈ s ∨ y ∈ xs) ∧
      (s.Nodup → (xs.foldl setAdd s).Nodup) := by
  induction xs with
  | nil =>
    intro s
    simp
  | cons x xs ih =>
    intro s
    obtain ⟨h1, h2⟩ := ih (setAdd s x)
    refine ⟨?_, fun hs => h2 (nodup_setAdd s x hs)⟩
    intro y
    simp only [List.foldl_cons, h1, mem_setAdd, List.mem_cons]
    tauto

theorem mem_jsSet (xs : List String) (y : String) : y ∈ jsSet xs ↔ y ∈ xs := by
  unfold jsSet
  simp [(foldl_setAdd_spec xs []).1]

theorem nodup_jsSet (xs : List String) : (jsSet xs).Nodup :=
  (foldl_setAdd_spec xs []).2 List.nodup_nil

/-! ### The reverse adjacency -/

theorem mem_predecessors (graph : List Edge) (key y : String) :
    y ∈ predecessors graph key ↔ edgeRel graph y key := by
  unfold predecessors edgeRel
  simp only [List.mem_map, List.mem_filter, beq_iff_eq]
  constructor
  · rintro ⟨e, ⟨he, ht⟩, hf⟩
    exact ⟨e, he, hf, ht⟩
  · rintro ⟨e, he, hf, ht⟩
    exact ⟨e, ⟨he, ht⟩, hf⟩

theorem predecessors_append_single (done : List Edge) (e : Edge) (key : String) :
    predecessors (done ++ [e]) key =
      predecessors done key ++ (if e.to_ = key then [e.from_] else []) := by
  unfold predecessors
  rw [List.filter_append, List.map_append]
  by_cases h : e.to_ = key
  · simp [h]
  · simp [h]

theorem lookup_pushFrom (key name : String) (m : List (String × List String)) (k : String) :
    (pushFrom key name m).lookup k =
      if k = key then (m.lookup key).map (fun xs => xs ++ [name]) else m.lookup k := by
  induction m with
  | nil => simp [pushFrom]
  | cons a rest ih =>
    obtain ⟨k1, xs⟩ := a
    by_cases h1 : k1 = key
    · subst h1
      by_cases hk : k = k1
      · subst hk
        simp [pushFrom, List.lookup_cons]
      · have hb : (k == k1) = false := by simpa using hk
        simp [pushFrom, List.lookup_cons, hk, hb]
    · by_cases hk : k = key
      · subst hk
        have hb : (k == k1) = false := by simpa using fun e => h1 e.symm
        simp only [pushFrom, h1, if_false, List.lookup_cons, hb, ih, if_true]
      · simp only [pushFrom, h1, if_false, List.lookup_cons, ih, hk]

theorem lookup_append_new (m : List (String × List String)) (key : String)
    (v : List String) (k : String) (h : m.lookup key = none) :
    (m ++ [(key, v)]).lookup k = if k = key then some v else m.lookup k := by
  induction m with
  | nil =>
    by_cases hk : k = key
    · simp [hk, List.lookup_cons]
    · have hb : (k == key) = false := by simpa using hk
      simp [hk, List.lookup_cons, hb]
  | cons a rest ih =>
    obtain ⟨k1, xs⟩ := a
    by_cases h1 : key = k1
    · subst h1
      simp [List.lookup_cons] at h
    · have hb : (key == k1) = false := by simpa using h1
      simp only [List.lookup_cons, hb] at h
      have ih2 := ih h
      by_cases hk1 : k = k1
      · subst hk1
        have : ¬ k = key := fun e => h1 e.symm
        simp [List.lookup_cons, this]
      · have hb2 : (k == k1) = false := by simpa using hk1
        simp only [List.cons_append, List.lookup_cons, hb2, ih2]

theorem adjGet_array_iff (m : List (String × List String)) (key : String)
    (froms : List String) : adjGet m key = .array froms ↔ m.lookup key = some froms := by
  unfold adjGet
  cases h : m.lookup key with
  | some xs => simp
  | none =>
    simp only [reduceCtorEq, iff_false]
    split <;> simp

theorem adjGet_undefined_imp (m : List (String × List String)) (key : String)
    (h : adjGet m key = .undefined) : m.lookup key = none ∧ ¬ IsInheritedName key := by
  unfold adjGet at h
  cases hl : m.lookup key with
  | some xs => simp [hl] at h
  | none =>
    rw [hl] at h
    refine ⟨rfl, ?_⟩
    intro hi
    unfold IsInheritedName at hi
    simp only [hi, if_true, reduceCtorEq] at h

theorem adjGet_inherited_imp (m : List (String × List String)) (key : String)
    (h : adjGet m key = .inherited) : IsInheritedName key := by
  unfold adjGet at h
  cases hl : m.lookup key with
  | some xs => simp [hl] at h
  | none =>
    rw [hl] at h
    by_contra hi
    unfold IsInheritedName at hi
    simp only [hi, if_false, reduceCtorEq] at h

theorem buildReverseAdj_lookup (graph : List Edge) :
    ∀ (m : List (String × List String)) (done : List Edge)
      (adj : List (String × List String)),
      (∀ key, m.lookup key =
        if predecessors done key = [] then none else some (predecessors done key)) →
      buildReverseAdj m graph = some adj →
      ∀ key, adj.lookup key =
        if predecessors (done ++ graph) key = [] then none
        else some (predecessors (done ++ graph) key) := by
  induction graph with
  | nil =>
    intro m done adj hm hb key
    simp only [buildReverseAdj, Option.some.injEq] at hb
    subst hb
    simpa using hm key
  | cons e es ih =>
    intro m done adj hm hb key
    simp only [buildReverseAdj] at hb
    cases ha : addReverse m e with
    | none => simp [ha] at hb
    | some m1 =>
      rw [ha] at hb
      have hstep : ∀ k, m1.lookup k =
          if predecessors (done ++ [e]) k = [] then none
          else some (predecessors (done ++ [e]) k) := by
        intro k
        rw [predecessors_append_single]
        unfold addReverse at ha
        cases hg : adjGet m e.to_ with
        | array xs =>
          rw [hg] at ha
          simp only [Option.some.injEq] at ha
          subst ha
          have hl := (adjGet_array_iff m e.to_ xs).mp hg
          rw [lookup_pushFrom]
          by_cases hk : k = e.to_
          · subst hk
            have hmk := hm e.to_
            rw [hl] at hmk
            by_cases hp : predecessors done e.to_ = []
            · simp [hp] at hmk
            · simp only [hp, if_false, Option.some.injEq] at hmk
              simp [hl, hmk]
          · have hk2 : ¬ e.to_ = k := fun h => hk h.symm
            simp [hk, hk2, hm k]
        | inherited =>
          rw [hg] at ha
          simp at ha
        | undefined =>
          rw [hg] at ha
          simp only [Option.some.injEq] at ha
          subst ha
          have hl := (adjGet_undefined_imp m e.to_ hg).1
          rw [lookup_append_new m e.to_ _ k hl]
          by_cases hk : k = e.to_
          · subst hk
            have hmk := hm e.to_
            rw [hl] at hmk
            by_cases hp : predecessors done e.to_ = []
            · simp [hp]
            · simp [hp] at hmk
          · have hk2 : ¬ e.to_ = k := fun h => hk h.symm
            simp [hk, hk2, hm k]
      have := ih m1 (done ++ [e]) adj hstep hb key
      simpa [List.append_assoc] using this

/-- The reverse adjacency, once built, holds under every identifier the sources of the
edges into it, and nothing under an identifier without such an edge. -/
theorem buildReverseAdj_spec (graph : List Edge) (adj : List (String × List String))
    (h : buildReverseAdj [] graph = some adj) (key : String) :
    adj.lookup key =
      if predecessors graph key = [] then none else some (predecessors graph key) := by
  have := buildReverseAdj_lookup graph [] [] adj (by intro k; simp [predecessors]) h key
  simpa using this

/-! ### One round of the search -/

theorem visit_spec (vs : List String) (st : BfsState) (d : String) :
    (∀ x, x ∈ (visit vs st d).visited ↔ x ∈ st.visited ∨ x = d) ∧
    (∀ x, x ∈ (visit vs st d).queue ↔ x ∈ st.queue ∨ (x = d ∧ d ∉ st.visited)) ∧
    (∀ x, x ∈ (visit vs st d).impactedSet ↔
      x ∈ st.impactedSet ∨ (x = d ∧ d ∉ st.visited ∧ d ∉ vs)) ∧
    (st.visited.Nodup → (visit vs st d).visited.Nodup) ∧
    (visit vs st d).queue.length + st.visited.length =
      st.queue.length + (visit vs st d).visited.length := by
  unfold visit
  by_cases hv : d ∈ st.visited
  · simp only [hv, if_true, not_true_eq_false, false_and, and_false, or_false, implies_true,
      and_true, true_and]
    refine ⟨?_, fun h => h⟩
    intro x
    constructor
    · exact Or.inl
    · rintro (h | rfl)
      · exact h
      · exact hv
  · simp only [hv, if_false, not_false_eq_true, true_and, and_true]
    have hadd : setAdd st.visited d = st.visited ++ [d] := by
      unfold setAdd
      rw [if_neg hv]
    refine ⟨fun x => mem_setAdd _ _ _, ?_, ?_, fun h => nodup_setAdd _ _ h, ?_⟩
    · intro x
      simp
    · intro x
      by_cases hd : d ∈ vs
      · simp [hd]
      · simp only [hd, if_false, mem_setAdd, not_false_eq_true, and_true]
    · rw [hadd]
      simp only [List.length_append, List.length_singleton]
      omega

theorem visit_fold_spec (vs : List String) (froms : List String) :
    ∀ st : BfsState,
      (∀ x, x ∈ (froms.foldl (visit vs) st).visited ↔ x ∈ st.visited ∨ x ∈ froms) ∧
      (∀ x, x ∈ (froms.foldl (visit vs) st).queue ↔
        x ∈ st.queue ∨ (x ∈ froms ∧ x ∉ st.visited)) ∧
      (∀ x, x ∈ (froms.foldl (visit vs) st).impactedSet ↔
        x ∈ st.impactedSet ∨ (x ∈ froms ∧ x ∉ st.visited ∧ x ∉ vs)) ∧
      (st.visited.Nodup → (froms.foldl (visit vs) st).visited.Nodup) ∧
      (froms.foldl (visit vs) st).queue.length + st.visited.length =
        st.queue.length + (froms.foldl (visit vs) st).visited.length := by
  induction froms with
  | nil =>
    intro st
    simp
  | cons d rest ih =>
    intro st
    obtain ⟨v1, q1, i1, n1, l1⟩ := visit_spec vs st d
    obtain ⟨v2, q2, i2, n2, l2⟩ := ih (visit vs st d)
    simp only [List.foldl_cons]
    refine ⟨?_, ?_, ?_, fun h => n2 (n1 h), by omega⟩
    · intro x
      rw [v2, v1]
      simp only [List.mem_cons]
      tauto
    · intro x
      rw [q2, q1, v1]
      simp only [List.mem_cons]
      by_cases hx : x = d
      · subst hx
        tauto
      · tauto
    · intro x
      rw [i2, i1, v1]
      simp only [List.mem_cons]
      by_cases hx : x = d
      · subst hx
        tauto
      · tauto

/-! ### Termination -/

/-- The search never runs out of rounds: the identifiers visited so far are distinct and
all come from the vulnerable set or the sources of the edges, and every identifier in the
queue has been visited. -/
theorem bfsLoop_ne_unfinished (graph : List Edge) (adj : List (String × List String))
    (hadj : ∀ key, adj.lookup key =
      if predecessors graph key = [] then none else some (predecessors graph key))
    (vs : List String) (fuel : Nat) :
    ∀ st : BfsState, st.visited.Nodup →
      (∀ x ∈ st.visited, x ∈ vs ++ graph.map Edge.from_) →
      st.queue.length + (vs.length + graph.length) ≤ fuel + st.visited.length →
      bfsLoop adj vs fuel st ≠ .unfinished := by
  have hbound : ∀ l : List String, l.Nodup → (∀ x ∈ l, x ∈ vs ++ graph.map Edge.from_) →
      l.length ≤ vs.length + graph.length := by
    intro l hl hsub
    have := (List.subperm_of_subset hl hsub).length_le
    simpa using this
  induction fuel with
  | zero =>
    intro st hnd hsub hlen
    have := hbound st.visited hnd hsub
    have hq : st.queue = [] := List.length_eq_zero.mp (by omega)
    simp [bfsLoop, hq]
  | succ n ih =>
    intro st hnd hsub hlen
    cases hq : st.queue with
    | nil => simp [bfsLoop, hq]
    | cons curr rest =>
      rw [hq] at hlen
      simp only [List.length_cons] at hlen
      simp only [bfsLoop, hq]
      cases hg : adjGet adj curr with
      | array froms =>
        simp only
        have hl := (adjGet_array_iff adj curr froms).mp hg
        rw [hadj curr] at hl
        have hfroms : froms = predecessors graph curr := by
          by_cases hp : predecessors graph curr = []
          · simp [hp] at hl
          · simpa [hp] using hl.symm
        obtain ⟨v, _, _, nd, len⟩ := visit_fold_spec vs froms { st with queue := rest }
        apply ih
        · exact nd hnd
        · intro x hx
          rcases (v x).mp hx with h | h
          · exact hsub x h
          · rw [hfroms, mem_predecessors] at h
            obtain ⟨e, he, hf, _⟩ := h
            exact List.mem_append_right _ (List.mem_map.mpr ⟨e, he, hf⟩)
        · simp only at len
          omega
      | inherited => simp
      | undefined =>
        simp only
        apply ih
        · exact hnd
        · exact hsub
        · simp only
          omega

/-! ### Correctness -/

theorem bfsInv_step (graph : List Edge) (vs : List String) (st : BfsState)
    (curr : String) (rest : List String) (hq : st.queue = curr :: rest)
    (h : BfsInv graph vs st) :
    BfsInv graph vs
      ((predecessors graph curr).foldl (visit vs) { st with queue := rest }) := by
  obtain ⟨ha, hb, hc, hd, he⟩ := h
  obtain ⟨v, q, i, _, _⟩ :=
    visit_fold_spec vs (predecessors graph curr) { st with queue := rest }
  simp only at v q i
  have hcurr : curr ∈ st.visited := he curr (by rw [hq]; exact List.mem_cons_self _ _)
  refine ⟨?_, ?_, ?_, ?_, ?_⟩
  · intro x hx
    exact (v x).mpr (Or.inl (ha x hx))
  · intro x hx
    rcases (v x).mp hx with h1 | h1
    · exact hb x h1
    · right
      have hedge : edgeRel graph x curr := (mem_predecessors graph curr x).mp h1
      rcases hb curr hcurr with h2 | ⟨w, hw, hr⟩
      · exact ⟨curr, h2, Relation.TransGen.single hedge⟩
      · exact ⟨w, hw, Relation.TransGen.head hedge hr⟩
  · intro x
    rw [i, v, hc]
    tauto
  · intro x hx
    rcases (v x).mp hx with h1 | h1
    · rcases hd x h1 with h2 | h2
      · rw [hq] at h2
        rcases List.mem_cons.mp h2 with h3 | h3
        · right
          intro y hy
          rw [h3] at hy
          exact (v y).mpr (Or.inr ((mem_predecessors graph curr y).mpr hy))
        · exact Or.inl ((q x).mpr (Or.inl h3))
      · right
        intro y hy
        exact (v y).mpr (Or.inl (h2 y hy))
    · by_cases hxv : x ∈ st.visited
      · rcases hd x hxv with h2 | h2
        · rw [hq] at h2
          rcases List.mem_cons.mp h2 with h3 | h3
          · right
            intro y hy
            rw [h3] at hy
            exact (v y).mpr (Or.inr ((mem_predecessors graph curr y).mpr hy))
          · exact Or.inl ((q x).mpr (Or.inl h3))
        · right
          intro y hy
          exact (v y).mpr (Or.inl (h2 y hy))
      · exact Or.inl ((q x).mpr (Or.inr ⟨h1, hxv⟩))
  · intro x hx
    rcases (q x).mp hx with h1 | ⟨h1, _⟩
    · exact (v x).mpr (Or.inl (he x (by rw [hq]; exact List.mem_cons_of_mem _ h1)))
    · exact (v x).mpr (Or.inr h1)

theorem bfsInv_final (graph : List Edge) (vs : List String) (st : BfsState)
    (hq : st.queue = []) (h : BfsInv graph vs st) (x : String) :
    x ∈ st.impactedSet ↔ x ∉ vs ∧ ∃ v ∈ vs, Reaches graph x v := by
  obtain ⟨ha, hb, hc, hd, _⟩ := h
  have hclosed : ∀ z ∈ st.visited, ∀ y, edgeRel graph y z → y ∈ st.visited := by
    intro z hz
    rcases hd z hz with h1 | h1
    · rw [hq] at h1
      cases h1
    · exact h1
  have hreach : ∀ y v, Reaches graph y v → v ∈ st.visited → y ∈ st.visited := by
    intro y v hr
    induction hr with
    | single hyv => exact fun hv => hclosed _ hv _ hyv
    | tail _ hbc ih => exact fun hv => ih (hclosed _ hv _ hbc)
  rw [hc]
  constructor
  · rintro ⟨hv, hn⟩
    rcases hb x hv with h1 | h1
    · exact absurd h1 hn
    · exact ⟨hn, h1⟩
  · rintro ⟨hn, w, hw, hr⟩
    exact ⟨hreach x w hr (ha w hw), hn⟩

theorem adjGet_eq_predecessors (graph : List Edge) (adj : List (String × List String))
    (hadj : ∀ key, adj.lookup key =
      if predecessors graph key = [] then none else some (predecessors graph key))
    (curr : String) :
    (∀ froms, adjGet adj curr = .array froms → froms = predecessors graph curr) ∧
    (adjGet adj curr = .undefined → predecessors graph curr = []) := by
  constructor
  · intro froms hg
    have hl := (adjGet_array_iff adj curr froms).mp hg
    rw [hadj curr] at hl
    by_cases hp : predecessors graph curr = []
    · simp [hp] at hl
    · simpa [hp] using hl.symm
  · intro hg
    have hl := (adjGet_undefined_imp adj curr hg).1
    rw [hadj curr] at hl
    by_contra hp
    simp [hp] at hl

theorem bfsLoop_finished_spec (graph : List Edge) (adj : List (String × List String))
    (hadj : ∀ key, adj.lookup key =
      if predecessors graph key = [] then none else some (predecessors graph key))
    (vs : List String) (fuel : Nat) :
    ∀ (st : BfsState) (imp : List String), BfsInv graph vs st →
      bfsLoop adj vs fuel st = .finished imp →
      ∀ x, x ∈ imp ↔ x ∉ vs ∧ ∃ v ∈ vs, Reaches graph x v := by
  induction fuel with
  | zero =>
    intro st imp hinv hres
    cases hq : st.queue with
    | nil =>
      simp only [bfsLoop, hq, BfsOutcome.finished.injEq] at hres
      subst hres
      exact bfsInv_final graph vs st hq hinv
    | cons c r => simp [bfsLoop, hq] at hres
  | succ n ih =>
    intro st imp hinv hres
    cases hq : st.queue with
    | nil =>
      simp only [bfsLoop, hq, BfsOutcome.finished.injEq] at hres
      subst hres
      exact bfsInv_final graph vs st hq hinv
    | cons curr rest =>
      simp only [bfsLoop, hq] at hres
      have hstep := bfsInv_step graph vs st curr rest hq hinv
      obtain ⟨harr, hund⟩ := adjGet_eq_predecessors graph adj hadj curr
      cases hg : adjGet adj curr with
      | array froms =>
        rw [hg] at hres
        simp only at hres
        rw [harr froms hg] at hres
        exact ih _ imp hstep hres
      | inherited =>
        rw [hg] at hres
        simp at hres
      | undefined =>
        rw [hg] at hres
        simp only at hres
        rw [hund hg] at hstep
        exact ih _ imp hstep hres

/-! ### No `TypeError` without inherited names -/

theorem buildReverseAdj_isSome (graph : List Edge)
    (h : ∀ e ∈ graph, ¬ IsInheritedName e.to_) :
    ∀ m : List (String × List String), ∃ adj, buildReverseAdj m graph = some adj := by
  induction graph with
  | nil => exact fun m => ⟨m, rfl⟩
  | cons e es ih =>
    intro m
    have he : ¬ IsInheritedName e.to_ := h e (List.mem_cons_self _ _)
    have ih2 := ih (fun e2 h2 => h e2 (List.mem_cons_of_mem _ h2))
    simp only [buildReverseAdj, addReverse]
    cases hg : adjGet m e.to_ with
    | array xs => exact ih2 _
    | inherited => exact absurd (adjGet_inherited_imp m e.to_ hg) he
    | undefined => exact ih2 _

theorem bfsLoop_ne_typeError (graph : List Edge) (adj : List (String × List String))
    (hadj : ∀ key, adj.lookup key =
      if predecessors graph key = [] then none else some (predecessors graph key))
    (vs : List String)
    (hclean : ∀ x ∈ vs ++ graph.map Edge.from_, ¬ IsInheritedName x) (fuel : Nat) :
    ∀ st : BfsState, (∀ x ∈ st.queue, x ∈ vs ++ graph.map Edge.from_) →
      bfsLoop adj vs fuel st ≠ .typeError := by
  induction fuel with
  | zero =>
    intro st _
    cases hq : st.queue <;> simp [bfsLoop, hq]
  | succ n ih =>
    intro st hsub
    cases hq : st.queue with
    | nil => simp [bfsLoop, hq]
    | cons curr rest =>
      simp only [bfsLoop, hq]
      have hrest : ∀ x ∈ rest, x ∈ vs ++ graph.map Edge.from_ :=
        fun x hx => hsub x (by rw [hq]; exact List.mem_cons_of_mem _ hx)
      cases hg : adjGet adj curr with
      | array froms =>
        simp only
        have hf := (adjGet_eq_predecessors graph adj hadj curr).1 froms hg
        obtain ⟨_, q, _, _, _⟩ := visit_fold_spec vs froms { st with queue := rest }
        apply ih
        intro x hx
        rcases (q x).mp hx with h1 | ⟨h1, _⟩
        · exact hrest x h1
        · rw [hf, mem_predecessors] at h1
          obtain ⟨e, he, hfr, _⟩ := h1
          exact List.mem_append_right _ (List.mem_map.mpr ⟨e, he, hfr⟩)
      | inherited =>
        exact absurd (adjGet_inherited_imp adj curr hg)
          (hclean curr (hsub curr (by rw [hq]; exact List.mem_cons_self _ _)))
      | undefined =>
        simp only
        exact ih _ hrest

/-! ### The whole calculation -/

theorem bfsInv_init (graph : List Edge) (vs : List String) :
    BfsInv graph vs { queue := vs, visited := vs, impactedSet := [] } := by
  refine ⟨fun x hx => hx, fun x hx => Or.inl hx, ?_, fun x hx => Or.inl hx, fun x hx => hx⟩
  intro x
  simp

/-- The search of `ConnectivityGraph` never runs out of rounds: it ends, with its result or
with a `TypeError`, on every edge list, cycles included. -/
theorem impactedOf_ne_unfinished (dependencies : List ReportItem) (graph : List Edge) :
    impactedOf dependencies graph ≠ .unfinished := by
  unfold impactedOf
  cases hb : buildReverseAdj [] graph with
  | none => simp
  | some adj =>
    simp only
    apply bfsLoop_ne_unfinished graph adj (buildReverseAdj_spec graph adj hb)
    · exact nodup_jsSet _
    · intro x hx
      exact List.mem_append_left _ hx
    · simp only
      omega

/-- Whenever the search of `ConnectivityGraph` ends with a result, `impactedSet` holds
exactly the identifiers that are not vulnerable and from which a vulnerable identifier is
reachable by a path of one or more edges; so it is disjoint from the vulnerable set. -/
theorem impactedOf_finished_spec (dependencies : List ReportItem) (graph : List Edge)
    (imp : List String) (h : impactedOf dependencies graph = .finished imp) :
    (∀ x, x ∈ imp ↔ x ∉ vulnerableSet dependencies ∧
      ∃ v ∈ vulnerableSet dependencies, Reaches graph x v) ∧
    ∀ x ∈ imp, x ∉ vulnerableSet dependencies := by
  unfold impactedOf at h
  cases hb : buildReverseAdj [] graph with
  | none => simp [hb] at h
  | some adj =>
    rw [hb] at h
    have hspec := bfsLoop_finished_spec graph adj (buildReverseAdj_spec graph adj hb)
      (vulnerableSet dependencies) _ _ imp (bfsInv_init graph _) h
    exact ⟨hspec, fun x hx => ((hspec x).mp hx).1⟩

/-- When no identifier of the edges and no vulnerable identifier is a property name that
plain objects inherit, the search of `ConnectivityGraph` ends with a result. -/
theorem impactedOf_finished_of_clean (dependencies : List ReportItem) (graph : List Edge)
    (hg : ∀ e ∈ graph, ¬ IsInheritedName e.from_ ∧ ¬ IsInheritedName e.to_)
    (hv : ∀ x ∈ vulnerableSet dependencies, ¬ IsInheritedName x) :
    ∃ imp, impactedOf dependencies graph = .finished imp := by
  have hne := impactedOf_ne_unfinished dependencies graph
  obtain ⟨adj, hb⟩ := buildReverseAdj_isSome graph (fun e he => (hg e he).2) []
  have hclean : ∀ x ∈ vulnerableSet dependencies ++ graph.map Edge.from_,
      ¬ IsInheritedName x := by
    intro x hx
    rcases List.mem_append.mp hx with h1 | h1
    · exact hv x h1
    · obtain ⟨e, he, rfl⟩ := List.mem_map.mp h1
      exact (hg e he).1
  have hnt : impactedOf dependencies graph ≠ .typeError := by
    unfold impactedOf
    rw [hb]
    exact bfsLoop_ne_typeError graph adj (buildReverseAdj_spec graph adj hb) _ hclean _ _
      (fun x hx => List.mem_append_left _ hx)
  cases hres : impactedOf dependencies graph with
  | finished imp => exact ⟨imp, rfl⟩
  | typeError => exact absurd hres hnt
  | unfinished => exact absurd hres hne

/-- On the example with the cycle `a -> b -> c -> a`, the search ends and colours the three
identifiers of the cycle, from which the vulnerable `v.jar` is reachable. -/
theorem impactedOf_cycle_example :
    vulnerableSet cycleDependencies = ["v.jar", "w.jar"] ∧
    impactedOf cycleDependencies cycleGraph = .finished ["c.jar", "b.jar", "a.jar"] := by
  decide

/-- C30 fails on an identifier that plain objects inherit.  For the one edge from `a.jar` to
`constructor` the read `reverseAdj["constructor"]` yields the inherited function, no array
is created, and the first loop throws a `TypeError`; for a vulnerable dependency named
`toString` and no edge the search itself throws.  Neither run computes `impactedSet`. -/
theorem impactedOf_throws :
    adjGet [] "constructor" = .inherited ∧
    buildReverseAdj [] [{ from_ := "a.jar", to_ := "constructor" }] = none ∧
    impactedOf [] [{ from_ := "a.jar", to_ := "constructor" }] = .typeError ∧
    vulnerableSet toStringDependencies = ["toString"] ∧
    impactedOf toStringDependencies [] = .typeError := by
  decide

/-! ## The error path of the impact operation -/

/-- C5 (code defect): for the report in which `app.jar` depends on `lib.jar` and on an
identifier named `toString`, the first loop of the ingestion creates the records `app.jar`
and `lib.jar`, and the second loop throws; the impact operation then answers with status
500 for `lib.jar`, which has a record, where the claim says it returns a result, and with
status 500 for `zzz`, which has none, where the claim says it answers "not found". -/
theorem impactAnalysis_fails_with_record :
    (buildMap (inheritedDepReport.dependencies.getD [])).values.map
      DependencyRecord.fileName = ["app.jar", "lib.jar"] ∧
    simulateDependencyRelations inheritedDepReport = none ∧
    impactAnalysis (some inheritedDepReport) "lib.jar" = .failed "Impact analysis failed" ∧
    impactAnalysis (some inheritedDepReport) "zzz" = .failed "Impact analysis failed" := by
  decide

/-- C17 (code defect): in the report `inheritedDepReport` the dependency identifier
`toString` of `app.jar` names no item, and it is not dropped silently:
`simulateDependencyRelations` throws and returns no record at all.  The identifier
`missing.jar` of `danglingReport`, which names no item either, is dropped. -/
theorem dangling_inherited_name_throws :
    "toString" ∉ (inheritedDepReport.dependencies.getD []).map ReportItem.fileName ∧
    (∃ d ∈ inheritedDepReport.dependencies.getD [], "toString" ∈ d.dependencies.getD []) ∧
    (buildMap (inheritedDepReport.dependencies.getD [])).get "toString" = .inherited ∧
    simulateDependencyRelations inheritedDepReport = none ∧
    simulateDependencyRelations danglingReport = some danglingEnhanced := by
  decide

end VulnAnalyzer
